import Mathlib

/-!
# CTC faster decoder: a shallow embedding of `optimize-ctc-faster-decoder.cpp`

The decoder keeps a frontier of hypotheses ("tokens") keyed by graph state and
advances it frame by frame.  This file embeds the member functions of
`CtcFasterDecoder` as Lean functions over an explicit decoder state and proves
properties of them.

Modelling conventions.

* `double`/`float` values are rationals (`ℚ`).  Where this file computes a sum,
  a difference or a conversion to `float` on them, the result is rounded to the
  nearest value with 53 (`double`) or 24 (`float`) significant bits, ties to
  even (`toDouble`, `toFloat`); the exponent range is not bounded, so overflow
  to infinity, underflow and NaN are outside the model.  The cost of a token is
  computed by the constructors of the missing header and follows the formula
  of the specification; the candidate weight `new_weight` of `ProcessEmitting`
  is that same cost.  Where the source initialises a bound to `+infinity` the
  bound has type `WithTop ℚ`.
* `int` values (state ids, labels, frame counters) are mathematical integers;
  the one sum of two `int`s that can leave the range of `int`
  (`_num_frames_decoded + max_num_frames`) wraps around to 32 bits (`wrapInt`).
* `unordered_map<StateId, Token*>` is an association list; its iteration order
  is the list order, `find` returns the first entry with the key and a new key
  is appended at the end.
* `Token*` back-pointers are an inductive back-spine (`Option Token` is a
  possibly-null pointer).  Reference counts and `TokenDelete` have no effect on
  the values computed and are not modelled.
* Loops that the source does not bound (the worklist of `ProcessNonemitting`)
  take a fuel argument and report `Err.fuel` when it runs out; a failing
  `assert` is reported as `Err.assertion`.
-/

namespace CtcFasterDecoder

/-! ## Data model -/

/-- Graph state identifier (`StateId`, a signed integer in the source). -/
abbrev StateId := Int

/-- Input or output label of an arc. -/
abbrev Label := Int

/-- Arc of the decoding graph: `StdArc(input, output, to, w)`. -/
structure StdArc where
  _input : Label
  _output : Label
  _to : StateId
  _w : ℚ
deriving DecidableEq, Repr

/-- One hypothesis node: the arc taken, the predecessor (null at the root) and
the accumulated cost. -/
inductive Token where
  | mk (_arc : StdArc) (_prev : Option Token) (_tot_cost : ℚ)

namespace Token

/-- Field `_arc`. -/
def _arc : Token → StdArc
  | .mk a _ _ => a

/-- Field `_prev`. -/
def _prev : Token → Option Token
  | .mk _ p _ => p

/-- Field `_tot_cost`. -/
def _tot_cost : Token → ℚ
  | .mk _ _ c => c

/-- Modelled from the spec: the header declaring `Token` is missing.  Section 4.A:
construction from (arc, predecessor) gives
`tot_cost = predecessor.tot_cost + arc.weight + optional acoustic_cost`;
the root (null predecessor) starts from cost zero. -/
def new (arc : StdArc) (ac_cost : ℚ) (prev : Option Token) : Token :=
  match prev with
  | none => .mk arc none (arc._w + ac_cost)
  | some p => .mk arc (some p) (p._tot_cost + arc._w + ac_cost)

/-- Modelled from the spec: `Token::operator>` is declared in the missing header.
Section 4.A: tokens are ordered by `tot_cost`. -/
def gt (a b : Token) : Bool := decide (b._tot_cost < a._tot_cost)

/-- Modelled from the spec: `GetIlabel` is declared in the missing header; it is
the input label of the token's arc. -/
def GetIlabel (t : Token) : Label := t._arc._input

/-- Modelled from the spec: `GetOlabel` is declared in the missing header; it is
the output label of the token's arc. -/
def GetOlabel (t : Token) : Label := t._arc._output

/-- Arcs on the back-spine of a token, leaf first, root last: the order in which
the loop `for (tok = best_tok; tok != NULL; tok = tok->_prev)` visits them. -/
def spine : Token → List StdArc
  | .mk a none _ => [a]
  | .mk a (some p) _ => a :: spine p

end Token

/-- Frontier map `unordered_map<StateId, Token*>`. -/
abbrev TokMap := List (StateId × Token)

/-- Conversion `(unsigned)stateid` applied before `GetState`. -/
def toUnsigned (x : Int) : Int := x % 4294967296

/-- Modelled from the spec: class `Fst` is declared in a missing header.
Section 6 lists the interface consumed: `Start`, `TotState`, `IsFinal` and
`GetState` (whose state view is the list of its arcs). -/
structure Fst where
  Start : StateId
  TotState : StateId
  IsFinal : StateId → Bool
  GetState : Int → List StdArc

/-- Arcs read by `_graph->GetState((unsigned)stateid)`. -/
def Fst.arcs (g : Fst) (stateid : StateId) : List StdArc :=
  g.GetState (toUnsigned stateid)

/-- Modelled from the spec: class `AmInterface` is declared in a missing header.
Section 6 lists the oracle interface.  `NumFramesReady` is the value the oracle
reports to one call of `AdvanceDecoding`. -/
structure AmInterface where
  NumFramesReady : Int
  LogLikelihood : Int → Label → ℚ
  SkipBlockFrame : Int → Bool
  GetBlockTransitionId : Label
  ExamineFrame : Int → Bool

/-- Modelled from the spec: `CtcFasterDecoderOptions` is declared in the missing
header; section 6 lists its fields. -/
structure CtcFasterDecoderOptions where
  _beam : ℚ
  _max_active : Int
  _min_active : Int
  _beam_delta : ℚ
  _hash_ratio : ℚ
deriving DecidableEq, Repr

/-- Mutable members of `CtcFasterDecoder`.  The graph and the options are
read-only and are passed to each operation. -/
structure Decoder where
  _cur_toks : TokMap
  _prev_toks : TokMap
  _num_frames_decoded : Int
  _queue : List StateId
  _tmp_array : List ℚ

/-- Ways an operation can fail to return. -/
inductive Err where
  | assertion
  | nullToken
  | fuel
deriving DecidableEq, Repr

/-! ## Floating-point rounding -/

/-- Rounding of a rational to an integer: to nearest, ties to even. -/
def roundHalfEven (y : ℚ) : Int :=
  if y - ⌊y⌋ < 1 / 2 then ⌊y⌋
  else if 1 / 2 < y - ⌊y⌋ then ⌊y⌋ + 1
  else if ⌊y⌋ % 2 = 0 then ⌊y⌋ else ⌊y⌋ + 1

/-- Rounding to the nearest binary floating-point value with `p` significant
bits, ties to even: with `2^e <= |x| < 2^(e+1)` the result is the multiple of
`2^(e - (p - 1))` nearest to `x`. -/
def roundSig (p : Nat) (x : ℚ) : ℚ :=
  if x = 0 then 0
  else
    let e := Int.log 2 |x|
    let q : ℚ := 2 ^ (e - ((p : Int) - 1))
    roundHalfEven (x / q) * q

/-- Conversion to `float` (24 significant bits). -/
def toFloat (x : ℚ) : ℚ := roundSig 24 x

/-- Result of an arithmetic operation in `double` (53 significant bits) whose
exact value is `x`. -/
def toDouble (x : ℚ) : ℚ := roundSig 53 x

/-- Sum `a + b` of two `double` bounds, either of which may be `+infinity`. -/
def addDouble (a b : WithTop ℚ) : WithTop ℚ :=
  match a, b with
  | some x, some y => ((toDouble (x + y) : ℚ) : WithTop ℚ)
  | _, _ => ⊤

/-- Store of a `double` bound into a `float`. -/
def floatOfBound (a : WithTop ℚ) : WithTop ℚ :=
  match a with
  | some x => ((toFloat x : ℚ) : WithTop ℚ)
  | none => ⊤

/-- Value of an `int` expression whose exact value is `x`: wrap-around to 32
bits in two's complement. -/
def wrapInt (x : Int) : Int := (x + 2147483648) % 4294967296 - 2147483648

/-! ## ReachedFinal and GetBestPath -/

/-- `CtcFasterDecoder::ReachedFinal`: some token of `_cur_toks` has a cost other
than infinity and sits at a final state. -/
def ReachedFinal (g : Fst) (d : Decoder) : Bool :=
  d._cur_toks.any fun it =>
    decide ((it.2._tot_cost : WithTop ℚ) ≠ ⊤) && g.IsFinal it.1

/-- Test `best_tok == NULL || *best_tok > *tok` of the selection loops. -/
def better (best_tok : Option Token) (tok : Token) : Bool :=
  match best_tok with
  | none => true
  | some b => b.gt tok

/-- Body of the selection loop of `GetBestPath` taken when `is_final` holds. -/
def finalStep (g : Fst) (best_tok : Option Token) (it : StateId × Token) : Option Token :=
  if better best_tok it.2 && g.IsFinal it.1 then some it.2 else best_tok

/-- Selection loop of `GetBestPath` taken when `is_final` holds. -/
def bestFinalTok (g : Fst) (toks : TokMap) : Option Token :=
  toks.foldl (finalStep g) none

/-- Body of the selection loop of `GetBestPath` taken when `is_final` does not
hold. -/
def anyStep (best_tok : Option Token) (it : StateId × Token) : Option Token :=
  if better best_tok it.2 then some it.2 else best_tok

/-- Selection loop of `GetBestPath` taken when `is_final` does not hold. -/
def bestAnyTok (toks : TokMap) : Option Token :=
  toks.foldl anyStep none

/-- Values updated by the back-trace loop of `GetBestPath`. -/
structure TraceAcc where
  best_lm_score : ℚ
  phone_arr : List Int
  words_arr : List Int

/-- Body of the back-trace loop for one token; `best_lm_score` is a `float`, so
the sum `best_lm_score += tok->_arc._w` is stored rounded to `float`. -/
def traceStep (acc : TraceAcc) (tok : Token) : TraceAcc :=
  let phoneid := tok.GetIlabel
  let wordid := tok.GetOlabel
  { best_lm_score := toFloat (acc.best_lm_score + tok._arc._w)
    phone_arr := if phoneid ≠ 0 then acc.phone_arr ++ [phoneid] else acc.phone_arr
    words_arr := if wordid ≠ 0 then acc.words_arr ++ [wordid] else acc.words_arr }

/-- Back-trace loop `for (tok = best_tok; tok != NULL; tok = tok->_prev)`. -/
def traceBack : Token → TraceAcc → TraceAcc
  | .mk a none c, acc => traceStep acc (.mk a none c)
  | .mk a (some p) c, acc => traceBack p (traceStep acc (.mk a (some p) c))

/-- Call `v.clear()`. -/
def vecClear (_v : List Int) : List Int := []

/-- Element `v[i]` of a vector, for an in-range `int` index. -/
def vecGet (v : List Int) (i : Int) : Int := v.getD i.toNat 0

/-- Assignment `v[i] = x`. -/
def vecSet (v : List Int) (i : Int) (x : Int) : List Int := v.set i.toNat x

/-- The three XOR assignments that exchange `v[start]` and `v[end]`. -/
def xorSwap (v : List Int) (start end_ : Int) : List Int :=
  let v1 := vecSet v start (Int.xor (vecGet v start) (vecGet v end_))
  let v2 := vecSet v1 end_ (Int.xor (vecGet v1 start) (vecGet v1 end_))
  vecSet v2 start (Int.xor (vecGet v2 start) (vecGet v2 end_))

/-- Loop `for (start, end; start < end; ++start, --end)`; the first argument
bounds the number of iterations. -/
def xorReverseLoop : Nat → List Int → Int → Int → List Int
  | 0, v, _, _ => v
  | n + 1, v, start, end_ =>
    if start < end_ then xorReverseLoop n (xorSwap v start end_) (start + 1) (end_ - 1)
    else v

/-- In-place inversion of a vector as written in `GetBestPath`:
`start = 0`, `end = size - 1`.  The loop runs at most `size` times. -/
def xorReverse (v : List Int) : List Int :=
  xorReverseLoop v.length v 0 ((v.length : Int) - 1)

/-- Result of `GetBestPath`: the returned flag and the out-parameters. -/
structure BestPathResult where
  ret : Bool
  words_arr : List Int
  phone_arr : List Int
  best_tot_score : ℚ
  best_lm_score : ℚ
deriving DecidableEq, Repr

/-- Selection of `best_tok` in `GetBestPath`: among the tokens at final states
when `ReachedFinal()` holds, among all tokens otherwise. -/
def selectBest (g : Fst) (d : Decoder) : Option Token :=
  let is_final := ReachedFinal g d
  if is_final = true then bestFinalTok g d._cur_toks else bestAnyTok d._cur_toks

/-- `CtcFasterDecoder::GetBestPath`.  The arguments after the decoder are the
contents of the out-parameters on entry and the flag `use_final_probs`, which
the body never reads.  `best_tot_score` receives `(float)best_tok->_tot_cost`. -/
def GetBestPath (g : Fst) (d : Decoder) (words_arr phone_arr : List Int)
    (best_tot_score best_lm_score : ℚ) (use_final_probs : Bool) : BestPathResult :=
  let _ := use_final_probs
  let words_arr := vecClear words_arr
  match selectBest g d with
  | none => ⟨false, words_arr, phone_arr, best_tot_score, best_lm_score⟩
  | some best_tok =>
    let acc := traceBack best_tok ⟨0, phone_arr, words_arr⟩
    ⟨true, xorReverse acc.words_arr, xorReverse acc.phone_arr, toFloat best_tok._tot_cost,
      acc.best_lm_score⟩

/-! ## Frontier map primitives -/

/-- Two-argument constructor `Token(arc, prev)`.  Modelled from the spec: the
header is missing; section 4.A gives `tot_cost = predecessor.tot_cost +
arc.weight` with no acoustic cost. -/
def Token.ofArc (arc : StdArc) (prev : Option Token) : Token :=
  match prev with
  | none => .mk arc none arc._w
  | some p => .mk arc (some p) (p._tot_cost + arc._w)

/-- Lookup `toks.find(s)`: the token stored under key `s`, if any. -/
def findTok (toks : TokMap) (s : StateId) : Option Token :=
  match toks with
  | [] => none
  | (k, v) :: rest => if k = s then some v else findTok rest s

/-- Assignment `iter->second = new_tok` at the entry found for key `s`. -/
def assignTok (toks : TokMap) (s : StateId) (new_tok : Token) : TokMap :=
  match toks with
  | [] => []
  | (k, v) :: rest =>
    if k = s then (k, new_tok) :: rest else (k, v) :: assignTok rest s new_tok

/-- Insert-or-replace block shared by the three expansion sites: a missing key
is inserted, an incumbent is replaced only if it is strictly worse
(`*(iter->second) > *new_tok`).  The flag tells whether the map changed. -/
def insertOrReplace (toks : TokMap) (s : StateId) (new_tok : Token) : TokMap × Bool :=
  match findTok toks s with
  | none => (toks ++ [(s, new_tok)], true)
  | some old =>
    if old.gt new_tok then (assignTok toks s new_tok, true) else (toks, false)

/-! ## Constructor -/

/-- Constructor `CtcFasterDecoder::CtcFasterDecoder`: three assertions on the
options, then `_num_frames_decoded(-1)` and empty containers. -/
def construct (opts : CtcFasterDecoderOptions) : Except Err Decoder :=
  if ¬ (1 ≤ opts._hash_ratio) then .error .assertion
  else if ¬ (1 < opts._max_active) then .error .assertion
  else if ¬ (0 ≤ opts._min_active ∧ opts._min_active < opts._max_active) then
    .error .assertion
  else .ok ⟨[], [], -1, [], []⟩

/-! ## GetCutoff -/

/-- Value of `std::numeric_limits<int>::max()`. -/
def INT_MAX : Int := 2147483647

/-- Value of `std::numeric_limits<float>::max()`. -/
def FLT_MAX : ℚ := 340282346638528859811704183484516925440

/-- Conversion `static_cast<size_t>(n)` of an `int` (64-bit `size_t`). -/
def toSizeT (n : Int) : Nat := (n % 18446744073709551616).toNat

/-- Call `std::nth_element(begin, begin + nth, begin + last)`.  The standard only
fixes that afterwards position `nth` holds the element a full sort of the range
would put there, with nothing greater before it and nothing smaller after it;
the model sorts the range, which is one such arrangement. -/
def nth_element (arr : List ℚ) (_nth last : Nat) : List ℚ :=
  (arr.take last).insertionSort (· ≤ ·) ++ arr.drop last

/-- Difference `a - b` of two `double` bounds.  An infinite `b` is not met:
`best_cost` is infinite only for an empty frontier, and then neither
adaptive-beam branch of `GetCutoff` is taken. -/
def subBound (a b : WithTop ℚ) : WithTop ℚ :=
  match a, b with
  | some x, some y => ((toDouble (x - y) : ℚ) : WithTop ℚ)
  | _, _ => ⊤

/-- Values written by the scanning loop of `GetCutoff`. -/
structure ScanAcc where
  best_cost : WithTop ℚ
  best_tok : Option Token
  best_stateid : StateId
  count : Nat
  tmp_array : List ℚ

/-- One iteration of the scanning loop; `push` tells whether the cost is also
appended to `_tmp_array` (the general branch) or not (the fast branch). -/
def scanStep (push : Bool) (acc : ScanAcc) (it : StateId × Token) : ScanAcc :=
  let w := it.2._tot_cost
  let tmp := if push then acc.tmp_array ++ [w] else acc.tmp_array
  if (w : WithTop ℚ) < acc.best_cost then
    { best_cost := w, best_tok := some it.2, best_stateid := it.1,
      count := acc.count + 1, tmp_array := tmp }
  else { acc with count := acc.count + 1, tmp_array := tmp }

/-- Outputs of `GetCutoff`: the returned cutoff, the out-parameters and the
scratch array it leaves behind in `_tmp_array`. -/
structure CutoffResult where
  cutoff : WithTop ℚ
  tok_count : Nat
  adaptive_beam : WithTop ℚ
  best_tok : Option Token
  best_stateid : StateId
  tmp_array : List ℚ

/-- Block `if (_tmp_array.size() > max_active) { nth_element ...;
max_active_cutoff = _tmp_array[max_active]; }` of `GetCutoff`: the array
afterwards and `max_active_cutoff` (infinite when the block is skipped). -/
def maxActiveCutoff (cfg : CtcFasterDecoderOptions) (tmp : List ℚ) : List ℚ × WithTop ℚ :=
  if toSizeT cfg._max_active < tmp.length then
    let tmp1 := nth_element tmp cfg._max_active.toNat tmp.length
    (tmp1, ((tmp1.getD cfg._max_active.toNat 0 : ℚ) : WithTop ℚ))
  else (tmp, ⊤)

/-- Block `if (_tmp_array.size() > min_active) { ... }` of `GetCutoff`: the array
afterwards and `min_active_cutoff` (infinite when the block is skipped). -/
def minActiveCutoff (cfg : CtcFasterDecoderOptions) (best_cost : WithTop ℚ) (tmp : List ℚ) :
    List ℚ × WithTop ℚ :=
  if toSizeT cfg._min_active < tmp.length then
    if cfg._min_active = 0 then (tmp, best_cost)
    else
      let tmp2 := nth_element tmp cfg._min_active.toNat
        (if toSizeT cfg._max_active < tmp.length then cfg._max_active.toNat else tmp.length)
      (tmp2, ((tmp2.getD cfg._min_active.toNat 0 : ℚ) : WithTop ℚ))
  else (tmp, ⊤)

/-- `CtcFasterDecoder::GetCutoff`, called with all out-parameters present as
`ProcessEmitting` does.  `best_tok0`, `best_stateid0` and `tmp0` are the values
of `*best_tok`, `*best_stateid` and `_tmp_array` on entry.  The sums and
differences are those of `double`; `*adaptive_beam` is a `float`, so what is
stored there is converted to `float`. -/
def GetCutoff (cfg : CtcFasterDecoderOptions) (toks : TokMap)
    (best_tok0 : Option Token) (best_stateid0 : StateId) (tmp0 : List ℚ) : CutoffResult :=
  if cfg._max_active = INT_MAX ∧ cfg._min_active = 0 then
    let acc := toks.foldl (scanStep false) ⟨⊤, best_tok0, best_stateid0, 0, tmp0⟩
    { cutoff := addDouble acc.best_cost (cfg._beam : WithTop ℚ), tok_count := acc.count,
      adaptive_beam := floatOfBound (cfg._beam : WithTop ℚ), best_tok := acc.best_tok,
      best_stateid := acc.best_stateid, tmp_array := acc.tmp_array }
  else
    let acc := toks.foldl (scanStep true) ⟨⊤, best_tok0, best_stateid0, 0, []⟩
    let best_cost := acc.best_cost
    let beam_cutoff : WithTop ℚ := addDouble best_cost (cfg._beam : WithTop ℚ)
    let mx := maxActiveCutoff cfg acc.tmp_array
    let max_active_cutoff := mx.2
    if max_active_cutoff < beam_cutoff then
      { cutoff := max_active_cutoff, tok_count := acc.count,
        adaptive_beam := floatOfBound
          (addDouble (subBound max_active_cutoff best_cost) (cfg._beam_delta : WithTop ℚ)),
        best_tok := acc.best_tok, best_stateid := acc.best_stateid, tmp_array := mx.1 }
    else
      let mn := minActiveCutoff cfg best_cost mx.1
      let min_active_cutoff := mn.2
      if beam_cutoff < min_active_cutoff then
        { cutoff := min_active_cutoff, tok_count := acc.count,
          adaptive_beam := floatOfBound
            (addDouble (subBound min_active_cutoff best_cost) (cfg._beam_delta : WithTop ℚ)),
          best_tok := acc.best_tok, best_stateid := acc.best_stateid, tmp_array := mn.1 }
      else
        { cutoff := beam_cutoff, tok_count := acc.count,
          adaptive_beam := floatOfBound (cfg._beam : WithTop ℚ),
          best_tok := acc.best_tok, best_stateid := acc.best_stateid, tmp_array := mn.1 }

/-! ## ProcessEmitting -/

/-- Update `if (new_weight + adaptive_beam < next_weight_cutoff)
next_weight_cutoff = new_weight + adaptive_beam`; the sum is that of `double`. -/
def tighten (new_weight : ℚ) (adaptive_beam next_weight_cutoff : WithTop ℚ) : WithTop ℚ :=
  if addDouble (new_weight : WithTop ℚ) adaptive_beam < next_weight_cutoff then
    addDouble (new_weight : WithTop ℚ) adaptive_beam
  else next_weight_cutoff

/-- Test `arc->_input != 0 && arc->_to != (stateid - tot_state)` selecting the
arcs that `ProcessEmitting` propagates along. -/
def emits (tot_state stateid : StateId) (arc : StdArc) : Bool :=
  decide (arc._input ≠ 0) && decide (arc._to ≠ stateid - tot_state)

/-- Pass over the arcs of the best token (and its blank arc) that gives the first
bound on the next cutoff. -/
def bestTokBound (g : Fst) (o : AmInterface) (frame : Int) (adaptive_beam : WithTop ℚ)
    (best_tok : Option Token) (best_stateid : StateId) (next_weight_cutoff : WithTop ℚ) :
    WithTop ℚ :=
  match best_tok with
  | none => next_weight_cutoff
  | some tok =>
    let stateid := best_stateid
    let next1 := (g.arcs stateid).foldl (fun next arc =>
      if emits g.TotState stateid arc then
        let ac_cost := - o.LogLikelihood frame arc._input
        let new_weight := arc._w + tok._tot_cost + ac_cost
        tighten new_weight adaptive_beam next
      else next) next_weight_cutoff
    let ac_cost := - o.LogLikelihood frame o.GetBlockTransitionId
    let new_weight := tok._tot_cost + ac_cost
    tighten new_weight adaptive_beam next1

/-- Block `if (new_weight < next_weight_cutoff) { ... }` of `ProcessEmitting`: a
token is created along `arc`, the next cutoff is tightened and the token is
inserted at `arc._to` or replaces a strictly worse incumbent. -/
def propagate (adaptive_beam : WithTop ℚ) (tok : Token) (arc : StdArc) (ac_cost new_weight : ℚ)
    (st : TokMap × WithTop ℚ) : TokMap × WithTop ℚ :=
  if (new_weight : WithTop ℚ) < st.2 then
    let new_tok := Token.new arc ac_cost (some tok)
    let next := tighten new_weight adaptive_beam st.2
    ((insertOrReplace st.1 arc._to new_tok).1, next)
  else st

/-- Expansion of one token of `_prev_toks` that passed the cutoff: its emitting
arcs, then the synthesised blank arc. -/
def expandTok (g : Fst) (o : AmInterface) (frame : Int) (adaptive_beam : WithTop ℚ)
    (stateid : StateId) (tok : Token) (st : TokMap × WithTop ℚ) : TokMap × WithTop ℚ :=
  let tot_state := g.TotState
  let blkid := o.GetBlockTransitionId
  let st1 := (g.arcs stateid).foldl (fun st arc =>
    if emits tot_state stateid arc then
      let ac_cost := - o.LogLikelihood frame arc._input
      let new_weight := arc._w + tok._tot_cost + ac_cost
      propagate adaptive_beam tok arc ac_cost new_weight st
    else st) st
  let ac_cost := - o.LogLikelihood frame blkid
  let new_weight := tok._tot_cost + ac_cost
  let toblkid := if stateid < tot_state then stateid + tot_state else stateid
  let arc : StdArc := ⟨blkid, 0, toblkid, 0⟩
  propagate adaptive_beam tok arc ac_cost new_weight st1

/-- Main loop of `ProcessEmitting` over `_prev_toks`. -/
def emitLoop (g : Fst) (o : AmInterface) (frame : Int) (cur_cutoff adaptive_beam : WithTop ℚ) :
    TokMap → TokMap × WithTop ℚ → Except Err (TokMap × WithTop ℚ)
  | [], st => .ok st
  | (stateid, tok) :: rest, st =>
    if (tok._tot_cost : WithTop ℚ) < cur_cutoff then
      if stateid = tok._arc._to then
        emitLoop g o frame cur_cutoff adaptive_beam rest
          (expandTok g o frame adaptive_beam stateid tok st)
      else .error .assertion
    else emitLoop g o frame cur_cutoff adaptive_beam rest st

/-- `CtcFasterDecoder::ProcessEmitting`: returns the next-frame cutoff and the
new decoder state. -/
def ProcessEmitting (g : Fst) (cfg : CtcFasterDecoderOptions) (o : AmInterface) (d : Decoder) :
    Except Err (WithTop ℚ × Decoder) :=
  let frame := d._num_frames_decoded
  let prev_toks := d._cur_toks
  let cur_toks : TokMap := []
  let c := GetCutoff cfg prev_toks none 0 d._tmp_array
  let next_weight_cutoff : WithTop ℚ := ⊤
  let next0 := bestTokBound g o frame c.adaptive_beam c.best_tok c.best_stateid
    next_weight_cutoff
  match emitLoop g o frame c.cutoff c.adaptive_beam prev_toks (cur_toks, next0) with
  | .error e => .error e
  | .ok st =>
    .ok (st.2, { _cur_toks := st.1, _prev_toks := prev_toks,
                 _num_frames_decoded := d._num_frames_decoded + 1,
                 _queue := d._queue, _tmp_array := c.tmp_array })

/-! ## ProcessNonemitting -/

/-- Body of the arc loop of `ProcessNonemitting` for one arc out of the popped
state; the state is the frontier and the worklist (head = back of `_queue`). -/
def relaxArc (cutoff : WithTop ℚ) (tok : Token) (st : TokMap × List StateId) (arc : StdArc) :
    TokMap × List StateId :=
  if arc._input = 0 then
    let new_tok := Token.ofArc arc (some tok)
    if cutoff < (new_tok._tot_cost : WithTop ℚ) then st
    else
      let r := insertOrReplace st.1 arc._to new_tok
      if r.2 then (r.1, arc._to :: st.2) else (r.1, st.2)
  else st

/-- Worklist loop `while (!_queue.empty())` of `ProcessNonemitting`.  The
worklist is a list whose head is the back of `_queue`. -/
def closureLoop (g : Fst) (cutoff : WithTop ℚ) :
    Nat → TokMap → List StateId → Except Err (TokMap × List StateId)
  | _, toks, [] => .ok (toks, [])
  | 0, _, _ :: _ => .error .fuel
  | fuel + 1, toks, stateid :: queue =>
    match findTok toks stateid with
    | none => .error .nullToken
    | some tok =>
      if cutoff < (tok._tot_cost : WithTop ℚ) then closureLoop g cutoff fuel toks queue
      else if stateid = tok._arc._to then
        let st := (g.arcs stateid).foldl (relaxArc cutoff tok) (toks, queue)
        closureLoop g cutoff fuel st.1 st.2
      else .error .assertion

/-- Seeding loop `for (it : _cur_toks) _queue.push_back(it->first)`. -/
def seedQueue (toks : TokMap) (queue : List StateId) : List StateId :=
  toks.foldl (fun q it => it.1 :: q) queue

/-- `CtcFasterDecoder::ProcessNonemitting(cutoff)`. -/
def ProcessNonemitting (g : Fst) (cutoff : WithTop ℚ) (fuel : Nat) (d : Decoder) :
    Except Err Decoder :=
  if d._queue ≠ [] then .error .assertion
  else
    match closureLoop g cutoff fuel d._cur_toks (seedQueue d._cur_toks d._queue) with
    | .error e => .error e
    | .ok st => .ok { d with _cur_toks := st.1, _queue := st.2 }

/-! ## InitDecoding and AdvanceDecoding -/

/-- `CtcFasterDecoder::InitDecoding`. -/
def InitDecoding (g : Fst) (fuel : Nat) (d : Decoder) : Except Err Decoder :=
  let start_state := g.Start
  let dummy_arc : StdArc := ⟨0, 0, start_state, 0⟩
  let start_tok := Token.ofArc dummy_arc none
  ProcessNonemitting g (FLT_MAX : WithTop ℚ) fuel
    { d with _cur_toks := [(start_state, start_tok)], _prev_toks := [],
             _num_frames_decoded := 0 }

/-- Body of the loop of `AdvanceDecoding`: one frame, skipped or decoded.  The
call `ClearToks(_prev_toks)` only releases reference counts and leaves the map
as it is. -/
def advanceFrame (g : Fst) (cfg : CtcFasterDecoderOptions) (o : AmInterface) (fuel : Nat)
    (d : Decoder) : Except Err Decoder :=
  if o.SkipBlockFrame d._num_frames_decoded = true then
    .ok { d with _num_frames_decoded := d._num_frames_decoded + 1 }
  else
    match ProcessEmitting g cfg o d with
    | .error e => .error e
    | .ok (weight_cutoff, d1) => ProcessNonemitting g weight_cutoff fuel d1

/-- Loop `while (_num_frames_decoded < target_frames_decoded)`; the first
argument bounds the number of iterations. -/
def advanceLoop (g : Fst) (cfg : CtcFasterDecoderOptions) (o : AmInterface) (fuel : Nat)
    (target_frames_decoded : Int) : Nat → Decoder → Except Err Decoder
  | n, d =>
    if d._num_frames_decoded < target_frames_decoded then
      match n with
      | 0 => .error .fuel
      | n + 1 =>
        match advanceFrame g cfg o fuel d with
        | .error e => .error e
        | .ok d1 => advanceLoop g cfg o fuel target_frames_decoded n d1
    else .ok d

/-- Value of `target_frames_decoded` computed at the start of `AdvanceDecoding`:
`num_frames_ready`, capped by `_num_frames_decoded + max_num_frames` when
`max_num_frames >= 0`; the sum is a sum of two `int`s. -/
def targetFrames (o : AmInterface) (max_num_frames : Int) (d : Decoder) : Int :=
  let num_frames_ready := o.NumFramesReady
  if 0 ≤ max_num_frames then
    min num_frames_ready (wrapInt (d._num_frames_decoded + max_num_frames))
  else num_frames_ready

/-- `CtcFasterDecoder::AdvanceDecoding(decodable, max_num_frames)`.  `fuel` bounds
the iterations of each loop. -/
def AdvanceDecoding (g : Fst) (cfg : CtcFasterDecoderOptions) (o : AmInterface)
    (max_num_frames : Int) (fuel : Nat) (d : Decoder) : Except Err Decoder :=
  if ¬ (0 ≤ d._num_frames_decoded) then .error .assertion
  else
    let num_frames_ready := o.NumFramesReady
    if ¬ (d._num_frames_decoded ≤ num_frames_ready) then .error .assertion
    else
      let target_frames_decoded := targetFrames o max_num_frames d
      advanceLoop g cfg o fuel target_frames_decoded fuel d

/-! ## Specification-side predicates -/

/-- Selection started from an incumbent: what one pass over `toks` returns. -/
def SelPost (P : StateId → Bool) (b0 : Option Token) (toks : TokMap) (r : Option Token) : Prop :=
  (r = none ↔ b0 = none ∧ ∀ it ∈ toks, P it.1 = false) ∧
  ∀ t, r = some t →
    (b0 = some t ∨ ∃ it ∈ toks, P it.1 = true ∧ it.2 = t) ∧
    (∀ b, b0 = some b → t._tot_cost ≤ b._tot_cost) ∧
    (∀ it ∈ toks, P it.1 = true → t._tot_cost ≤ it.2._tot_cost)

/-- Number of tokens of a frontier that pass the test
`tok->_tot_cost < cur_cutoff` of `ProcessEmitting`, i.e. that are expanded. -/
def countBelow (toks : TokMap) (cutoff : WithTop ℚ) : Nat :=
  toks.countP fun it => decide ((it.2._tot_cost : WithTop ℚ) < cutoff)

/-- Options the constructor accepts, with `max_active` in the range of `int`. -/
def ValidConfig (cfg : CtcFasterDecoderOptions) : Prop :=
  1 ≤ cfg._hash_ratio ∧ 1 < cfg._max_active ∧ cfg._max_active ≤ INT_MAX ∧
  0 ≤ cfg._min_active ∧ cfg._min_active < cfg._max_active

/-- Every token of the frontier is stored under the destination of its arc:
the condition `stateid == tok->_arc._to` asserted by the expansion loops. -/
def KeyOK (toks : TokMap) : Prop := ∀ it ∈ toks, it.2._arc._to = it.1

/-- Decoder state between two calls: initialised, worklist empty, tokens stored
under the destination of their arcs. -/
def Ready (d : Decoder) : Prop :=
  0 ≤ d._num_frames_decoded ∧ d._queue = [] ∧ KeyOK d._cur_toks

/-! ## Eps paths of the graph -/

/-- Chain of eps arcs (input label 0) starting at state `s`: every arc is read
from the state the previous one leads to. -/
def IsEpsPath (g : Fst) : StateId → List StdArc → Prop
  | _, [] => True
  | s, a :: p => a ∈ g.arcs s ∧ a._input = 0 ∧ IsEpsPath g a._to p

/-- State reached from `s` along a chain of arcs. -/
def pathEnd : StateId → List StdArc → StateId
  | s, [] => s
  | _, a :: p => pathEnd a._to p

/-- Sum of the weights of a chain of arcs. -/
def pathCost (p : List StdArc) : ℚ := (p.map (·._w)).sum

/-- The eps arcs of the graph admit no negative-weight cycle: every closed chain
of eps arcs has a non-negative total weight. -/
def NoNegEpsCycle (g : Fst) : Prop :=
  ∀ s p, IsEpsPath g s p → pathEnd s p = s → 0 ≤ pathCost p

/-- Every arc of the graph leads to a base state `0 <= to < TotState`. -/
def ArcsInRange (g : Fst) : Prop :=
  ∀ s a, a ∈ g.arcs s → 0 ≤ a._to ∧ a._to < g.TotState

/-- Cost `x` is the cost of some token of the frontier `toks0` plus the weight of
an eps path from that token's state to `v`. -/
def Reach (g : Fst) (toks0 : TokMap) (v : StateId) (x : ℚ) : Prop :=
  ∃ it ∈ toks0, ∃ p, IsEpsPath g it.1 p ∧ pathEnd it.1 p = v ∧ x = it.2._tot_cost + pathCost p

/-! ## Closedness of a frontier under eps arcs -/

/-- Frontier `toks2` keeps every key of `toks` with a cost that is no greater. -/
def NoWorse (toks toks2 : TokMap) : Prop :=
  ∀ v t, findTok toks v = some t →
    ∃ t2, findTok toks2 v = some t2 ∧ t2._tot_cost ≤ t._tot_cost

/-- Every token within the cutoff either waits on the worklist or has been
relaxed: each eps arc out of its state whose candidate cost is within the cutoff
leads to a state holding a token that is at least as good as the candidate.
With an empty worklist this says the frontier is closed under eps arcs within
the cutoff. -/
def EpsClosed (g : Fst) (cutoff : WithTop ℚ) (toks : TokMap) (queue : List StateId) : Prop :=
  ∀ s t, findTok toks s = some t → ¬ cutoff < (t._tot_cost : WithTop ℚ) →
    s ∈ queue ∨
    ∀ a ∈ g.arcs s, a._input = 0 → ¬ cutoff < ((t._tot_cost + a._w : ℚ) : WithTop ℚ) →
      ∃ t2, findTok toks a._to = some t2 ∧ t2._tot_cost ≤ t._tot_cost + a._w

/-! ## Termination measure of the worklist loop -/

/-- States that a frontier grown from `toks0` by eps arcs can use as keys: the
keys of `toks0` and the base states. -/
def stateUniverse (g : Fst) (toks0 : TokMap) : List StateId :=
  toks0.map (·.1) ++ (List.range g.TotState.toNat).map fun (i : Nat) => (i : Int)

/-- Number of states of `V` that are not yet a key of the frontier. -/
def freeStates (V : List StateId) (toks : TokMap) : Nat :=
  (V.filter fun v => (findTok toks v).isNone).length

/-- Cost `x` lies on the grid of step `1 / D`. -/
def OnGrid (D : Nat) (x : ℚ) : Prop := ∃ z : Int, x = z / D

/-- Rank of a cost on the grid of step `1 / D` above the bound `-K`. -/
def costRank (K D : Nat) (x : ℚ) : Nat := Int.toNat ⌊(x + K) * D⌋

/-- Sum of the ranks of the costs of a frontier. -/
def rankSum (K D : Nat) (toks : TokMap) : Nat :=
  (toks.map fun it => costRank K D it.2._tot_cost).sum

/-- Sum of the absolute weights of all arcs leaving the states of `V`. -/
def weightBound (g : Fst) (V : List StateId) : ℚ :=
  (V.map fun u => ((g.arcs u).map fun a => |a._w|).sum).sum

/-- Invariant of the worklist loop of `ProcessNonemitting` started on `toks0`:
tokens are stored under the destination of their arcs, every state on the
worklist has a token, and every cost is reachable from `toks0` by eps arcs. -/
def ClosureInv (g : Fst) (toks0 : TokMap) (st : TokMap × List StateId) : Prop :=
  KeyOK st.1 ∧ (∀ s ∈ st.2, (findTok st.1 s).isSome = true) ∧
  ∀ it ∈ st.1, Reach g toks0 it.1 it.2._tot_cost

/-- Relation between the loop state before and after some arcs were relaxed:
a key was added, or no key was added and a cost went down, or nothing changed. -/
def Progress (V : List StateId) (K D : Nat) (st st2 : TokMap × List StateId) : Prop :=
  freeStates V st2.1 < freeStates V st.1 ∨
  (freeStates V st2.1 = freeStates V st.1 ∧ rankSum K D st2.1 < rankSum K D st.1) ∨
  st2 = st

/-! ## Concrete inputs used in the examples -/

/-- Two-state graph of the first seed scenario: one arc `0 -> 1` with input 5,
output 7 and weight 1; state 1 is final. -/
def exGraph : Fst :=
  { Start := 0, TotState := 2, IsFinal := fun s => decide (s = 1),
    GetState := fun s => if s = 0 then [⟨5, 7, 1, 1⟩] else [] }

/-- Root token at state 0 of `exGraph`. -/
def exRoot : Token := Token.ofArc ⟨0, 0, 0, 0⟩ none

/-- Token reached from `exRoot` along the arc `0 -> 1` with acoustic cost 4. -/
def exFinalTok : Token := Token.new ⟨5, 7, 1, 1⟩ 4 (some exRoot)

/-- Frontier with a cheap token at the non-final state 0 and a dearer token at
the final state 1. -/
def exDecoder : Decoder :=
  { _cur_toks := [(0, exRoot), (1, exFinalTok)], _prev_toks := [],
    _num_frames_decoded := 1, _queue := [], _tmp_array := [] }

/-- Decoder whose frontier is empty. -/
def exEmptyDecoder : Decoder :=
  { _cur_toks := [], _prev_toks := [], _num_frames_decoded := 0, _queue := [],
    _tmp_array := [] }

/-- Options with a zero beam that meet the three checks of the constructor. -/
def exZeroBeamOpts : CtcFasterDecoderOptions :=
  { _beam := 0, _max_active := 2, _min_active := 0, _beam_delta := 0, _hash_ratio := 1 }

/-- Options as the decoder is usually configured. -/
def exOpts : CtcFasterDecoderOptions :=
  { _beam := 16, _max_active := 7000, _min_active := 20, _beam_delta := 1 / 2,
    _hash_ratio := 2 }

/-- Options with no limit on the number of active tokens: `max_active` is
`INT_MAX` and `min_active` is 0. -/
def exUnlimitedOpts : CtcFasterDecoderOptions :=
  { _beam := 16, _max_active := 2147483647, _min_active := 0, _beam_delta := 1 / 2,
    _hash_ratio := 2 }

/-- Frontier with one root-like token of cost 0 at each of the states
`0, 1, ..., 2^31 - 1`. -/
def exHugeFrontier : TokMap :=
  (List.range 2147483648).map fun (i : Nat) =>
    ((i : Int), Token.ofArc ⟨0, 0, (i : Int), 0⟩ none)

/-- Graph with an eps self-loop of weight 0.01 at its start state 0, and the arc
`0 -> 1` with input 5, output 7 and weight 1; state 1 is final. -/
def exLoopGraph : Fst :=
  { Start := 0, TotState := 2, IsFinal := fun s => decide (s = 1),
    GetState := fun s => if s = 0 then [⟨0, 0, 0, 1 / 100⟩, ⟨5, 7, 1, 1⟩] else [] }

/-- Oracle with three frames ready, log-likelihood 0 everywhere, no skipped
frame and blank label 99. -/
def exOracle : AmInterface :=
  { NumFramesReady := 3, LogLikelihood := fun _ _ => 0, SkipBlockFrame := fun _ => false,
    GetBlockTransitionId := 99, ExamineFrame := fun _ => false }

/-- Oracle with one frame ready, which it marks as a skip-block frame. -/
def exSkipOracle : AmInterface :=
  { NumFramesReady := 1, LogLikelihood := fun _ _ => 0, SkipBlockFrame := fun _ => true,
    GetBlockTransitionId := 99, ExamineFrame := fun _ => false }

/-- Decoder state right after `InitDecoding` on `exGraph`: the root token alone. -/
def exInitDecoder : Decoder :=
  { _cur_toks := [(0, exRoot)], _prev_toks := [], _num_frames_decoded := 0, _queue := [],
    _tmp_array := [] }

/-- Costs of the tokens of a frontier in ascending order; entry 0 is the least
cost, which `GetCutoff` calls `best_cost`. -/
def sortedCosts (toks : TokMap) : List ℚ :=
  (toks.map (·.2._tot_cost)).insertionSort (· ≤ ·)

/-- Token without predecessor whose arc leads to `s` and whose cost is `c`. -/
def exTok (s : StateId) (c : ℚ) : Token := Token.ofArc ⟨0, 0, s, c⟩ none

/-- Options with `max_active = 2`, `min_active = 0`, beam 16 and beam delta 0.5. -/
def exTightOpts : CtcFasterDecoderOptions :=
  { _beam := 16, _max_active := 2, _min_active := 0, _beam_delta := 1 / 2, _hash_ratio := 2 }

/-- Frontier of three tokens of costs 1, 2 and 3. -/
def exRampFrontier : TokMap := [(0, exTok 0 1), (1, exTok 1 2), (2, exTok 2 3)]

/-- Frontier of three tokens of costs 0, 1 and `9/4 + 2^-24`; the last cost is a
`double` that is not a `float`. -/
def exFineFrontier : TokMap :=
  [(0, exTok 0 0), (1, exTok 1 1), (2, exTok 2 (9 / 4 + 1 / 2 ^ 24))]

/-- Frontier of one token of cost `2^60`, where the spacing of the doubles is
`2^8`. -/
def exFarFrontier : TokMap := [(0, exTok 0 (2 ^ 60))]

/-- Frontier of three tokens that all cost 1. -/
def exTiedFrontier : TokMap := [(0, exTok 0 1), (1, exTok 1 1), (2, exTok 2 1)]

/-- Options with `min_active = 2`, `max_active = 7000`, beam 0.5 and beam delta 0.5. -/
def exFloorOpts : CtcFasterDecoderOptions :=
  { _beam := 1 / 2, _max_active := 7000, _min_active := 2, _beam_delta := 1 / 2,
    _hash_ratio := 2 }

/-- Frontier of three tokens of costs 1, 5 and 5. -/
def exGapFrontier : TokMap := [(0, exTok 0 1), (1, exTok 1 5), (2, exTok 2 5)]

/-- Decoder states reachable from `InitDecoding` by a sequence of calls of
`AdvanceDecoding`, each with its own oracle view, frame limit and fuel. -/
inductive Reachable (g : Fst) (cfg : CtcFasterDecoderOptions) : Decoder → Prop
  | init (fuel : Nat) (d0 d : Decoder) :
      InitDecoding g fuel d0 = .ok d → Reachable g cfg d
  | advance (o : AmInterface) (max_num_frames : Int) (fuel : Nat) (d d2 : Decoder) :
      Reachable g cfg d → AdvanceDecoding g cfg o max_num_frames fuel d = .ok d2 →
      Reachable g cfg d2

/-! ## State ids passed to `GetState` -/

/-- State ids that the worklist loop of `ProcessNonemitting` passes to
`_graph->GetState`, in the order of the calls.  The recursion is that of
`closureLoop`; the id is recorded as it is before the conversion to `unsigned`. -/
def closureGetStateArgs (g : Fst) (cutoff : WithTop ℚ) :
    Nat → TokMap → List StateId → List StateId
  | _, _, [] => []
  | 0, _, _ :: _ => []
  | fuel + 1, toks, stateid :: queue =>
    match findTok toks stateid with
    | none => []
    | some tok =>
      if cutoff < (tok._tot_cost : WithTop ℚ) then closureGetStateArgs g cutoff fuel toks queue
      else if stateid = tok._arc._to then
        let st := (g.arcs stateid).foldl (relaxArc cutoff tok) (toks, queue)
        stateid :: closureGetStateArgs g cutoff fuel st.1 st.2
      else []

/-- State ids that one call of `ProcessNonemitting` passes to `GetState`. -/
def ProcessNonemittingGetStateArgs (g : Fst) (cutoff : WithTop ℚ) (fuel : Nat) (d : Decoder) :
    List StateId :=
  if d._queue ≠ [] then []
  else closureGetStateArgs g cutoff fuel d._cur_toks (seedQueue d._cur_toks d._queue)

/-- State ids that the main loop of `ProcessEmitting` passes to `GetState`: the
keys of the tokens below the cutoff, up to a failing assertion. -/
def emitGetStateArgs (cur_cutoff : WithTop ℚ) : TokMap → List StateId
  | [] => []
  | (stateid, tok) :: rest =>
    if (tok._tot_cost : WithTop ℚ) < cur_cutoff then
      if stateid = tok._arc._to then stateid :: emitGetStateArgs cur_cutoff rest
      else []
    else emitGetStateArgs cur_cutoff rest

/-- State ids that one call of `ProcessEmitting` passes to `GetState`: the state
of the best token in the first pass, then those of the main loop. -/
def ProcessEmittingGetStateArgs (cfg : CtcFasterDecoderOptions) (d : Decoder) : List StateId :=
  let c := GetCutoff cfg d._cur_toks none 0 d._tmp_array
  (match c.best_tok with
    | none => []
    | some _ => [c.best_stateid]) ++ emitGetStateArgs c.cutoff d._cur_toks

/-- State ids passed to `GetState` while one frame is decoded by
`AdvanceDecoding`. -/
def frameGetStateArgs (g : Fst) (cfg : CtcFasterDecoderOptions) (o : AmInterface) (fuel : Nat)
    (d : Decoder) : List StateId :=
  if o.SkipBlockFrame d._num_frames_decoded = true then []
  else
    ProcessEmittingGetStateArgs cfg d ++
      match ProcessEmitting g cfg o d with
      | .error _ => []
      | .ok (weight_cutoff, d1) => ProcessNonemittingGetStateArgs g weight_cutoff fuel d1

/-- State ids passed to `GetState` by `InitDecoding`. -/
def InitDecodingGetStateArgs (g : Fst) (fuel : Nat) (d : Decoder) : List StateId :=
  ProcessNonemittingGetStateArgs g (FLT_MAX : WithTop ℚ) fuel
    { d with _cur_toks := [(g.Start, Token.ofArc ⟨0, 0, g.Start, 0⟩ none)], _prev_toks := [],
             _num_frames_decoded := 0 }

/-- Token reached from `exRoot` along the arc `0 -> 1` of `exGraph` with
acoustic cost 0. -/
def exArcTok : Token := Token.new ⟨5, 7, 1, 1⟩ 0 (some exRoot)

/-- Token reached from `exRoot` along the blank arc synthesised at state 0 of
`exGraph`; its destination is the shadow state `0 + TotState = 2`. -/
def exBlankTok : Token := Token.new ⟨99, 0, 2, 0⟩ 0 (some exRoot)

/-- Decoder state after `InitDecoding` and one frame of `exOracle` on `exGraph`. -/
def exFrame1 : Decoder :=
  { _cur_toks := [(1, exArcTok), (2, exBlankTok)], _prev_toks := [(0, exRoot)],
    _num_frames_decoded := 1, _queue := [], _tmp_array := [0] }

/-- The `double` sum `new_weight + adaptive_beam` of `ProcessEmitting` exceeds
`new_weight`: the adaptive beam is not lost when the sum is rounded. -/
def BeamFelt (adaptive_beam : WithTop ℚ) (new_weight : ℚ) : Prop :=
  (new_weight : WithTop ℚ) < addDouble (new_weight : WithTop ℚ) adaptive_beam

/-- Graph with the single state 0 and no arcs: the only transitions are the
blank arcs that `ProcessEmitting` synthesises. -/
def exOneStateGraph : Fst :=
  { Start := 0, TotState := 1, IsFinal := fun _ => true, GetState := fun _ => [] }

/-- Blank arc with label `blk` into the shadow state `0 + TotState = 1` of
`exOneStateGraph`. -/
def exBlankArc (blk : Label) : StdArc := ⟨blk, 0, 1, 0⟩

/-- Hypothesis of cost 0 after one blank frame on `exOneStateGraph`. -/
def exBlank1 (blk : Label) : Token := .mk (exBlankArc blk) (some exRoot) 0

/-- Hypothesis of cost 0 after two blank frames on `exOneStateGraph`. -/
def exBlank2 (blk : Label) : Token := .mk (exBlankArc blk) (some (exBlank1 blk)) 0

/-- Hypothesis of cost 0 after three blank frames on `exOneStateGraph`. -/
def exBlank3 (blk : Label) : Token := .mk (exBlankArc blk) (some (exBlank2 blk)) 0

theorem floor_le_roundHalfEven (y : ℚ) : ⌊y⌋ ≤ roundHalfEven y := by
  unfold roundHalfEven
  split_ifs <;> omega

theorem roundHalfEven_intCast (n : Int) : roundHalfEven (n : ℚ) = n := by
  unfold roundHalfEven
  simp

theorem roundHalfEven_of_floor (y : ℚ) (f : Int) (h1 : (f : ℚ) ≤ y) (h2 : y < f + 1) :
    roundHalfEven y =
      if y - f < 1 / 2 then f
      else if 1 / 2 < y - f then f + 1
      else if f % 2 = 0 then f else f + 1 := by
  have hf : ⌊y⌋ = f := Int.floor_eq_iff.2 ⟨h1, h2⟩
  unfold roundHalfEven
  rw [hf]

theorem log_two_eq (x : ℚ) (e : Int) (h1 : (2 : ℚ) ^ e ≤ x) (h2 : x < (2 : ℚ) ^ (e + 1)) :
    Int.log 2 x = e := by
  have hx : 0 < x := lt_of_lt_of_le (zpow_pos (by norm_num) e) h1
  have ha : e ≤ Int.log 2 x := (Int.zpow_le_iff_le_log (by norm_num) hx).1 (by exact_mod_cast h1)
  have hb : Int.log 2 x < e + 1 := (Int.lt_zpow_iff_log_lt (by norm_num) hx).1 (by exact_mod_cast h2)
  omega


/-- Rounding with the exponent of `x` given explicitly. -/
theorem roundSig_of_exp (p : Nat) (x : ℚ) (e : Int) (h1 : (2 : ℚ) ^ e ≤ |x|)
    (h2 : |x| < (2 : ℚ) ^ (e + 1)) :
    roundSig p x =
      roundHalfEven (x / 2 ^ (e - ((p : Int) - 1))) * 2 ^ (e - ((p : Int) - 1)) := by
  have hx : x ≠ 0 := by
    intro h
    rw [h, abs_zero] at h1
    exact absurd h1 (not_le.2 (zpow_pos (by norm_num) e))
  unfold roundSig
  rw [if_neg hx]
  dsimp only
  rw [log_two_eq |x| e h1 h2]

theorem roundSig_zero (p : Nat) : roundSig p 0 = 0 := by
  unfold roundSig
  rw [if_pos rfl]

/-- Rounding keeps a positive value positive. -/
theorem roundSig_pos (p : Nat) (hp : 1 ≤ p) (x : ℚ) (hx : 0 < x) : 0 < roundSig p x := by
  have hx0 : x ≠ 0 := ne_of_gt hx
  unfold roundSig
  rw [if_neg hx0]
  dsimp only
  rw [abs_of_pos hx]
  have hq : (0 : ℚ) < 2 ^ (Int.log 2 x - ((p : Int) - 1)) := zpow_pos (by norm_num) _
  have hle : (2 : ℚ) ^ Int.log 2 x ≤ x := by
    have := Int.zpow_log_le_self (b := 2) (r := x) (by norm_num) hx
    exact_mod_cast this
  have h1 : (1 : ℚ) ≤ x / 2 ^ (Int.log 2 x - ((p : Int) - 1)) := by
    rw [le_div_iff₀ hq, one_mul]
    refine le_trans ?_ hle
    exact zpow_le_zpow_right₀ (by norm_num) (by omega)
  have h2 : (1 : Int) ≤ ⌊x / 2 ^ (Int.log 2 x - ((p : Int) - 1))⌋ := by
    rw [Int.le_floor]
    exact_mod_cast h1
  have h3 := floor_le_roundHalfEven (x / 2 ^ (Int.log 2 x - ((p : Int) - 1)))
  have h4 : (0 : ℚ) < (roundHalfEven (x / 2 ^ (Int.log 2 x - ((p : Int) - 1))) : ℚ) := by
    exact_mod_cast (by omega : (0 : Int) < roundHalfEven (x / 2 ^ (Int.log 2 x - ((p : Int) - 1))))
  exact mul_pos h4 hq

/-- A value with at most `p` significant bits is not changed by rounding. -/
theorem roundSig_eq_self (p : Nat) (x : ℚ) (m k : Int) (hx : x = m * 2 ^ k)
    (hm : |m| < 2 ^ p) : roundSig p x = x := by
  by_cases hx0 : x = 0
  · rw [hx0, roundSig_zero]
  have hax : 0 < |x| := abs_pos.2 hx0
  have hle : (2 : ℚ) ^ Int.log 2 |x| ≤ |x| := by
    have := Int.zpow_log_le_self (b := 2) (r := |x|) (by norm_num) hax
    exact_mod_cast this
  have habs : |x| = (|m| : ℚ) * 2 ^ k := by
    rw [hx, abs_mul, abs_of_pos (zpow_pos (by norm_num : (0 : ℚ) < 2) k)]
  have hmq : ((|m| : Int) : ℚ) < 2 ^ (p : Int) := by
    have : ((|m| : Int) : ℚ) < ((2 ^ p : Int) : ℚ) := by exact_mod_cast hm
    rw [zpow_natCast]
    exact_mod_cast this
  have hlt : (2 : ℚ) ^ Int.log 2 |x| < 2 ^ ((p : Int) + k) := by
    refine lt_of_le_of_lt hle ?_
    rw [habs, zpow_add₀ (by norm_num : (2 : ℚ) ≠ 0)]
    have := mul_lt_mul_of_pos_right hmq (zpow_pos (by norm_num : (0 : ℚ) < 2) k)
    simpa using this
  have he : Int.log 2 |x| < (p : Int) + k := (zpow_lt_zpow_iff_right₀ (by norm_num)).1 hlt
  unfold roundSig
  rw [if_neg hx0]
  dsimp only
  generalize Int.log 2 |x| = L at he ⊢
  obtain ⟨n, hn⟩ : ∃ n : Nat, (n : Int) = k - (L - ((p : Int) - 1)) :=
    ⟨(k - (L - ((p : Int) - 1))).toNat, Int.toNat_of_nonneg (by omega)⟩
  have hdiv : x / 2 ^ (L - ((p : Int) - 1)) = ((m * 2 ^ n : Int) : ℚ) := by
    rw [hx, div_eq_iff (zpow_ne_zero _ (by norm_num))]
    push_cast
    rw [mul_assoc, ← zpow_natCast, ← zpow_add₀ (by norm_num : (2 : ℚ) ≠ 0), hn]
    congr 2
    ring
  rw [hdiv, roundHalfEven_intCast, ← hdiv, div_mul_cancel₀ _ (zpow_ne_zero _ (by norm_num))]

theorem toDouble_eq_self (x : ℚ) (m k : Int) (hx : x = m * 2 ^ k) (hm : |m| < 2 ^ 53) :
    toDouble x = x := roundSig_eq_self 53 x m k hx hm

theorem toFloat_eq_self (x : ℚ) (m k : Int) (hx : x = m * 2 ^ k) (hm : |m| < 2 ^ 24) :
    toFloat x = x := roundSig_eq_self 24 x m k hx hm

theorem toDouble_pos (x : ℚ) (hx : 0 < x) : 0 < toDouble x :=
  roundSig_pos 53 (by norm_num) x hx

theorem toFloat_pos (x : ℚ) (hx : 0 < x) : 0 < toFloat x :=
  roundSig_pos 24 (by norm_num) x hx

theorem addDouble_coe (x y : ℚ) :
    addDouble (x : WithTop ℚ) (y : WithTop ℚ) = ((toDouble (x + y) : ℚ) : WithTop ℚ) := rfl

theorem addDouble_top_left (b : WithTop ℚ) : addDouble ⊤ b = ⊤ := rfl

theorem addDouble_top_right (a : WithTop ℚ) : addDouble a ⊤ = ⊤ := by
  cases a <;> rfl

theorem floatOfBound_coe (x : ℚ) :
    floatOfBound (x : WithTop ℚ) = ((toFloat x : ℚ) : WithTop ℚ) := rfl

theorem floatOfBound_top : floatOfBound ⊤ = ⊤ := rfl

theorem wrapInt_of_range (x : Int) (h0 : -2147483648 ≤ x) (h1 : x ≤ 2147483647) :
    wrapInt x = x := by
  unfold wrapInt
  rw [Int.emod_eq_of_lt (by omega) (by omega)]
  omega

/-! ## Selection of the best token -/

theorem Token.gt_iff (a b : Token) : a.gt b = true ↔ b._tot_cost < a._tot_cost := by
  simp [Token.gt]

theorem selPost_nil (P : StateId → Bool) (b0 : Option Token) : SelPost P b0 [] b0 := by
  refine ⟨⟨fun h => ⟨h, fun _ hit => absurd hit (List.not_mem_nil _)⟩, fun h => h.1⟩, ?_⟩
  intro t ht
  refine ⟨Or.inl ht, ?_, fun _ hit => absurd hit (List.not_mem_nil _)⟩
  intro b hb
  rw [ht] at hb
  cases hb
  exact le_refl _

theorem selPost_cons (P : StateId → Bool) (b0 : Option Token) (hd : StateId × Token)
    (tl : TokMap) (r : Option Token)
    (h : SelPost P (if better b0 hd.2 && P hd.1 then some hd.2 else b0) tl r) :
    SelPost P b0 (hd :: tl) r := by
  obtain ⟨i1, i2⟩ := h
  by_cases hc : (better b0 hd.2 && P hd.1) = true
  · rw [if_pos hc] at i1 i2
    have hP : P hd.1 = true := by
      cases hp : P hd.1
      · rw [hp] at hc; simp at hc
      · rfl
    have hb : better b0 hd.2 = true := by
      rw [hP] at hc; simpa using hc
    refine ⟨⟨fun hr => ?_, fun hr => ?_⟩, ?_⟩
    · have := (i1.1 hr).1
      cases this
    · have := hr.2 hd (List.mem_cons_self _ _)
      rw [hP] at this
      cases this
    · intro t ht
      obtain ⟨h1, h2, h3⟩ := i2 t ht
      have hle : t._tot_cost ≤ hd.2._tot_cost := h2 hd.2 rfl
      refine ⟨Or.inr ?_, ?_, ?_⟩
      · rcases h1 with h1 | ⟨it, hit, hp, he⟩
        · exact ⟨hd, List.mem_cons_self _ _, hP, Option.some.inj h1⟩
        · exact ⟨it, List.mem_cons_of_mem _ hit, hp, he⟩
      · intro b hb0
        subst hb0
        have := (Token.gt_iff _ _).1 hb
        linarith
      · intro it hit hp
        rcases List.mem_cons.1 hit with rfl | hit
        · exact hle
        · exact h3 it hit hp
  · rw [if_neg hc] at i1 i2
    have hcase : P hd.1 = false ∨ (P hd.1 = true ∧ ∃ b, b0 = some b ∧
        b._tot_cost ≤ hd.2._tot_cost) := by
      cases hp : P hd.1
      · exact Or.inl rfl
      · right
        refine ⟨rfl, ?_⟩
        rw [hp] at hc
        cases b0 with
        | none => simp [better] at hc
        | some b =>
          refine ⟨b, rfl, ?_⟩
          by_contra hlt
          apply hc
          simp only [better, Bool.and_true]
          exact (Token.gt_iff _ _).2 (lt_of_not_ge hlt)
    refine ⟨⟨fun hr => ?_, fun hr => ?_⟩, ?_⟩
    · obtain ⟨hb0, hall⟩ := i1.1 hr
      refine ⟨hb0, ?_⟩
      intro it hit
      rcases List.mem_cons.1 hit with rfl | hit
      · rcases hcase with hp | ⟨-, b, hb, -⟩
        · exact hp
        · rw [hb0] at hb; cases hb
      · exact hall it hit
    · exact i1.2 ⟨hr.1, fun it hit => hr.2 it (List.mem_cons_of_mem _ hit)⟩
    · intro t ht
      obtain ⟨h1, h2, h3⟩ := i2 t ht
      refine ⟨?_, h2, ?_⟩
      · rcases h1 with h1 | ⟨it, hit, hp, he⟩
        · exact Or.inl h1
        · exact Or.inr ⟨it, List.mem_cons_of_mem _ hit, hp, he⟩
      · intro it hit hp
        rcases List.mem_cons.1 hit with rfl | hit
        · rcases hcase with hp' | ⟨-, b, hb, hle⟩
          · rw [hp'] at hp; cases hp
          · exact le_trans (h2 b hb) hle
        · exact h3 it hit hp

theorem selFold_spec (P : StateId → Bool) (toks : TokMap) (b0 : Option Token) :
    SelPost P b0 toks
      (toks.foldl (fun best it => if better best it.2 && P it.1 then some it.2 else best) b0) := by
  induction toks generalizing b0 with
  | nil => exact selPost_nil P b0
  | cons hd tl ih =>
    rw [List.foldl_cons]
    exact selPost_cons P b0 hd tl _ (ih _)

theorem bestFinalTok_spec (g : Fst) (toks : TokMap) :
    (bestFinalTok g toks = none ↔ ∀ it ∈ toks, g.IsFinal it.1 = false) ∧
    ∀ t, bestFinalTok g toks = some t →
      (∃ it ∈ toks, g.IsFinal it.1 = true ∧ it.2 = t) ∧
      (∀ it ∈ toks, g.IsFinal it.1 = true → t._tot_cost ≤ it.2._tot_cost) := by
  obtain ⟨h1, h2⟩ := selFold_spec g.IsFinal toks none
  refine ⟨⟨fun h => (h1.1 h).2, fun h => h1.2 ⟨rfl, h⟩⟩, fun t ht => ?_⟩
  obtain ⟨a, -, c⟩ := h2 t ht
  rcases a with a | a
  · cases a
  · exact ⟨a, c⟩

theorem bestAnyTok_spec (toks : TokMap) :
    (bestAnyTok toks = none ↔ toks = []) ∧
    ∀ t, bestAnyTok toks = some t →
      (∃ it ∈ toks, it.2 = t) ∧ (∀ it ∈ toks, t._tot_cost ≤ it.2._tot_cost) := by
  have e : bestAnyTok toks =
      toks.foldl (fun best it =>
        if better best it.2 && (fun _ => true) it.1 then some it.2 else best) none := by
    unfold bestAnyTok
    congr 1
    funext best it
    simp [anyStep]
  obtain ⟨h1, h2⟩ := selFold_spec (fun _ => true) toks none
  rw [e]
  refine ⟨⟨fun h => ?_, fun h => h1.2 ⟨rfl, fun it hit => ?_⟩⟩, fun t ht => ?_⟩
  · have := (h1.1 h).2
    cases toks with
    | nil => rfl
    | cons hd tl =>
      have := this hd (List.mem_cons_self _ _)
      cases this
  · rw [h] at hit
    exact absurd hit (List.not_mem_nil _)
  · obtain ⟨a, -, c⟩ := h2 t ht
    rcases a with a | ⟨it, hit, -, he⟩
    · cases a
    · exact ⟨⟨it, hit, he⟩, fun it hit => c it hit rfl⟩

/-! ## The XOR exchange and the in-place inversion -/

theorem int_xor_cancel_right (a b : Int) : Int.xor (Int.xor a b) b = a := by
  cases a <;> cases b <;> simp [Int.xor, Nat.xor_cancel_right]

theorem int_xor_cancel_left (a b : Int) : Int.xor (Int.xor a b) a = b := by
  cases a <;> cases b <;>
    simp [Int.xor, Nat.xor_comm _ _, Nat.xor_cancel_left, ← Nat.xor_assoc]

theorem vecGet_set (v : List Int) (i j : Nat) (x : Int) :
    vecGet (vecSet v i x) j = if i = j ∧ i < v.length then x else vecGet v j := by
  simp only [vecGet, vecSet, Int.toNat_ofNat, List.getD_eq_getElem?_getD, List.getElem?_set]
  by_cases h : i = j
  · subst h
    by_cases h2 : i < v.length
    · simp [h2]
    · simp [h2, List.getElem?_eq_none (not_lt.1 h2)]
  · simp [h]

theorem xorSwap_length (v : List Int) (a b : Int) : (xorSwap v a b).length = v.length := by
  simp [xorSwap, vecSet]

/-- The three XOR assignments exchange two distinct in-range positions. -/
theorem xorSwap_getElem? (v : List Int) (a b : Nat) (hab : a < b) (hb : b < v.length) (k : Nat) :
    (xorSwap v a b)[k]? = if k = a then v[b]? else if k = b then v[a]? else v[k]? := by
  have ha : a < v.length := lt_trans hab hb
  have hne : a ≠ b := Nat.ne_of_lt hab
  have hne' : b ≠ a := fun h => hne h.symm
  have g1 : vecGet (vecSet v a (Int.xor (vecGet v a) (vecGet v b))) a =
      Int.xor (vecGet v a) (vecGet v b) := by
    rw [vecGet_set]; simp [ha]
  have g2 : vecGet (vecSet v a (Int.xor (vecGet v a) (vecGet v b))) b = vecGet v b := by
    rw [vecGet_set]; simp [hne]
  have e2 : Int.xor (Int.xor (vecGet v a) (vecGet v b)) (vecGet v b) = vecGet v a :=
    int_xor_cancel_right _ _
  have l1 : (vecSet v a (Int.xor (vecGet v a) (vecGet v b))).length = v.length := by
    simp [vecSet]
  have g3 : vecGet (vecSet (vecSet v a (Int.xor (vecGet v a) (vecGet v b))) b (vecGet v a)) a =
      Int.xor (vecGet v a) (vecGet v b) := by
    rw [vecGet_set, g1]; simp [hne']
  have g4 : vecGet (vecSet (vecSet v a (Int.xor (vecGet v a) (vecGet v b))) b (vecGet v a)) b =
      vecGet v a := by
    rw [vecGet_set]; simp [l1, hb]
  have e3 : Int.xor (Int.xor (vecGet v a) (vecGet v b)) (vecGet v a) = vecGet v b :=
    int_xor_cancel_left _ _
  have hva : vecGet v a = v[a] := by simp [vecGet, ha]
  have hvb : vecGet v b = v[b] := by simp [vecGet, hb]
  simp only [xorSwap, g1, g2, e2, g3, g4, e3]
  simp only [vecSet, Int.toNat_ofNat, List.getElem?_set, List.length_set, hva, hvb]
  by_cases hka : k = a
  · subst hka
    simp [ha, hb]
  · by_cases hkb : k = b
    · subst hkb
      simp [ha, hb, hne, hka]
    · simp [hka, hkb, Ne.symm hka, Ne.symm hkb]

/-- The loop started at positions `i ≤ j + 1` with enough iterations left mirrors
the segment `[i, j]` and leaves the rest in place. -/
theorem xorReverseLoop_getElem? (n : Nat) (v : List Int) (i j : Nat) (hj : j < v.length)
    (hn : j + 1 ≤ i + 2 * n) (k : Nat) :
    (xorReverseLoop n v i j)[k]? = if i ≤ k ∧ k ≤ j then v[i + j - k]? else v[k]? := by
  induction n generalizing v i j with
  | zero =>
    simp only [xorReverseLoop]
    have : ¬ (i ≤ k ∧ k ≤ j) := by omega
    rw [if_neg this]
  | succ n ih =>
    simp only [xorReverseLoop]
    by_cases hij : (i : Int) < (j : Int)
    · rw [if_pos hij]
      have hij' : i < j := by exact_mod_cast hij
      have e1 : (i : Int) + 1 = ((i + 1 : Nat) : Int) := by push_cast; ring
      have e2 : (j : Int) - 1 = ((j - 1 : Nat) : Int) := by
        rw [Nat.cast_sub (by omega)]; simp
      rw [e1, e2, ih (xorSwap v i j) (i + 1) (j - 1)
        (by rw [xorSwap_length]; omega) (by omega)]
      by_cases hk : i + 1 ≤ k ∧ k ≤ j - 1
      · rw [if_pos hk, if_pos (by omega), xorSwap_getElem? v i j hij' hj,
          if_neg (by omega), if_neg (by omega)]
        congr 1
        omega
      · rw [if_neg hk, xorSwap_getElem? v i j hij' hj]
        by_cases hki : k = i
        · subst hki
          rw [if_pos rfl, if_pos (by omega)]
          congr 1
          omega
        · rw [if_neg hki]
          by_cases hkj : k = j
          · subst hkj
            rw [if_pos rfl, if_pos (by omega)]
            congr 1
            omega
          · rw [if_neg hkj, if_neg (by omega)]
    · rw [if_neg hij]
      have hij' : j ≤ i := by
        have := not_lt.1 hij
        exact_mod_cast this
      by_cases hk : i ≤ k ∧ k ≤ j
      · rw [if_pos hk]
        congr 1
        omega
      · rw [if_neg hk]

/-- The XOR-swap loop of `GetBestPath` computes the reversal of the vector. -/
theorem xorReverse_eq_reverse (v : List Int) : xorReverse v = v.reverse := by
  cases hv : v with
  | nil => simp [xorReverse, xorReverseLoop]
  | cons x xs =>
    rw [← hv]
    have hlen : 0 < v.length := by rw [hv]; simp
    apply List.ext_getElem?
    intro k
    have e : (v.length : Int) - 1 = ((v.length - 1 : Nat) : Int) := by
      rw [Nat.cast_sub hlen]; simp
    have e0 : (0 : Int) = ((0 : Nat) : Int) := rfl
    unfold xorReverse
    rw [e, e0, xorReverseLoop_getElem? v.length v 0 (v.length - 1) (by omega) (by omega)]
    by_cases hk : k < v.length
    · rw [if_pos (by omega), List.getElem?_reverse hk]
      congr 1
      omega
    · rw [if_neg (by omega), List.getElem?_eq_none (by omega),
        List.getElem?_eq_none (by simp; omega)]

/-! ## GetBestPath -/

theorem reachedFinal_iff (g : Fst) (d : Decoder) :
    ReachedFinal g d = true ↔ ∃ it ∈ d._cur_toks, g.IsFinal it.1 = true := by
  simp [ReachedFinal]

/-- A non-empty frontier always yields a selected token. -/
theorem selectBest_isSome (g : Fst) (d : Decoder) (h : d._cur_toks ≠ []) :
    ∃ tok, selectBest g d = some tok := by
  unfold selectBest
  by_cases hf : ReachedFinal g d = true
  · simp only [hf, if_true]
    cases hb : bestFinalTok g d._cur_toks with
    | some t => exact ⟨t, rfl⟩
    | none =>
      obtain ⟨it, hit, hfin⟩ := (reachedFinal_iff g d).1 hf
      have := ((bestFinalTok_spec g d._cur_toks).1.1 hb) it hit
      rw [hfin] at this
      cases this
  · simp only [hf, if_false]
    cases hb : bestAnyTok d._cur_toks with
    | some t => exact ⟨t, rfl⟩
    | none => exact absurd ((bestAnyTok_spec d._cur_toks).1.1 hb) h

/-- What the back-trace loop appends, in the order it visits the spine. -/
theorem traceBack_eq : ∀ (tok : Token) (acc : TraceAcc),
    (traceBack tok acc).best_lm_score =
      (tok.spine.map (·._w)).foldl (fun lm w => toFloat (lm + w)) acc.best_lm_score ∧
    (traceBack tok acc).phone_arr =
      acc.phone_arr ++ (tok.spine.map (·._input)).filter (· ≠ 0) ∧
    (traceBack tok acc).words_arr =
      acc.words_arr ++ (tok.spine.map (·._output)).filter (· ≠ 0)
  | .mk a none c, acc => by
    simp only [traceBack, traceStep, Token.spine, Token._arc, Token.GetIlabel, Token.GetOlabel,
      List.map_cons, List.map_nil, List.foldl_cons, List.foldl_nil]
    refine ⟨trivial, ?_, ?_⟩
    · by_cases h : a._input = 0 <;> simp [h, List.filter]
    · by_cases h : a._output = 0 <;> simp [h, List.filter]
  | .mk a (some q) c, acc => by
    obtain ⟨h1, h2, h3⟩ := traceBack_eq q (traceStep acc (.mk a (some q) c))
    simp only [traceBack, Token.spine, List.map_cons, List.foldl_cons]
    rw [h1, h2, h3]
    simp only [traceStep, Token._arc, Token.GetIlabel, Token.GetOlabel]
    refine ⟨trivial, ?_, ?_⟩
    · by_cases h : a._input = 0 <;> simp [h, List.filter]
    · by_cases h : a._output = 0 <;> simp [h, List.filter]

/-- Outputs of `GetBestPath` in terms of the selected token: the words are
rebuilt from scratch, the phones are appended to what `phone_arr` held on entry
before the whole vector is inverted. -/
theorem GetBestPath_of_selected (g : Fst) (d : Decoder) (words_arr phone_arr : List Int)
    (s l : ℚ) (flag : Bool) (tok : Token) (h : selectBest g d = some tok) :
    GetBestPath g d words_arr phone_arr s l flag =
      { ret := true
        words_arr := (tok.spine.reverse.map (·._output)).filter (· ≠ 0)
        phone_arr := (tok.spine.reverse.map (·._input)).filter (· ≠ 0) ++ phone_arr.reverse
        best_tot_score := toFloat tok._tot_cost
        best_lm_score := (tok.spine.map (·._w)).foldl (fun lm w => toFloat (lm + w)) 0 } := by
  obtain ⟨h1, h2, h3⟩ := traceBack_eq tok ⟨0, phone_arr, []⟩
  simp only [GetBestPath, h, xorReverse_eq_reverse, vecClear, h1, h2, h3, List.nil_append,
    List.reverse_append, List.map_reverse, List.filter_reverse]

/-- Claim C2, evaluated at its failing input: with `use_final_probs` unset and a
token at a final state in the frontier, `GetBestPath` still restricts itself to
final states and reports cost 5, although the frontier holds a token of cost 0. -/
theorem GetBestPath_flag_unset_keeps_final_restriction :
    (GetBestPath exGraph exDecoder [] [] 0 0 false).ret = true ∧
    (GetBestPath exGraph exDecoder [] [] 0 0 false).best_tot_score = 5 ∧
    (∃ it ∈ exDecoder._cur_toks, it.2._tot_cost = 0) := by
  refine ⟨?_, ?_, ?_⟩
  · simp [GetBestPath, selectBest, ReachedFinal, bestFinalTok, finalStep, better, Token.gt,
      exDecoder, exGraph, exRoot, exFinalTok, Token.ofArc, Token.new, Token._tot_cost]
  · have h5 : toFloat 5 = 5 := toFloat_eq_self 5 5 0 (by norm_num) (by norm_num)
    norm_num [GetBestPath, selectBest, ReachedFinal, bestFinalTok, finalStep, better, Token.gt,
      exDecoder, exGraph, exRoot, exFinalTok, Token.ofArc, Token.new, Token._tot_cost, h5]
  · exact ⟨(0, exRoot), by simp [exDecoder], by simp [exRoot, Token.ofArc, Token._tot_cost]⟩

/-- Claim C3, evaluated at its failing input: `phone_arr` is not cleared on
entry, so a caller's vector `[3]` comes back as `[5, 3]` where the back-spine of
the selected token carries the single non-zero input label 5. -/
theorem GetBestPath_phone_arr_keeps_old_content :
    (GetBestPath exGraph exDecoder [] [3] 0 0 true).ret = true ∧
    (GetBestPath exGraph exDecoder [] [3] 0 0 true).phone_arr = [5, 3] ∧
    selectBest exGraph exDecoder = some exFinalTok ∧
    (exFinalTok.spine.reverse.map (·._input)).filter (· ≠ 0) = [5] := by
  have hsel : selectBest exGraph exDecoder = some exFinalTok := by
    simp [selectBest, ReachedFinal, bestFinalTok, finalStep, better, Token.gt,
      exDecoder, exGraph]
  rw [GetBestPath_of_selected _ _ _ _ _ _ _ _ hsel]
  refine ⟨rfl, ?_, hsel, ?_⟩ <;>
    simp [exFinalTok, exRoot, Token.new, Token.ofArc, Token.spine]

/-- Claim C4: with a non-empty frontier and any initial content of the output
vectors `GetBestPath` returns true and `words_arr` is the list of the non-zero
output labels on the back-spine of the selected token in root-to-leaf order;
and the XOR-swap loop maps every integer vector to its reversal. -/
theorem GetBestPath_words_arr_forward_order (g : Fst) (d : Decoder)
    (words_arr phone_arr : List Int) (s l : ℚ) (flag : Bool) (h : d._cur_toks ≠ []) :
    (∀ v : List Int, xorReverse v = v.reverse) ∧
    ∃ tok, selectBest g d = some tok ∧
      (GetBestPath g d words_arr phone_arr s l flag).ret = true ∧
      (GetBestPath g d words_arr phone_arr s l flag).words_arr =
        (tok.spine.reverse.map (·._output)).filter (· ≠ 0) := by
  refine ⟨xorReverse_eq_reverse, ?_⟩
  obtain ⟨tok, htok⟩ := selectBest_isSome g d h
  refine ⟨tok, htok, ?_⟩
  rw [GetBestPath_of_selected g d words_arr phone_arr s l flag tok htok]
  exact ⟨rfl, rfl⟩

/-- Witness for claim C4 on `exDecoder` with non-empty vectors on entry. -/
theorem GetBestPath_words_arr_forward_order_witness :
    exDecoder._cur_toks ≠ [] ∧
    ∃ tok, selectBest exGraph exDecoder = some tok ∧
      (GetBestPath exGraph exDecoder [9, 8] [3] 0 0 true).ret = true ∧
      (GetBestPath exGraph exDecoder [9, 8] [3] 0 0 true).words_arr =
        (tok.spine.reverse.map (·._output)).filter (· ≠ 0) :=
  ⟨by simp [exDecoder],
   (GetBestPath_words_arr_forward_order exGraph exDecoder [9, 8] [3] 0 0 true
      (by simp [exDecoder])).2⟩

/-- Claim C5 as stated fails: on an empty frontier the vector `words_arr = [9]`
passed in comes back empty. -/
theorem GetBestPath_empty_frontier_clears_words_arr :
    (GetBestPath exGraph exEmptyDecoder [9] [3] 1 2 true).ret = false ∧
    (GetBestPath exGraph exEmptyDecoder [9] [3] 1 2 true).words_arr ≠ [9] := by
  simp [GetBestPath, selectBest, ReachedFinal, bestFinalTok, bestAnyTok, exEmptyDecoder,
    vecClear]

/-- Claim C5 as amended: on an empty frontier `GetBestPath` returns false, leaves
`phone_arr`, `best_tot_score` and `best_lm_score` as they were passed in, and
empties `words_arr`. -/
theorem GetBestPath_empty_frontier (g : Fst) (d : Decoder) (words_arr phone_arr : List Int)
    (s l : ℚ) (flag : Bool) (h : d._cur_toks = []) :
    GetBestPath g d words_arr phone_arr s l flag =
      { ret := false, words_arr := [], phone_arr := phone_arr, best_tot_score := s,
        best_lm_score := l } := by
  simp [GetBestPath, selectBest, ReachedFinal, bestFinalTok, bestAnyTok, h, vecClear]

/-- Witness for the amended claim C5 on `exEmptyDecoder`. -/
theorem GetBestPath_empty_frontier_witness :
    exEmptyDecoder._cur_toks = [] ∧
    GetBestPath exGraph exEmptyDecoder [9] [3] 1 2 true =
      { ret := false, words_arr := [], phone_arr := [3], best_tot_score := 1,
        best_lm_score := 2 } :=
  ⟨rfl, GetBestPath_empty_frontier exGraph exEmptyDecoder [9] [3] 1 2 true rfl⟩

/-! ## Constructor -/

/-- Claim C8 as stated fails: options with a non-positive beam that meet the three
asserted conditions are accepted by the constructor. -/
theorem construct_accepts_zero_beam :
    ¬ (0 < exZeroBeamOpts._beam) ∧
    construct exZeroBeamOpts = .ok ⟨[], [], -1, [], []⟩ := by
  constructor
  · simp [exZeroBeamOpts]
  · simp [construct, exZeroBeamOpts]

/-- Claim C8 as amended: construction fails (on an assertion) exactly when the
options violate one of `hash_ratio >= 1.0`, `max_active > 1`,
`0 <= min_active < max_active`; the beam is not inspected.  When it succeeds the
decoder starts with empty frontiers and `num_frames_decoded = -1`. -/
theorem construct_fails_iff (opts : CtcFasterDecoderOptions) :
    (construct opts = .error .assertion ↔
      ¬ (1 ≤ opts._hash_ratio ∧ 1 < opts._max_active ∧
         (0 ≤ opts._min_active ∧ opts._min_active < opts._max_active))) ∧
    (construct opts = .ok ⟨[], [], -1, [], []⟩ ↔
      (1 ≤ opts._hash_ratio ∧ 1 < opts._max_active ∧
         (0 ≤ opts._min_active ∧ opts._min_active < opts._max_active))) := by
  refine ⟨?_, ?_⟩
  · unfold construct
    by_cases h1 : 1 ≤ opts._hash_ratio <;> by_cases h2 : 1 < opts._max_active <;>
      by_cases h3 : (0 ≤ opts._min_active ∧ opts._min_active < opts._max_active) <;>
      simp [h1, h2, h3]
  · unfold construct
    by_cases h1 : 1 ≤ opts._hash_ratio <;> by_cases h2 : 1 < opts._max_active <;>
      by_cases h3 : (0 ≤ opts._min_active ∧ opts._min_active < opts._max_active) <;>
      simp [h1, h2, h3]

/-! ## GetCutoff -/

/-- Result of the scanning loop of `GetCutoff`: it counts the tokens, records
their costs in iteration order and keeps the least cost seen. -/
theorem scan_spec (push : Bool) (toks : TokMap) (acc : ScanAcc) :
    (toks.foldl (scanStep push) acc).count = acc.count + toks.length ∧
    (toks.foldl (scanStep push) acc).tmp_array =
      acc.tmp_array ++ (if push then toks.map (·.2._tot_cost) else []) ∧
    (toks.foldl (scanStep push) acc).best_cost ≤ acc.best_cost ∧
    (∀ it ∈ toks, (toks.foldl (scanStep push) acc).best_cost ≤ (it.2._tot_cost : WithTop ℚ)) ∧
    (((toks.foldl (scanStep push) acc).best_cost = acc.best_cost ∧
      (toks.foldl (scanStep push) acc).best_tok = acc.best_tok ∧
      (toks.foldl (scanStep push) acc).best_stateid = acc.best_stateid) ∨
     ∃ it ∈ toks, (toks.foldl (scanStep push) acc).best_cost = (it.2._tot_cost : WithTop ℚ) ∧
      (toks.foldl (scanStep push) acc).best_tok = some it.2 ∧
      (toks.foldl (scanStep push) acc).best_stateid = it.1) := by
  induction toks generalizing acc with
  | nil => 
    refine ⟨by simp, by cases push <;> simp, le_refl _, ?_, Or.inl ⟨rfl, rfl, rfl⟩⟩
    intro it hit
    exact absurd hit (List.not_mem_nil _)
  | cons hd tl ih =>
    rw [List.foldl_cons]
    obtain ⟨h1, h2, h3, h4, h5⟩ := ih (scanStep push acc hd)
    have hc : (scanStep push acc hd).count = acc.count + 1 := by
      unfold scanStep; dsimp only; split <;> rfl
    have ht : (scanStep push acc hd).tmp_array =
        if push then acc.tmp_array ++ [hd.2._tot_cost] else acc.tmp_array := by
      unfold scanStep; dsimp only; split <;> rfl
    have hb : (scanStep push acc hd).best_cost ≤ acc.best_cost ∧
        (scanStep push acc hd).best_cost ≤ (hd.2._tot_cost : WithTop ℚ) ∧
        (((scanStep push acc hd).best_cost = acc.best_cost ∧
          (scanStep push acc hd).best_tok = acc.best_tok ∧
          (scanStep push acc hd).best_stateid = acc.best_stateid) ∨
         ((scanStep push acc hd).best_cost = (hd.2._tot_cost : WithTop ℚ) ∧
          (scanStep push acc hd).best_tok = some hd.2 ∧
          (scanStep push acc hd).best_stateid = hd.1)) := by
      unfold scanStep
      dsimp only
      by_cases hlt : (hd.2._tot_cost : WithTop ℚ) < acc.best_cost
      · rw [if_pos hlt]
        exact ⟨le_of_lt hlt, le_refl _, Or.inr ⟨rfl, rfl, rfl⟩⟩
      · rw [if_neg hlt]
        exact ⟨le_refl _, not_lt.1 hlt, Or.inl ⟨rfl, rfl, rfl⟩⟩
    refine ⟨?_, ?_, le_trans h3 hb.1, ?_, ?_⟩
    · rw [h1, hc, List.length_cons]; omega
    · rw [h2, ht]
      cases push <;> simp
    · intro it hit
      rcases List.mem_cons.1 hit with rfl | hit
      · exact le_trans h3 hb.2.1
      · exact h4 it hit
    · rcases h5 with ⟨e1, e2, e3⟩ | ⟨it, hit, e1, e2, e3⟩
      · rcases hb.2.2 with ⟨f1, f2, f3⟩ | ⟨f1, f2, f3⟩
        · exact Or.inl ⟨e1.trans f1, e2.trans f2, e3.trans f3⟩
        · exact Or.inr ⟨hd, List.mem_cons_self _ _, e1.trans f1, e2.trans f2, e3.trans f3⟩
      · exact Or.inr ⟨it, List.mem_cons_of_mem _ hit, e1, e2, e3⟩

/-- In a sorted list fewer than `k + 1` entries lie strictly below entry `k`. -/
theorem sorted_countP_lt_le (S : List ℚ) (hS : S.Sorted (· ≤ ·)) (k : Nat) (hk : k < S.length) :
    S.countP (fun w => decide (w < S.getD k 0)) ≤ k := by
  induction S generalizing k with
  | nil => simp at hk
  | cons x xs ih =>
    have hx : ∀ y ∈ xs, x ≤ y := (List.sorted_cons.1 hS).1
    have hxs : xs.Sorted (· ≤ ·) := (List.sorted_cons.1 hS).2
    cases k with
    | zero =>
      simp only [List.getD_cons_zero, nonpos_iff_eq_zero, List.countP_eq_zero, List.mem_cons,
        decide_eq_true_eq, not_lt, forall_eq_or_imp, le_refl, true_and]
      exact hx
    | succ k =>
      have hk' : k < xs.length := by simpa using hk
      have := ih hxs k hk'
      rw [List.getD_cons_succ, List.countP_cons]
      split <;> omega

/-- Entries of a sorted list are ordered like their positions. -/
theorem sorted_getD_le (S : List ℚ) (hS : S.Sorted (· ≤ ·)) (i j : Nat) (hij : i ≤ j)
    (hj : j < S.length) : S.getD i 0 ≤ S.getD j 0 := by
  induction S generalizing i j with
  | nil => simp at hj
  | cons x xs ih =>
    have hx : ∀ y ∈ xs, x ≤ y := (List.sorted_cons.1 hS).1
    have hxs : xs.Sorted (· ≤ ·) := (List.sorted_cons.1 hS).2
    cases j with
    | zero =>
      have : i = 0 := by omega
      subst this
      exact le_refl _
    | succ j =>
      have hj' : j < xs.length := by simpa using hj
      cases i with
      | zero =>
        rw [List.getD_cons_zero, List.getD_cons_succ, List.getD_eq_getElem _ _ hj']
        exact hx _ (List.getElem_mem _)
      | succ i =>
        rw [List.getD_cons_succ, List.getD_cons_succ]
        exact ih hxs i j (by omega) hj'

/-- The model of `nth_element` leaves a sorted array unchanged. -/
theorem nth_element_sorted (S : List ℚ) (hS : S.Sorted (· ≤ ·)) (nth last : Nat) :
    nth_element S nth last = S := by
  unfold nth_element
  rw [List.Sorted.insertionSort_eq (hS.sublist (List.take_sublist _ _)), List.take_append_drop]

/-- Applied to the whole array the model of `nth_element` sorts it. -/
theorem nth_element_full (arr : List ℚ) (nth : Nat) :
    nth_element arr nth arr.length = arr.insertionSort (· ≤ ·) := by
  simp [nth_element]

theorem countBelow_eq (toks : TokMap) (c : WithTop ℚ) :
    countBelow toks c =
      List.countP (fun w : ℚ => decide ((w : WithTop ℚ) < c)) (toks.map (·.2._tot_cost)) := by
  unfold countBelow
  rw [List.countP_map]
  rfl

theorem countBelow_le_length (toks : TokMap) (c : WithTop ℚ) :
    countBelow toks c ≤ toks.length := List.countP_le_length _

/-- A cutoff no greater than entry `k` of the sorted costs lets at most `k`
tokens through. -/
theorem countBelow_le_of_le_sorted (toks : TokMap) (c : WithTop ℚ) (k : Nat)
    (hk : k < toks.length)
    (hc : c ≤ ((((toks.map (·.2._tot_cost)).insertionSort (· ≤ ·)).getD k 0 : ℚ) : WithTop ℚ)) :
    countBelow toks c ≤ k := by
  rw [countBelow_eq]
  have hperm := List.perm_insertionSort (· ≤ ·) (toks.map (·.2._tot_cost))
  rw [← hperm.countP_eq]
  have hS := List.sorted_insertionSort (· ≤ ·) (toks.map (·.2._tot_cost))
  have hlen : k < ((toks.map (·.2._tot_cost)).insertionSort (· ≤ ·)).length := by
    rw [List.length_insertionSort]; simpa using hk
  refine le_trans ?_ (sorted_countP_lt_le _ hS k hlen)
  apply List.countP_mono_left
  intro w _ hw
  have hw' : (w : WithTop ℚ) < c := by simpa using hw
  have := lt_of_lt_of_le hw' hc
  simpa using this

theorem toSizeT_of_int_range (n : Int) (h0 : 0 ≤ n) (h1 : n ≤ INT_MAX) :
    toSizeT n = n.toNat := by
  unfold toSizeT
  unfold INT_MAX at h1
  rw [Int.emod_eq_of_lt h0 (by omega)]

/-- Cutoff returned by the general branch of `GetCutoff`, in terms of the three
candidate cutoffs. -/
theorem GetCutoff_cutoff_general (cfg : CtcFasterDecoderOptions) (toks : TokMap)
    (b0 : Option Token) (s0 : StateId) (tmp0 : List ℚ)
    (hfast : ¬ (cfg._max_active = INT_MAX ∧ cfg._min_active = 0))
    (best : WithTop ℚ)
    (hbest : (toks.foldl (scanStep true) ⟨⊤, b0, s0, 0, []⟩).best_cost = best) :
    (GetCutoff cfg toks b0 s0 tmp0).cutoff =
      if (maxActiveCutoff cfg (toks.map (·.2._tot_cost))).2 <
          addDouble best (cfg._beam : WithTop ℚ) then
        (maxActiveCutoff cfg (toks.map (·.2._tot_cost))).2
      else if addDouble best (cfg._beam : WithTop ℚ) <
          (minActiveCutoff cfg best (maxActiveCutoff cfg (toks.map (·.2._tot_cost))).1).2 then
        (minActiveCutoff cfg best (maxActiveCutoff cfg (toks.map (·.2._tot_cost))).1).2
      else addDouble best (cfg._beam : WithTop ℚ) := by
  obtain ⟨-, htmp, -⟩ := scan_spec true toks ⟨⊤, b0, s0, 0, []⟩
  simp only [List.nil_append, if_true] at htmp
  unfold GetCutoff
  rw [if_neg hfast]
  simp only [htmp, hbest]
  split_ifs <;> rfl

/-- Cutoff returned by the fast branch of `GetCutoff`. -/
theorem GetCutoff_cutoff_fast (cfg : CtcFasterDecoderOptions) (toks : TokMap)
    (b0 : Option Token) (s0 : StateId) (tmp0 : List ℚ)
    (hfast : cfg._max_active = INT_MAX ∧ cfg._min_active = 0) :
    (GetCutoff cfg toks b0 s0 tmp0).cutoff =
      addDouble (toks.foldl (scanStep false) ⟨⊤, b0, s0, 0, tmp0⟩).best_cost
        (cfg._beam : WithTop ℚ) := by
  unfold GetCutoff
  rw [if_pos hfast]

/-- Block for `max_active` on a frontier of more than `max_active` costs: the
array is sorted and the cutoff is entry `max_active`. -/
theorem maxActiveCutoff_big (cfg : CtcFasterDecoderOptions) (costs : List ℚ)
    (h0 : 0 ≤ cfg._max_active) (h1 : cfg._max_active ≤ INT_MAX)
    (hbig : cfg._max_active.toNat < costs.length) :
    maxActiveCutoff cfg costs =
      (costs.insertionSort (· ≤ ·),
        (((costs.insertionSort (· ≤ ·)).getD cfg._max_active.toNat 0 : ℚ) : WithTop ℚ)) := by
  unfold maxActiveCutoff
  rw [toSizeT_of_int_range _ h0 h1, if_pos hbig, nth_element_full]

/-- Block for `max_active` on a frontier of at most `max_active` costs. -/
theorem maxActiveCutoff_small (cfg : CtcFasterDecoderOptions) (costs : List ℚ)
    (h0 : 0 ≤ cfg._max_active) (h1 : cfg._max_active ≤ INT_MAX)
    (hsmall : ¬ cfg._max_active.toNat < costs.length) :
    maxActiveCutoff cfg costs = (costs, ⊤) := by
  unfold maxActiveCutoff
  rw [toSizeT_of_int_range _ h0 h1, if_neg hsmall]

/-- Block for `min_active` applied to sorted costs: the array stays as it is and
the cutoff is `best_cost` for `min_active = 0`, entry `min_active` otherwise. -/
theorem minActiveCutoff_sorted (cfg : CtcFasterDecoderOptions) (best : WithTop ℚ) (S : List ℚ)
    (hS : S.Sorted (· ≤ ·)) (h0 : 0 ≤ cfg._min_active) (h1 : cfg._min_active ≤ INT_MAX)
    (hlt : cfg._min_active.toNat < S.length) :
    minActiveCutoff cfg best S =
      (S, if cfg._min_active = 0 then best
          else ((S.getD cfg._min_active.toNat 0 : ℚ) : WithTop ℚ)) := by
  unfold minActiveCutoff
  rw [toSizeT_of_int_range _ h0 h1, if_pos hlt]
  by_cases hz : cfg._min_active = 0
  · rw [if_pos hz, if_pos hz]
  · rw [if_neg hz, if_neg hz]
    simp only [nth_element_sorted _ hS]

/-- Cutoff of the general branch of `GetCutoff` when the frontier holds more than
`max_active` tokens: it does not exceed entry `max_active` of the sorted costs. -/
theorem GetCutoff_le_sorted_max (cfg : CtcFasterDecoderOptions) (toks : TokMap)
    (b0 : Option Token) (s0 : StateId) (tmp0 : List ℚ) (hv : ValidConfig cfg)
    (hfast : ¬ (cfg._max_active = INT_MAX ∧ cfg._min_active = 0))
    (hbig : cfg._max_active.toNat < toks.length) :
    (GetCutoff cfg toks b0 s0 tmp0).cutoff ≤
      ((((toks.map (·.2._tot_cost)).insertionSort (· ≤ ·)).getD cfg._max_active.toNat 0 : ℚ) :
        WithTop ℚ) := by
  obtain ⟨-, hmax1, hmaxI, hmin0, hminmax⟩ := hv
  obtain ⟨-, -, -, hbest, -⟩ := scan_spec true toks ⟨⊤, b0, s0, 0, []⟩
  have hS := List.sorted_insertionSort (· ≤ ·) (toks.map (·.2._tot_cost))
  have hlenS : ((toks.map (·.2._tot_cost)).insertionSort (· ≤ ·)).length = toks.length := by
    rw [List.length_insertionSort, List.length_map]
  have hmM : cfg._min_active.toNat < cfg._max_active.toNat := by omega
  rw [GetCutoff_cutoff_general cfg toks b0 s0 tmp0 hfast _ rfl,
    maxActiveCutoff_big cfg _ (by omega) hmaxI (by simpa using hbig),
    minActiveCutoff_sorted cfg _ _ hS hmin0 (by omega) (by rw [hlenS]; omega)]
  dsimp only
  have hbestle : (toks.foldl (scanStep true) ⟨⊤, b0, s0, 0, []⟩).best_cost ≤
      ((((toks.map (·.2._tot_cost)).insertionSort (· ≤ ·)).getD cfg._max_active.toNat 0 : ℚ) :
        WithTop ℚ) := by
    have hmem : ((toks.map (·.2._tot_cost)).insertionSort (· ≤ ·)).getD
        cfg._max_active.toNat 0 ∈ toks.map (·.2._tot_cost) := by
      rw [List.getD_eq_getElem _ _ (by rw [hlenS]; exact hbig)]
      exact (List.perm_insertionSort (· ≤ ·) _).subset (List.getElem_mem _)
    obtain ⟨it, hit, he⟩ := List.mem_map.1 hmem
    rw [← he]
    exact hbest it hit
  have hsortedle : ((((toks.map (·.2._tot_cost)).insertionSort (· ≤ ·)).getD
        cfg._min_active.toNat 0 : ℚ) : WithTop ℚ) ≤
      ((((toks.map (·.2._tot_cost)).insertionSort (· ≤ ·)).getD cfg._max_active.toNat 0 : ℚ) :
        WithTop ℚ) :=
    WithTop.coe_le_coe.2 (sorted_getD_le _ hS _ _ (le_of_lt hmM) (by rw [hlenS]; exact hbig))
  by_cases hA : ((((toks.map (·.2._tot_cost)).insertionSort (· ≤ ·)).getD
      cfg._max_active.toNat 0 : ℚ) : WithTop ℚ) <
      addDouble (toks.foldl (scanStep true) ⟨⊤, b0, s0, 0, []⟩).best_cost (cfg._beam : WithTop ℚ)
  · rw [if_pos hA]
  · rw [if_neg hA]
    split_ifs <;> first | exact hbestle | exact hsortedle | exact not_lt.1 hA

/-- Claim C10 as amended: for accepted options and a frontier that holds at most
`INT_MAX` tokens (any frontier unless `max_active = INT_MAX` and
`min_active = 0`), at most `max_active` tokens lie strictly below the cutoff
returned by `GetCutoff`. -/
theorem GetCutoff_expands_at_most_max_active (cfg : CtcFasterDecoderOptions) (toks : TokMap)
    (b0 : Option Token) (s0 : StateId) (tmp0 : List ℚ) (hv : ValidConfig cfg)
    (hsize : cfg._max_active = INT_MAX → cfg._min_active = 0 →
      (toks.length : Int) ≤ INT_MAX) :
    (countBelow toks (GetCutoff cfg toks b0 s0 tmp0).cutoff : Int) ≤ cfg._max_active := by
  have hmax0 : 0 ≤ cfg._max_active := by have := hv.2.1; omega
  by_cases hfast : cfg._max_active = INT_MAX ∧ cfg._min_active = 0
  · have h1 := countBelow_le_length toks (GetCutoff cfg toks b0 s0 tmp0).cutoff
    have h2 := hsize hfast.1 hfast.2
    rw [hfast.1]
    omega
  · by_cases hbig : cfg._max_active.toNat < toks.length
    · have h1 := countBelow_le_of_le_sorted toks _ _ hbig
        (GetCutoff_le_sorted_max cfg toks b0 s0 tmp0 hv hfast hbig)
      omega
    · have h1 := countBelow_le_length toks (GetCutoff cfg toks b0 s0 tmp0).cutoff
      omega

theorem validConfig_exUnlimitedOpts : ValidConfig exUnlimitedOpts := by
  norm_num [ValidConfig, exUnlimitedOpts, INT_MAX]

theorem exHugeFrontier_cost (it : StateId × Token) (h : it ∈ exHugeFrontier) :
    it.2._tot_cost = 0 := by
  obtain ⟨i, -, rfl⟩ := List.mem_map.1 h
  rfl

theorem exHugeFrontier_length : exHugeFrontier.length = 2147483648 := by
  unfold exHugeFrontier
  rw [List.length_map, List.length_range]

/-- Claim C10 as stated fails: with `max_active = INT_MAX` and `min_active = 0`
`GetCutoff` returns `best_cost + beam` without counting, and on a frontier of
`2^31` tokens of equal cost all of them lie below the cutoff. -/
theorem GetCutoff_unlimited_exceeds_max_active :
    ValidConfig exUnlimitedOpts ∧
    ¬ ((countBelow exHugeFrontier
          (GetCutoff exUnlimitedOpts exHugeFrontier none 0 []).cutoff : Int) ≤
        exUnlimitedOpts._max_active) := by
  refine ⟨validConfig_exUnlimitedOpts, ?_⟩
  have hfast : exUnlimitedOpts._max_active = INT_MAX ∧ exUnlimitedOpts._min_active = 0 :=
    ⟨rfl, rfl⟩
  obtain ⟨-, -, -, hle, hor⟩ := scan_spec false exHugeFrontier ⟨⊤, none, 0, 0, []⟩
  have hmem : ((0 : Int), Token.ofArc ⟨0, 0, 0, 0⟩ none) ∈ exHugeFrontier := by
    unfold exHugeFrontier
    exact List.mem_map.2 ⟨0, List.mem_range.2 (by norm_num), rfl⟩
  have hbest : (exHugeFrontier.foldl (scanStep false) ⟨⊤, none, 0, 0, []⟩).best_cost =
      ((0 : ℚ) : WithTop ℚ) := by
    rcases hor with ⟨e, -, -⟩ | ⟨it, hit, e, -, -⟩
    · have := hle _ hmem
      rw [e] at this
      exact absurd this (by simp)
    · rw [e, exHugeFrontier_cost it hit]
  have hcut : (GetCutoff exUnlimitedOpts exHugeFrontier none 0 []).cutoff =
      ((16 : ℚ) : WithTop ℚ) := by
    rw [GetCutoff_cutoff_fast _ _ _ _ _ hfast, hbest]
    simp only [exUnlimitedOpts]
    rw [addDouble_coe, zero_add, toDouble_eq_self 16 1 4 (by norm_num) (by norm_num)]
  have hcount : countBelow exHugeFrontier ((16 : ℚ) : WithTop ℚ) = exHugeFrontier.length := by
    unfold countBelow
    rw [List.countP_eq_length]
    intro it hit
    rw [exHugeFrontier_cost it hit]
    simp
  rw [hcut, hcount, exHugeFrontier_length]
  simp [exUnlimitedOpts]

/-- Witness for the amended claim C10: the unlimited options on the two-token
frontier of `exDecoder`. -/
theorem GetCutoff_expands_at_most_max_active_witness :
    ValidConfig exUnlimitedOpts ∧
    (exUnlimitedOpts._max_active = INT_MAX → exUnlimitedOpts._min_active = 0 →
      (exDecoder._cur_toks.length : Int) ≤ INT_MAX) ∧
    (countBelow exDecoder._cur_toks
        (GetCutoff exUnlimitedOpts exDecoder._cur_toks none 0 []).cutoff : Int) ≤
      exUnlimitedOpts._max_active :=
  ⟨validConfig_exUnlimitedOpts, fun _ _ => by simp [exDecoder, INT_MAX],
   GetCutoff_expands_at_most_max_active exUnlimitedOpts exDecoder._cur_toks none 0 []
     validConfig_exUnlimitedOpts (fun _ _ => by simp [exDecoder, INT_MAX])⟩

/-! ## Eps paths: composition and a lower bound on their cost -/

theorem isEpsPath_append (g : Fst) (s : StateId) (p q : List StdArc) :
    IsEpsPath g s (p ++ q) ↔ IsEpsPath g s p ∧ IsEpsPath g (pathEnd s p) q := by
  induction p generalizing s with
  | nil => simp [IsEpsPath, pathEnd]
  | cons a p ih =>
    rw [List.cons_append]
    show (a ∈ g.arcs s ∧ a._input = 0 ∧ IsEpsPath g a._to (p ++ q)) ↔
      (a ∈ g.arcs s ∧ a._input = 0 ∧ IsEpsPath g a._to p) ∧ IsEpsPath g (pathEnd a._to p) q
    rw [ih]
    tauto

theorem pathEnd_append (s : StateId) (p q : List StdArc) :
    pathEnd s (p ++ q) = pathEnd (pathEnd s p) q := by
  induction p generalizing s with
  | nil => rfl
  | cons a p ih =>
    rw [List.cons_append]
    show pathEnd a._to (p ++ q) = pathEnd (pathEnd a._to p) q
    exact ih _

theorem pathCost_append (p q : List StdArc) : pathCost (p ++ q) = pathCost p + pathCost q := by
  simp [pathCost]

theorem pathCost_cons (a : StdArc) (p : List StdArc) : pathCost (a :: p) = a._w + pathCost p := by
  simp [pathCost]

theorem weightBound_nonneg (g : Fst) (V : List StateId) : 0 ≤ weightBound g V := by
  unfold weightBound
  apply List.sum_nonneg
  intro x hx
  obtain ⟨u, -, rfl⟩ := List.mem_map.1 hx
  apply List.sum_nonneg
  intro y hy
  obtain ⟨a, -, rfl⟩ := List.mem_map.1 hy
  exact abs_nonneg _

/-- No arc leaving a state of `V` weighs less than `- weightBound g V`. -/
theorem neg_weightBound_le (g : Fst) (V : List StateId) (u : StateId) (hu : u ∈ V)
    (a : StdArc) (ha : a ∈ g.arcs u) : - weightBound g V ≤ a._w := by
  have h1 : |a._w| ≤ ((g.arcs u).map fun a => |a._w|).sum :=
    List.single_le_sum (fun x hx => by
      obtain ⟨b, -, rfl⟩ := List.mem_map.1 hx
      exact abs_nonneg _) _ (List.mem_map.2 ⟨a, ha, rfl⟩)
  have h2 : ((g.arcs u).map fun a => |a._w|).sum ≤ weightBound g V :=
    List.single_le_sum (fun x hx => by
      obtain ⟨v, -, rfl⟩ := List.mem_map.1 hx
      apply List.sum_nonneg
      intro y hy
      obtain ⟨b, -, rfl⟩ := List.mem_map.1 hy
      exact abs_nonneg _) _ (List.mem_map.2 ⟨u, hu, rfl⟩)
  have h3 := neg_abs_le a._w
  linarith

/-- A path inside a set of states closed under the arcs stays inside it. -/
theorem pathEnd_mem (g : Fst) (V : List StateId)
    (hV : ∀ u ∈ V, ∀ a ∈ g.arcs u, a._to ∈ V) (s : StateId) (hs : s ∈ V)
    (p : List StdArc) (hp : IsEpsPath g s p) : pathEnd s p ∈ V := by
  induction p generalizing s with
  | nil => exact hs
  | cons a p ih => exact ih a._to (hV s hs a hp.1) hp.2.2

/-- Each arc of a path costs at least `- weightBound`. -/
theorem pathCost_ge_length (g : Fst) (V : List StateId)
    (hV : ∀ u ∈ V, ∀ a ∈ g.arcs u, a._to ∈ V) (s : StateId) (hs : s ∈ V)
    (p : List StdArc) (hp : IsEpsPath g s p) :
    - ((p.length : ℚ) * weightBound g V) ≤ pathCost p := by
  induction p generalizing s with
  | nil => simp [pathCost]
  | cons a p ih =>
    have h1 := ih a._to (hV s hs a hp.1) hp.2.2
    have h2 := neg_weightBound_le g V s hs a hp.1
    rw [pathCost_cons, List.length_cons]
    push_cast
    linarith

/-- A path with at least as many arcs as there are states visits a state twice;
cutting the closed part out gives a shorter path to the same state that, absent
negative cycles, costs no more. -/
theorem exists_shorter_path (g : Fst) (hN : NoNegEpsCycle g) (V : List StateId)
    (hV : ∀ u ∈ V, ∀ a ∈ g.arcs u, a._to ∈ V) (s : StateId) (hs : s ∈ V)
    (p : List StdArc) (hp : IsEpsPath g s p) (hlen : V.length ≤ p.length) :
    ∃ q, IsEpsPath g s q ∧ pathEnd s q = pathEnd s p ∧ pathCost q ≤ pathCost p ∧
      q.length < p.length := by
  have hcard : V.toFinset.card < (Finset.range (p.length + 1)).card := by
    rw [Finset.card_range]
    exact lt_of_le_of_lt (List.toFinset_card_le V) (Nat.lt_succ_of_le hlen)
  have hmaps : ∀ k ∈ Finset.range (p.length + 1), pathEnd s (p.take k) ∈ V.toFinset := by
    intro k _
    rw [List.mem_toFinset]
    apply pathEnd_mem g V hV s hs
    have := hp
    rw [← List.take_append_drop k p, isEpsPath_append] at this
    exact this.1
  obtain ⟨x, hx, y, hy, hxy, hf⟩ :=
    Finset.exists_ne_map_eq_of_card_lt_of_maps_to hcard hmaps
  have key : ∀ i j : Nat, i < j → j ≤ p.length →
      pathEnd s (p.take i) = pathEnd s (p.take j) →
      ∃ q, IsEpsPath g s q ∧ pathEnd s q = pathEnd s p ∧ pathCost q ≤ pathCost p ∧
        q.length < p.length := by
    intro i j hij hj he
    have e1 : p.take j = p.take i ++ (p.take j).drop i := by
      have := (List.take_append_drop i (p.take j)).symm
      rwa [List.take_take, Nat.min_eq_left (le_of_lt hij)] at this
    have e2 : p = p.take i ++ (p.take j).drop i ++ p.drop j := by
      rw [← e1, List.take_append_drop]
    have hp2 := hp
    rw [e2, isEpsPath_append, isEpsPath_append] at hp2
    obtain ⟨⟨hA, hC⟩, hZ⟩ := hp2
    have hendC : pathEnd (pathEnd s (p.take i)) ((p.take j).drop i) = pathEnd s (p.take i) := by
      rw [← pathEnd_append, ← e1, he]
    have hcyc := hN _ _ hC hendC
    rw [← e1, ← he] at hZ
    refine ⟨p.take i ++ p.drop j, (isEpsPath_append _ _ _ _).2 ⟨hA, hZ⟩, ?_, ?_, ?_⟩
    · rw [pathEnd_append, he, ← pathEnd_append, List.take_append_drop]
    · have hc : pathCost p =
          pathCost (p.take i) + pathCost ((p.take j).drop i) + pathCost (p.drop j) := by
        conv_lhs => rw [e2]
        rw [pathCost_append, pathCost_append]
      rw [pathCost_append, hc]
      linarith
    · rw [List.length_append, List.length_take, List.length_drop]
      omega
  have hx' : x ≤ p.length := Nat.lt_succ_iff.1 (Finset.mem_range.1 hx)
  have hy' : y ≤ p.length := Nat.lt_succ_iff.1 (Finset.mem_range.1 hy)
  rcases Nat.lt_or_gt_of_ne hxy with h | h
  · exact key x y h hy' hf
  · exact key y x h hx' hf.symm

/-- Absent negative eps cycles the cost of every eps path inside a finite set of
states is bounded below. -/
theorem pathCost_lower_bound (g : Fst) (hN : NoNegEpsCycle g) (V : List StateId)
    (hV : ∀ u ∈ V, ∀ a ∈ g.arcs u, a._to ∈ V) (s : StateId) (hs : s ∈ V) :
    ∀ (n : Nat) (p : List StdArc), p.length = n → IsEpsPath g s p →
      - ((V.length : ℚ) * weightBound g V) ≤ pathCost p := by
  intro n
  induction n using Nat.strong_induction_on with
  | _ n ih =>
    intro p hn hp
    by_cases hlen : V.length ≤ p.length
    · obtain ⟨q, hq, -, hc, hl⟩ := exists_shorter_path g hN V hV s hs p hp hlen
      have := ih q.length (by omega) q rfl hq
      linarith
    · have h1 := pathCost_ge_length g V hV s hs p hp
      have h2 := weightBound_nonneg g V
      have h3 : (p.length : ℚ) ≤ (V.length : ℚ) := by
        exact_mod_cast le_of_lt (not_le.1 hlen)
      nlinarith

/-! ## Costs lie on a grid -/

theorem onGrid_add (D : Nat) (x y : ℚ) (hx : OnGrid D x) (hy : OnGrid D y) :
    OnGrid D (x + y) := by
  obtain ⟨a, rfl⟩ := hx
  obtain ⟨b, rfl⟩ := hy
  exact ⟨a + b, by push_cast; ring⟩

theorem onGrid_den (x : ℚ) : OnGrid x.den x :=
  ⟨x.num, (Rat.num_div_den x).symm⟩

theorem onGrid_mul (D k : Nat) (hk : 0 < k) (x : ℚ) (hx : OnGrid D x) : OnGrid (D * k) x := by
  obtain ⟨a, rfl⟩ := hx
  refine ⟨a * k, ?_⟩
  have hk' : (k : ℚ) ≠ 0 := by exact_mod_cast Nat.pos_iff_ne_zero.1 hk
  by_cases hD : (D : ℚ) = 0
  · simp [hD]
  · push_cast
    field_simp
    ring

/-- Finitely many rationals share a grid. -/
theorem exists_common_grid (L : List ℚ) : ∃ D : Nat, 0 < D ∧ ∀ x ∈ L, OnGrid D x := by
  induction L with
  | nil => exact ⟨1, Nat.one_pos, fun x hx => absurd hx (List.not_mem_nil _)⟩
  | cons y L ih =>
    obtain ⟨D, hD, h⟩ := ih
    refine ⟨D * y.den, Nat.mul_pos hD y.den_pos, ?_⟩
    intro x hx
    rcases List.mem_cons.1 hx with rfl | hx
    · rw [Nat.mul_comm]
      exact onGrid_mul _ _ hD _ (onGrid_den x)
    · exact onGrid_mul _ _ y.den_pos _ (h x hx)

/-- The rank of a cost on the grid, above the lower bound, is its integer
position. -/
theorem costRank_eq (K D : Nat) (hD : 0 < D) (x : ℚ) (z : Int) (hx : x = z / D)
    (hlow : -(K : ℚ) ≤ x) : (costRank K D x : Int) = z + K * D := by
  have hD' : (D : ℚ) ≠ 0 := by exact_mod_cast Nat.pos_iff_ne_zero.1 hD
  have hDpos : (0 : ℚ) < D := by exact_mod_cast hD
  have e : (x + K) * D = ((z + K * D : Int) : ℚ) := by
    rw [hx]; push_cast; field_simp
  have hnn : (0 : ℚ) ≤ (x + K) * D := mul_nonneg (by linarith) (le_of_lt hDpos)
  unfold costRank
  rw [e, Int.floor_intCast]
  rw [e] at hnn
  have : (0 : Int) ≤ z + K * D := by exact_mod_cast hnn
  exact Int.toNat_of_nonneg this

/-- On the grid and above the lower bound a strictly smaller cost has a strictly
smaller rank. -/
theorem costRank_lt (K D : Nat) (hD : 0 < D) (x y : ℚ) (hx : OnGrid D x) (hy : OnGrid D y)
    (hlx : -(K : ℚ) ≤ x) (hxy : x < y) : costRank K D x < costRank K D y := by
  obtain ⟨a, ha⟩ := hx
  obtain ⟨b, hb⟩ := hy
  have hDpos : (0 : ℚ) < D := by exact_mod_cast hD
  have h1 := costRank_eq K D hD x a ha hlx
  have h2 := costRank_eq K D hD y b hb (by linarith)
  have hab : a < b := by
    rw [ha, hb] at hxy
    have := (div_lt_div_iff_of_pos_right hDpos).1 hxy
    exact_mod_cast this
  have : (costRank K D x : Int) < (costRank K D y : Int) := by rw [h1, h2]; omega
  exact_mod_cast this

/-! ## Facts about reachable costs -/

theorem mem_stateUniverse_key (g : Fst) (toks0 : TokMap) (it : StateId × Token)
    (h : it ∈ toks0) : it.1 ∈ stateUniverse g toks0 :=
  List.mem_append_left _ (List.mem_map.2 ⟨it, h, rfl⟩)

/-- With all arcs in range the key universe is closed under the arcs. -/
theorem stateUniverse_closed (g : Fst) (hR : ArcsInRange g) (toks0 : TokMap) :
    ∀ u ∈ stateUniverse g toks0, ∀ a ∈ g.arcs u, a._to ∈ stateUniverse g toks0 := by
  intro u _ a ha
  obtain ⟨h0, h1⟩ := hR u a ha
  apply List.mem_append_right
  exact List.mem_map.2 ⟨a._to.toNat,
    List.mem_range.2 ((Int.toNat_lt_toNat (lt_of_le_of_lt h0 h1)).2 h1),
    Int.toNat_of_nonneg h0⟩

theorem pathCost_onGrid (g : Fst) (V : List StateId) (D : Nat)
    (hV : ∀ u ∈ V, ∀ a ∈ g.arcs u, a._to ∈ V)
    (hW : ∀ u ∈ V, ∀ a ∈ g.arcs u, OnGrid D a._w) (s : StateId) (hs : s ∈ V)
    (p : List StdArc) (hp : IsEpsPath g s p) : OnGrid D (pathCost p) := by
  induction p generalizing s with
  | nil => exact ⟨0, by simp [pathCost]⟩
  | cons a p ih =>
    rw [pathCost_cons]
    exact onGrid_add _ _ _ (hW s hs a hp.1) (ih a._to (hV s hs a hp.1) hp.2.2)

/-- Absent negative eps cycles, and with all arcs in range, the costs reachable
from a frontier lie on a common grid, are bounded below, and sit at states of the
key universe. -/
theorem reach_facts (g : Fst) (hR : ArcsInRange g) (hN : NoNegEpsCycle g) (toks0 : TokMap) :
    ∃ K D : Nat, 0 < D ∧ ∀ v x, Reach g toks0 v x →
      v ∈ stateUniverse g toks0 ∧ OnGrid D x ∧ -(K : ℚ) ≤ x := by
  have hV := stateUniverse_closed g hR toks0
  obtain ⟨D, hD, hgrid⟩ := exists_common_grid
    (toks0.map (·.2._tot_cost) ++
      (stateUniverse g toks0).flatMap fun u => (g.arcs u).map (·._w))
  have hW : ∀ u ∈ stateUniverse g toks0, ∀ a ∈ g.arcs u, OnGrid D a._w := by
    intro u hu a ha
    apply hgrid
    apply List.mem_append_right
    exact List.mem_flatMap.2 ⟨u, hu, List.mem_map.2 ⟨a, ha, rfl⟩⟩
  refine ⟨⌈((stateUniverse g toks0).length : ℚ) * weightBound g (stateUniverse g toks0) +
      (toks0.map fun it => |it.2._tot_cost|).sum⌉₊, D, hD, ?_⟩
  rintro v x ⟨it, hit, p, hp, he, rfl⟩
  have hs := mem_stateUniverse_key g toks0 it hit
  refine ⟨?_, ?_, ?_⟩
  · rw [← he]
    exact pathEnd_mem g _ hV _ hs p hp
  · exact onGrid_add _ _ _
      (hgrid _ (List.mem_append_left _ (List.mem_map.2 ⟨it, hit, rfl⟩)))
      (pathCost_onGrid g _ D hV hW _ hs p hp)
  · have h1 := pathCost_lower_bound g hN _ hV _ hs p.length p rfl hp
    have h2 : |it.2._tot_cost| ≤ (toks0.map fun it => |it.2._tot_cost|).sum :=
      List.single_le_sum (fun y hy => by
        obtain ⟨b, -, rfl⟩ := List.mem_map.1 hy
        exact abs_nonneg _) _ (List.mem_map.2 ⟨it, hit, rfl⟩)
    have h3 := neg_abs_le it.2._tot_cost
    have h4 := Nat.le_ceil (((stateUniverse g toks0).length : ℚ) *
      weightBound g (stateUniverse g toks0) + (toks0.map fun it => |it.2._tot_cost|).sum)
    linarith

/-- Extending a reachable cost along one more eps arc. -/
theorem reach_step (g : Fst) (toks0 : TokMap) (s : StateId) (x : ℚ) (a : StdArc)
    (h : Reach g toks0 s x) (ha : a ∈ g.arcs s) (h0 : a._input = 0) :
    Reach g toks0 a._to (x + a._w) := by
  obtain ⟨it, hit, p, hp, he, rfl⟩ := h
  refine ⟨it, hit, p ++ [a], ?_, ?_, ?_⟩
  · rw [isEpsPath_append, he]
    exact ⟨hp, ha, h0, trivial⟩
  · rw [pathEnd_append]
    rfl
  · rw [pathCost_append, pathCost_cons]
    simp [pathCost]
    ring

theorem reach_self (g : Fst) (toks0 : TokMap) (it : StateId × Token) (h : it ∈ toks0) :
    Reach g toks0 it.1 it.2._tot_cost :=
  ⟨it, h, [], trivial, rfl, by simp [pathCost]⟩

/-! ## The frontier map -/

theorem findTok_mem (toks : TokMap) (s : StateId) (t : Token) (h : findTok toks s = some t) :
    (s, t) ∈ toks := by
  induction toks with
  | nil => simp [findTok] at h
  | cons hd tl ih =>
    obtain ⟨k, v⟩ := hd
    unfold findTok at h
    by_cases hk : k = s
    · rw [if_pos hk] at h
      cases h
      rw [hk]
      exact List.mem_cons_self _ _
    · rw [if_neg hk] at h
      exact List.mem_cons_of_mem _ (ih h)

theorem findTok_isSome_of_mem (toks : TokMap) (s : StateId) (t : Token) (h : (s, t) ∈ toks) :
    (findTok toks s).isSome = true := by
  induction toks with
  | nil => exact absurd h (List.not_mem_nil _)
  | cons hd tl ih =>
    obtain ⟨k, v⟩ := hd
    unfold findTok
    by_cases hk : k = s
    · rw [if_pos hk]; rfl
    · rw [if_neg hk]
      rcases List.mem_cons.1 h with h | h
      · cases h; exact absurd rfl hk
      · exact ih h

theorem findTok_append_single (toks : TokMap) (k v : StateId) (t : Token) :
    findTok (toks ++ [(k, t)]) v =
      match findTok toks v with
      | some x => some x
      | none => if k = v then some t else none := by
  induction toks with
  | nil => simp [findTok]
  | cons hd tl ih =>
    obtain ⟨k2, v2⟩ := hd
    rw [List.cons_append]
    unfold findTok
    by_cases hk : k2 = v
    · rw [if_pos hk, if_pos hk]
    · rw [if_neg hk, if_neg hk]
      exact ih

theorem findTok_assignTok_isSome (toks : TokMap) (s v : StateId) (t : Token) :
    (findTok (assignTok toks s t) v).isSome = (findTok toks v).isSome := by
  induction toks with
  | nil => rfl
  | cons hd tl ih =>
    obtain ⟨k2, v2⟩ := hd
    unfold assignTok
    by_cases hk : k2 = s
    · rw [if_pos hk]
      unfold findTok
      by_cases hv : k2 = v
      · rw [if_pos hv, if_pos hv]
        try rfl
      · rw [if_neg hv, if_neg hv]
    · rw [if_neg hk]
      unfold findTok
      by_cases hv : k2 = v
      · rw [if_pos hv, if_pos hv]
        try rfl
      · rw [if_neg hv, if_neg hv]
        exact ih

theorem mem_assignTok (toks : TokMap) (s : StateId) (t : Token) (it : StateId × Token)
    (h : it ∈ assignTok toks s t) : it ∈ toks ∨ it = (s, t) := by
  induction toks with
  | nil => exact absurd h (List.not_mem_nil _)
  | cons hd tl ih =>
    obtain ⟨k2, v2⟩ := hd
    unfold assignTok at h
    by_cases hk : k2 = s
    · rw [if_pos hk] at h
      rcases List.mem_cons.1 h with h | h
      · right; rw [h, hk]
      · left; exact List.mem_cons_of_mem _ h
    · rw [if_neg hk] at h
      rcases List.mem_cons.1 h with h | h
      · left; rw [h]; exact List.mem_cons_self _ _
      · rcases ih h with h | h
        · left; exact List.mem_cons_of_mem _ h
        · right; exact h

/-! ## The termination measure -/

theorem rankSum_assignTok_lt (K D : Nat) (toks : TokMap) (s : StateId) (old new : Token)
    (h : findTok toks s = some old)
    (hlt : costRank K D new._tot_cost < costRank K D old._tot_cost) :
    rankSum K D (assignTok toks s new) < rankSum K D toks := by
  induction toks with
  | nil => simp [findTok] at h
  | cons hd tl ih =>
    obtain ⟨k2, v2⟩ := hd
    unfold findTok at h
    unfold assignTok
    by_cases hk : k2 = s
    · rw [if_pos hk] at h ⊢
      cases h
      simp only [rankSum, List.map_cons, List.sum_cons]
      omega
    · rw [if_neg hk] at h ⊢
      have := ih h
      simp only [rankSum, List.map_cons, List.sum_cons] at this ⊢
      omega

theorem countP_lt_of_imp (V : List StateId) (p q : StateId → Bool)
    (hpq : ∀ v ∈ V, q v = true → p v = true) (s : StateId) (hs : s ∈ V) (hp : p s = true)
    (hq : q s = false) : V.countP q < V.countP p := by
  induction V with
  | nil => exact absurd hs (List.not_mem_nil _)
  | cons x xs ih =>
    have hmono : xs.countP q ≤ xs.countP p :=
      List.countP_mono_left fun v hv hqv => hpq v (List.mem_cons_of_mem _ hv) hqv
    rw [List.countP_cons, List.countP_cons]
    rcases List.mem_cons.1 hs with rfl | hs'
    · rw [hp, hq]
      simp only [if_true, Bool.false_eq_true, if_false]
      omega
    · have := ih (fun v hv => hpq v (List.mem_cons_of_mem _ hv)) hs'
      by_cases hqx : q x = true
      · rw [hqx, hpq x (List.mem_cons_self _ _) hqx]
        simp only [if_true]
        omega
      · have hqx' : q x = false := by simpa using hqx
        rw [hqx']
        simp only [Bool.false_eq_true, if_false]
        split <;> omega

theorem freeStates_eq_countP (V : List StateId) (toks : TokMap) :
    freeStates V toks = V.countP fun v => (findTok toks v).isNone := by
  unfold freeStates
  rw [List.countP_eq_length_filter]

theorem freeStates_append_lt (V : List StateId) (toks : TokMap) (s : StateId) (t : Token)
    (hs : s ∈ V) (h : findTok toks s = none) :
    freeStates V (toks ++ [(s, t)]) < freeStates V toks := by
  rw [freeStates_eq_countP, freeStates_eq_countP]
  apply countP_lt_of_imp V _ _ _ s hs
  · rw [h]; rfl
  · rw [findTok_append_single, h]
    simp
  · intro v _ hv
    rw [findTok_append_single] at hv
    cases hf : findTok toks v with
    | none => rfl
    | some x => rw [hf] at hv; simp at hv

theorem freeStates_assignTok (V : List StateId) (toks : TokMap) (s : StateId) (t : Token) :
    freeStates V (assignTok toks s t) = freeStates V toks := by
  rw [freeStates_eq_countP, freeStates_eq_countP]
  congr 1
  funext v
  have := findTok_assignTok_isSome toks s v t
  cases h1 : findTok (assignTok toks s t) v <;> cases h2 : findTok toks v <;>
    simp [h1, h2] at this ⊢

theorem progress_refl (V : List StateId) (K D : Nat) (st : TokMap × List StateId) :
    Progress V K D st st := Or.inr (Or.inr rfl)

theorem progress_trans (V : List StateId) (K D : Nat) (a b c : TokMap × List StateId)
    (h1 : Progress V K D a b) (h2 : Progress V K D b c) : Progress V K D a c := by
  unfold Progress at *
  rcases h1 with h1 | ⟨h1, h1'⟩ | h1
  · rcases h2 with h2 | ⟨h2, -⟩ | h2
    · left; omega
    · left; omega
    · left; rw [h2]; exact h1
  · rcases h2 with h2 | ⟨h2, h2'⟩ | h2
    · left; omega
    · right; left; exact ⟨by omega, by omega⟩
    · right; left; rw [h2]; exact ⟨h1, h1'⟩
  · rw [h1] at h2
    exact h2

/-! ## One relaxation of the worklist loop -/

theorem Token.ofArc_some (arc : StdArc) (tok : Token) :
    (Token.ofArc arc (some tok))._arc = arc ∧
    (Token.ofArc arc (some tok))._tot_cost = tok._tot_cost + arc._w := ⟨rfl, rfl⟩

/-- Relaxing one arc out of a popped state keeps the loop invariant and makes
progress in the sense of `Progress`. -/
theorem relaxArc_step (g : Fst) (toks0 : TokMap) (V : List StateId) (K D : Nat) (hD : 0 < D)
    (hF : ∀ v x, Reach g toks0 v x → v ∈ V ∧ OnGrid D x ∧ -(K : ℚ) ≤ x)
    (cutoff : WithTop ℚ) (s : StateId) (tok : Token) (hreach : Reach g toks0 s tok._tot_cost)
    (arc : StdArc) (harc : arc ∈ g.arcs s) (st : TokMap × List StateId)
    (hinv : ClosureInv g toks0 st) :
    ClosureInv g toks0 (relaxArc cutoff tok st arc) ∧
    Progress V K D st (relaxArc cutoff tok st arc) := by
  obtain ⟨hkey, hq, hr⟩ := hinv
  unfold relaxArc
  by_cases h0 : arc._input = 0
  · rw [if_pos h0]
    dsimp only
    by_cases hc : cutoff < ((Token.ofArc arc (some tok))._tot_cost : WithTop ℚ)
    · rw [if_pos hc]
      exact ⟨⟨hkey, hq, hr⟩, progress_refl _ _ _ _⟩
    · rw [if_neg hc]
      have hnew : Reach g toks0 arc._to (Token.ofArc arc (some tok))._tot_cost :=
        reach_step g toks0 s _ arc hreach harc h0
      unfold insertOrReplace
      cases hf : findTok st.1 arc._to with
      | none =>
        dsimp only
        rw [if_pos rfl]
        refine ⟨⟨?_, ?_, ?_⟩, Or.inl ?_⟩
        · intro it hit
          rcases List.mem_append.1 hit with h | h
          · exact hkey it h
          · rw [List.mem_singleton.1 h]; rfl
        · intro v hv
          rw [findTok_append_single]
          rcases List.mem_cons.1 hv with rfl | hv
          · rw [hf]; simp
          · have := hq v hv
            cases hfv : findTok st.1 v with
            | none => rw [hfv] at this; cases this
            | some x => rfl
        · intro it hit
          rcases List.mem_append.1 hit with h | h
          · exact hr it h
          · rw [List.mem_singleton.1 h]; exact hnew
        · exact freeStates_append_lt V st.1 arc._to _ (hF _ _ hnew).1 hf
      | some old =>
        dsimp only
        by_cases hgt : old.gt (Token.ofArc arc (some tok)) = true
        · rw [if_pos hgt]
          dsimp only
          rw [if_pos rfl]
          have hold : Reach g toks0 arc._to old._tot_cost := hr _ (findTok_mem _ _ _ hf)
          refine ⟨⟨?_, ?_, ?_⟩, Or.inr (Or.inl ⟨?_, ?_⟩)⟩
          · intro it hit
            rcases mem_assignTok _ _ _ _ hit with h | h
            · exact hkey it h
            · rw [h]; rfl
          · intro v hv
            rw [findTok_assignTok_isSome]
            rcases List.mem_cons.1 hv with rfl | hv
            · rw [hf]; rfl
            · exact hq v hv
          · intro it hit
            rcases mem_assignTok _ _ _ _ hit with h | h
            · exact hr it h
            · rw [h]; exact hnew
          · exact freeStates_assignTok V st.1 _ _
          · exact rankSum_assignTok_lt K D st.1 _ old _ hf
              (costRank_lt K D hD _ _ (hF _ _ hnew).2.1 (hF _ _ hold).2.1 (hF _ _ hnew).2.2
                ((Token.gt_iff _ _).1 hgt))
        · rw [if_neg hgt]
          dsimp only
          rw [if_neg (by simp)]
          exact ⟨⟨hkey, hq, hr⟩, progress_refl _ _ _ _⟩
  · rw [if_neg h0]
    exact ⟨⟨hkey, hq, hr⟩, progress_refl _ _ _ _⟩

/-- The arc loop over (part of) the arcs of the popped state. -/
theorem relaxArcs_fold (g : Fst) (toks0 : TokMap) (V : List StateId) (K D : Nat) (hD : 0 < D)
    (hF : ∀ v x, Reach g toks0 v x → v ∈ V ∧ OnGrid D x ∧ -(K : ℚ) ≤ x)
    (cutoff : WithTop ℚ) (s : StateId) (tok : Token) (hreach : Reach g toks0 s tok._tot_cost)
    (arcs : List StdArc) (harcs : ∀ a ∈ arcs, a ∈ g.arcs s) (st : TokMap × List StateId)
    (hinv : ClosureInv g toks0 st) :
    ClosureInv g toks0 (arcs.foldl (relaxArc cutoff tok) st) ∧
    Progress V K D st (arcs.foldl (relaxArc cutoff tok) st) := by
  induction arcs generalizing st with
  | nil => exact ⟨hinv, progress_refl _ _ _ _⟩
  | cons a l ih =>
    rw [List.foldl_cons]
    obtain ⟨h1, h2⟩ := relaxArc_step g toks0 V K D hD hF cutoff s tok hreach a
      (harcs a (List.mem_cons_self _ _)) st hinv
    obtain ⟨h3, h4⟩ := ih (fun b hb => harcs b (List.mem_cons_of_mem _ hb)) _ h1
    exact ⟨h3, progress_trans _ _ _ _ _ _ h2 h4⟩

/-! ## Termination of the worklist loop -/

theorem closureLoop_nil (g : Fst) (cutoff : WithTop ℚ) (fuel : Nat) (toks : TokMap) :
    closureLoop g cutoff fuel toks [] = .ok (toks, []) := by
  cases fuel <;> rfl

theorem closureLoop_succ (g : Fst) (cutoff : WithTop ℚ) (fuel : Nat) (toks : TokMap)
    (stateid : StateId) (queue : List StateId) :
    closureLoop g cutoff (fuel + 1) toks (stateid :: queue) =
      match findTok toks stateid with
      | none => .error .nullToken
      | some tok =>
        if cutoff < (tok._tot_cost : WithTop ℚ) then closureLoop g cutoff fuel toks queue
        else if stateid = tok._arc._to then
          closureLoop g cutoff fuel ((g.arcs stateid).foldl (relaxArc cutoff tok) (toks, queue)).1
            ((g.arcs stateid).foldl (relaxArc cutoff tok) (toks, queue)).2
        else .error .assertion := rfl

/-- Every state of the loop satisfying the invariant is left after finitely many
iterations; the proof is by induction on (free states, rank sum, worklist
length) in lexicographic order. -/
theorem closureLoop_terminates_aux (g : Fst) (toks0 : TokMap) (V : List StateId) (K D : Nat)
    (hD : 0 < D) (hF : ∀ v x, Reach g toks0 v x → v ∈ V ∧ OnGrid D x ∧ -(K : ℚ) ≤ x)
    (cutoff : WithTop ℚ) :
    ∀ (a b q : Nat) (toks : TokMap) (queue : List StateId),
      freeStates V toks = a → rankSum K D toks = b → queue.length = q →
      ClosureInv g toks0 (toks, queue) →
      ∃ fuel toks2, closureLoop g cutoff fuel toks queue = .ok (toks2, []) ∧
        ClosureInv g toks0 (toks2, []) := by
  intro a
  induction a using Nat.strong_induction_on with
  | _ a iha =>
    intro b
    induction b using Nat.strong_induction_on with
    | _ b ihb =>
      intro q
      induction q with
      | zero =>
        intro toks queue _ _ hq hinv
        have : queue = [] := List.length_eq_zero.1 hq
        subst this
        exact ⟨0, toks, closureLoop_nil g cutoff 0 toks, hinv⟩
      | succ q ihq =>
        intro toks queue ha hb hq hinv
        cases queue with
        | nil => simp at hq
        | cons s rest =>
          have hlen : rest.length = q := by simpa using hq
          obtain ⟨hkey, hqs, hr⟩ := hinv
          have hsome := hqs s (List.mem_cons_self _ _)
          cases hf : findTok toks s with
          | none => rw [hf] at hsome; cases hsome
          | some tok =>
            have hmem := findTok_mem toks s tok hf
            have hinvRest : ClosureInv g toks0 (toks, rest) :=
              ⟨hkey, fun v hv => hqs v (List.mem_cons_of_mem _ hv), hr⟩
            by_cases hc : cutoff < (tok._tot_cost : WithTop ℚ)
            · obtain ⟨fuel, toks2, h1, h2⟩ := ihq toks rest ha hb hlen hinvRest
              refine ⟨fuel + 1, toks2, ?_, h2⟩
              rw [closureLoop_succ, hf]
              dsimp only
              rw [if_pos hc, h1]
            · have hk : s = tok._arc._to := (hkey _ hmem).symm
              obtain ⟨hinv2, hprog⟩ := relaxArcs_fold g toks0 V K D hD hF cutoff s tok
                (hr _ hmem) (g.arcs s) (fun _ h => h) (toks, rest) hinvRest
              have hgoal : ∃ fuel toks2,
                  closureLoop g cutoff fuel
                    ((g.arcs s).foldl (relaxArc cutoff tok) (toks, rest)).1
                    ((g.arcs s).foldl (relaxArc cutoff tok) (toks, rest)).2 = .ok (toks2, []) ∧
                  ClosureInv g toks0 (toks2, []) := by
                rcases hprog with h | ⟨h1, h2⟩ | h
                · exact iha _ (by rw [← ha]; exact h) _ _ _ _ rfl rfl rfl hinv2
                · exact ihb _ (by rw [← hb]; exact h2) _ _ _ (by rw [h1]; exact ha) rfl rfl hinv2
                · rw [h]
                  exact ihq toks rest ha hb hlen hinvRest
              obtain ⟨fuel, toks2, h1, h2⟩ := hgoal
              refine ⟨fuel + 1, toks2, ?_, h2⟩
              rw [closureLoop_succ, hf]
              dsimp only
              rw [if_neg hc, if_pos hk, h1]

/-- More fuel does not change a result already obtained. -/
theorem closureLoop_mono (g : Fst) (cutoff : WithTop ℚ) (fuel : Nat) :
    ∀ (toks : TokMap) (queue : List StateId) (r : TokMap × List StateId) (k : Nat),
      closureLoop g cutoff fuel toks queue = .ok r →
      closureLoop g cutoff (fuel + k) toks queue = .ok r := by
  induction fuel with
  | zero =>
    intro toks queue r k h
    cases queue with
    | nil => rw [closureLoop_nil] at h ⊢; exact h
    | cons s rest => simp [closureLoop] at h
  | succ fuel ih =>
    intro toks queue r k h
    cases queue with
    | nil => rw [closureLoop_nil] at h ⊢; exact h
    | cons s rest =>
      rw [show fuel + 1 + k = (fuel + k) + 1 by omega, closureLoop_succ]
      rw [closureLoop_succ] at h
      cases hf : findTok toks s with
      | none => rw [hf] at h; cases h
      | some tok =>
        rw [hf] at h
        dsimp only at h ⊢
        by_cases hc : cutoff < (tok._tot_cost : WithTop ℚ)
        · rw [if_pos hc] at h ⊢
          exact ih _ _ _ _ h
        · rw [if_neg hc] at h ⊢
          by_cases hk : s = tok._arc._to
          · rw [if_pos hk] at h ⊢
            exact ih _ _ _ _ h
          · rw [if_neg hk] at h
            cases h

/-- The worklist loop of `ProcessNonemitting` terminates: on a graph whose arcs
stay in range and whose eps arcs admit no negative cycle, started from any
frontier stored under the destinations of its arcs and any worklist of keys, it
returns with an empty worklist for every large enough fuel. -/
theorem closureLoop_terminates (g : Fst) (hR : ArcsInRange g) (hN : NoNegEpsCycle g)
    (cutoff : WithTop ℚ) (toks : TokMap) (queue : List StateId) (hkey : KeyOK toks)
    (hq : ∀ s ∈ queue, (findTok toks s).isSome = true) :
    ∃ (F : Nat) (toks2 : TokMap), KeyOK toks2 ∧
      (∀ it ∈ toks2, Reach g toks it.1 it.2._tot_cost) ∧
      ∀ fuel, F ≤ fuel → closureLoop g cutoff fuel toks queue = .ok (toks2, []) := by
  obtain ⟨K, D, hD, hF⟩ := reach_facts g hR hN toks
  obtain ⟨F, toks2, h1, h2⟩ := closureLoop_terminates_aux g toks (stateUniverse g toks) K D hD hF
    cutoff _ _ _ toks queue rfl rfl rfl ⟨hkey, hq, fun it hit => reach_self g toks it hit⟩
  refine ⟨F, toks2, h2.1, h2.2.2, ?_⟩
  intro fuel hfuel
  obtain ⟨k, rfl⟩ := Nat.exists_eq_add_of_le hfuel
  exact closureLoop_mono g cutoff F _ _ _ k h1

/-! ## ProcessNonemitting and ProcessEmitting on a decoder between two calls -/

theorem seedQueue_mem (toks : TokMap) (queue : List StateId) (s : StateId)
    (h : s ∈ seedQueue toks queue) : s ∈ queue ∨ ∃ it ∈ toks, it.1 = s := by
  unfold seedQueue at h
  induction toks generalizing queue with
  | nil => exact Or.inl h
  | cons hd tl ih =>
    rw [List.foldl_cons] at h
    rcases ih _ h with h | ⟨it, hit, he⟩
    · rcases List.mem_cons.1 h with h | h
      · exact Or.inr ⟨hd, List.mem_cons_self _ _, h.symm⟩
      · exact Or.inl h
    · exact Or.inr ⟨it, List.mem_cons_of_mem _ hit, he⟩

/-- `ProcessNonemitting` returns: on a graph whose arcs stay in range and whose
eps arcs admit no negative cycle it terminates, for every cutoff, on every
decoder whose worklist is empty and whose tokens are stored under the
destinations of their arcs; only `_cur_toks` changes and the worklist is empty
again on exit. -/
theorem ProcessNonemitting_terminates (g : Fst) (hR : ArcsInRange g) (hN : NoNegEpsCycle g)
    (cutoff : WithTop ℚ) (d : Decoder) (hq : d._queue = []) (hkey : KeyOK d._cur_toks) :
    ∃ (F : Nat) (toks2 : TokMap), KeyOK toks2 ∧
      (∀ it ∈ toks2, Reach g d._cur_toks it.1 it.2._tot_cost) ∧
      ∀ fuel, F ≤ fuel →
        ProcessNonemitting g cutoff fuel d = .ok { d with _cur_toks := toks2, _queue := [] } := by
  obtain ⟨F, toks2, hk2, hreach, h⟩ := closureLoop_terminates g hR hN cutoff d._cur_toks
    (seedQueue d._cur_toks d._queue) hkey (by
      intro s hs
      rcases seedQueue_mem _ _ _ hs with h | ⟨it, hit, he⟩
      · rw [hq] at h; exact absurd h (List.not_mem_nil _)
      · rw [← he]; exact findTok_isSome_of_mem _ _ it.2 hit)
  refine ⟨F, toks2, hk2, hreach, ?_⟩
  intro fuel hfuel
  unfold ProcessNonemitting
  rw [if_neg (by simp [hq]), h fuel hfuel]

theorem Token.new_arc (arc : StdArc) (ac_cost : ℚ) (prev : Option Token) :
    (Token.new arc ac_cost prev)._arc = arc := by
  cases prev <;> rfl

theorem insertOrReplace_keyOK (toks : TokMap) (s : StateId) (t : Token) (hk : KeyOK toks)
    (ht : t._arc._to = s) : KeyOK (insertOrReplace toks s t).1 := by
  unfold insertOrReplace
  cases findTok toks s with
  | none =>
    intro it hit
    rcases List.mem_append.1 hit with h | h
    · exact hk it h
    · rw [List.mem_singleton.1 h]; exact ht
  | some old =>
    dsimp only
    split
    · intro it hit
      rcases mem_assignTok _ _ _ _ hit with h | h
      · exact hk it h
      · rw [h]; exact ht
    · exact hk

theorem propagate_keyOK (adaptive_beam : WithTop ℚ) (tok : Token) (arc : StdArc)
    (ac_cost new_weight : ℚ) (st : TokMap × WithTop ℚ) (hk : KeyOK st.1) :
    KeyOK (propagate adaptive_beam tok arc ac_cost new_weight st).1 := by
  unfold propagate
  split
  · exact insertOrReplace_keyOK _ _ _ hk (by rw [Token.new_arc])
  · exact hk

theorem expandTok_keyOK (g : Fst) (o : AmInterface) (frame : Int) (adaptive_beam : WithTop ℚ)
    (stateid : StateId) (tok : Token) (st : TokMap × WithTop ℚ) (hk : KeyOK st.1) :
    KeyOK (expandTok g o frame adaptive_beam stateid tok st).1 := by
  unfold expandTok
  apply propagate_keyOK
  generalize g.arcs stateid = arcs
  induction arcs generalizing st with
  | nil => exact hk
  | cons a l ih =>
    rw [List.foldl_cons]
    apply ih
    split
    · exact propagate_keyOK _ _ _ _ _ _ hk
    · exact hk

/-- The main loop of `ProcessEmitting` never trips its assertion on a frontier
stored under the destinations of its arcs. -/
theorem emitLoop_ok (g : Fst) (o : AmInterface) (frame : Int)
    (cur_cutoff adaptive_beam : WithTop ℚ) (prev : TokMap) (hprev : KeyOK prev)
    (st : TokMap × WithTop ℚ) (hk : KeyOK st.1) :
    ∃ st2, emitLoop g o frame cur_cutoff adaptive_beam prev st = .ok st2 ∧ KeyOK st2.1 := by
  induction prev generalizing st with
  | nil => exact ⟨st, rfl, hk⟩
  | cons hd tl ih =>
    obtain ⟨stateid, tok⟩ := hd
    have htl : KeyOK tl := fun it hit => hprev it (List.mem_cons_of_mem _ hit)
    have hhd : stateid = tok._arc._to := (hprev _ (List.mem_cons_self _ _)).symm
    unfold emitLoop
    by_cases hc : (tok._tot_cost : WithTop ℚ) < cur_cutoff
    · rw [if_pos hc, if_pos hhd]
      exact ih htl _ (expandTok_keyOK g o frame adaptive_beam stateid tok st hk)
    · rw [if_neg hc]
      exact ih htl st hk

/-- `ProcessEmitting` returns on every decoder whose tokens are stored under the
destinations of their arcs; it adds one to `num_frames_decoded`, moves the old
frontier to `_prev_toks` and leaves the worklist alone. -/
theorem ProcessEmitting_ok (g : Fst) (cfg : CtcFasterDecoderOptions) (o : AmInterface)
    (d : Decoder) (hkey : KeyOK d._cur_toks) :
    ∃ (c : WithTop ℚ) (d1 : Decoder), ProcessEmitting g cfg o d = .ok (c, d1) ∧
      d1._num_frames_decoded = d._num_frames_decoded + 1 ∧ d1._queue = d._queue ∧
      d1._prev_toks = d._cur_toks ∧ KeyOK d1._cur_toks := by
  unfold ProcessEmitting
  dsimp only
  obtain ⟨st2, h1, h2⟩ := emitLoop_ok g o d._num_frames_decoded
    (GetCutoff cfg d._cur_toks none 0 d._tmp_array).cutoff
    (GetCutoff cfg d._cur_toks none 0 d._tmp_array).adaptive_beam d._cur_toks hkey
    ([], bestTokBound g o d._num_frames_decoded
      (GetCutoff cfg d._cur_toks none 0 d._tmp_array).adaptive_beam
      (GetCutoff cfg d._cur_toks none 0 d._tmp_array).best_tok
      (GetCutoff cfg d._cur_toks none 0 d._tmp_array).best_stateid ⊤)
    (fun it hit => absurd hit (List.not_mem_nil _))
  rw [h1]
  exact ⟨_, _, rfl, rfl, rfl, rfl, h2⟩

/-- Whenever `ProcessEmitting` returns it has added exactly one to
`num_frames_decoded`. -/
theorem ProcessEmitting_num (g : Fst) (cfg : CtcFasterDecoderOptions) (o : AmInterface)
    (d d1 : Decoder) (c : WithTop ℚ) (h : ProcessEmitting g cfg o d = .ok (c, d1)) :
    d1._num_frames_decoded = d._num_frames_decoded + 1 := by
  unfold ProcessEmitting at h
  dsimp only at h
  split at h
  · cases h
  · cases h
    rfl

/-- Whenever `ProcessNonemitting` returns it has left `num_frames_decoded` and
`_prev_toks` alone. -/
theorem ProcessNonemitting_num (g : Fst) (cutoff : WithTop ℚ) (fuel : Nat) (d d1 : Decoder)
    (h : ProcessNonemitting g cutoff fuel d = .ok d1) :
    d1._num_frames_decoded = d._num_frames_decoded ∧ d1._prev_toks = d._prev_toks := by
  unfold ProcessNonemitting at h
  split at h
  · cases h
  · split at h
    · cases h
    · cases h
      exact ⟨rfl, rfl⟩

/-! ## AdvanceDecoding -/

/-- Whenever one iteration of the loop of `AdvanceDecoding` returns, skipped
frame or decoded frame, it has added exactly one to `num_frames_decoded`. -/
theorem advanceFrame_num (g : Fst) (cfg : CtcFasterDecoderOptions) (o : AmInterface)
    (fuel : Nat) (d d1 : Decoder) (h : advanceFrame g cfg o fuel d = .ok d1) :
    d1._num_frames_decoded = d._num_frames_decoded + 1 := by
  unfold advanceFrame at h
  split at h
  · cases h
    rfl
  · split at h
    · cases h
    · rename_i c d2 hpe
      rw [(ProcessNonemitting_num g c fuel d2 d1 h).1, ProcessEmitting_num g cfg o d d2 c hpe]

/-- One iteration of the loop of `AdvanceDecoding` returns on a ready decoder, and
leaves it ready. -/
theorem advanceFrame_ok (g : Fst) (hR : ArcsInRange g) (hN : NoNegEpsCycle g)
    (cfg : CtcFasterDecoderOptions) (o : AmInterface) (d : Decoder) (hd : Ready d) :
    ∃ (F : Nat) (d1 : Decoder), Ready d1 ∧
      d1._num_frames_decoded = d._num_frames_decoded + 1 ∧
      ∀ fuel, F ≤ fuel → advanceFrame g cfg o fuel d = .ok d1 := by
  obtain ⟨hnum, hq, hkey⟩ := hd
  by_cases hskip : o.SkipBlockFrame d._num_frames_decoded = true
  · refine ⟨0, { d with _num_frames_decoded := d._num_frames_decoded + 1 },
      ⟨by show (0 : Int) ≤ d._num_frames_decoded + 1; omega, hq, hkey⟩, rfl, ?_⟩
    intro fuel _
    unfold advanceFrame
    rw [if_pos hskip]
  · obtain ⟨c, d1, hpe, h1, h2, -, h4⟩ := ProcessEmitting_ok g cfg o d hkey
    obtain ⟨F, toks2, hk2, -, hpn⟩ :=
      ProcessNonemitting_terminates g hR hN c d1 (by rw [h2, hq]) h4
    refine ⟨F, { d1 with _cur_toks := toks2, _queue := [] },
      ⟨by show (0 : Int) ≤ d1._num_frames_decoded; omega, rfl, hk2⟩, h1, ?_⟩
    intro fuel hfuel
    unfold advanceFrame
    rw [if_neg hskip, hpe]
    exact hpn fuel hfuel

theorem advanceLoop_done (g : Fst) (cfg : CtcFasterDecoderOptions) (o : AmInterface)
    (fuel : Nat) (target : Int) (n : Nat) (d : Decoder)
    (h : ¬ d._num_frames_decoded < target) : advanceLoop g cfg o fuel target n d = .ok d := by
  unfold advanceLoop
  rw [if_neg h]

theorem advanceLoop_step (g : Fst) (cfg : CtcFasterDecoderOptions) (o : AmInterface)
    (fuel : Nat) (target : Int) (n : Nat) (d d1 : Decoder)
    (h : d._num_frames_decoded < target) (hf : advanceFrame g cfg o fuel d = .ok d1) :
    advanceLoop g cfg o fuel target (n + 1) d = advanceLoop g cfg o fuel target n d1 := by
  conv_lhs => unfold advanceLoop
  rw [if_pos h]
  dsimp only
  rw [hf]

/-- The loop of `AdvanceDecoding` runs until the target is reached. -/
theorem advanceLoop_ok (g : Fst) (hR : ArcsInRange g) (hN : NoNegEpsCycle g)
    (cfg : CtcFasterDecoderOptions) (o : AmInterface) (target : Int) :
    ∀ (n : Nat) (d : Decoder), Ready d → d._num_frames_decoded ≤ target →
      (target - d._num_frames_decoded).toNat = n →
      ∃ (F : Nat) (d2 : Decoder), Ready d2 ∧ d2._num_frames_decoded = target ∧
        ∀ fuel m, F ≤ fuel → n ≤ m → advanceLoop g cfg o fuel target m d = .ok d2 := by
  intro n
  induction n with
  | zero =>
    intro d hd hle hn
    refine ⟨0, d, hd, by omega, ?_⟩
    intro fuel m _ _
    exact advanceLoop_done g cfg o fuel target m d (by omega)
  | succ n ih =>
    intro d hd hle hn
    have hlt : d._num_frames_decoded < target := by omega
    obtain ⟨F1, d1, hd1, hnum1, hf1⟩ := advanceFrame_ok g hR hN cfg o d hd
    obtain ⟨F2, d2, hd2, hnum2, hf2⟩ := ih d1 hd1 (by omega) (by omega)
    refine ⟨max F1 F2, d2, hd2, hnum2, ?_⟩
    intro fuel m hfuel hm
    obtain ⟨m2, rfl⟩ : ∃ m2, m = m2 + 1 := ⟨m - 1, by omega⟩
    rw [advanceLoop_step g cfg o fuel target m2 d d1 hlt
      (hf1 fuel (le_trans (le_max_left _ _) hfuel))]
    exact hf2 fuel m2 (le_trans (le_max_right _ _) hfuel) (by omega)

/-- Claim C6 as amended: on a graph whose arcs stay in range and whose eps arcs
admit no negative cycle, for a ready (initialised) decoder and an oracle with
`NumFramesReady >= num_frames_decoded`, and for a frame limit whose sum with the
counter does not exceed `INT_MAX`, `AdvanceDecoding` returns for every large
enough fuel and leaves `num_frames_decoded` equal to
`min(NumFramesReady, old + max_frames)` when `max_frames >= 0` and to
`NumFramesReady` when `max_frames < 0`; the counter does not decrease, and every
iteration of the loop, skipped or decoded, adds exactly one to it. -/
theorem AdvanceDecoding_num_frames_decoded_in_range (g : Fst) (cfg : CtcFasterDecoderOptions)
    (o : AmInterface) (max_num_frames : Int) (d : Decoder)
    (hR : ArcsInRange g) (hN : NoNegEpsCycle g) (hd : Ready d)
    (hready : d._num_frames_decoded ≤ o.NumFramesReady)
    (hrange : 0 ≤ max_num_frames → d._num_frames_decoded + max_num_frames ≤ INT_MAX) :
    ∃ (F : Nat) (d2 : Decoder),
      (∀ fuel, F ≤ fuel → AdvanceDecoding g cfg o max_num_frames fuel d = .ok d2) ∧
      d2._num_frames_decoded =
        (if 0 ≤ max_num_frames then
          min o.NumFramesReady (d._num_frames_decoded + max_num_frames)
         else o.NumFramesReady) ∧
      d._num_frames_decoded ≤ d2._num_frames_decoded ∧ Ready d2 ∧
      (∀ fuel d3 d4, advanceFrame g cfg o fuel d3 = .ok d4 →
        d4._num_frames_decoded = d3._num_frames_decoded + 1) := by
  have hnum0 : 0 ≤ d._num_frames_decoded := hd.1
  have hT : targetFrames o max_num_frames d =
      (if 0 ≤ max_num_frames then
          min o.NumFramesReady (d._num_frames_decoded + max_num_frames)
         else o.NumFramesReady) := by
    unfold targetFrames
    dsimp only
    by_cases hm : 0 ≤ max_num_frames
    · have h1 := hrange hm
      unfold INT_MAX at h1
      rw [if_pos hm, if_pos hm, wrapInt_of_range _ (by omega) h1]
    · rw [if_neg hm, if_neg hm]
  have htarget : d._num_frames_decoded ≤
      (if 0 ≤ max_num_frames then
          min o.NumFramesReady (d._num_frames_decoded + max_num_frames)
         else o.NumFramesReady) := by
    split
    · exact le_min hready (by omega)
    · exact hready
  obtain ⟨F, d2, hd2, hnum2, hloop⟩ := advanceLoop_ok g hR hN cfg o _ _ d hd htarget rfl
  refine ⟨max F ((if 0 ≤ max_num_frames then
          min o.NumFramesReady (d._num_frames_decoded + max_num_frames)
         else o.NumFramesReady) - d._num_frames_decoded).toNat, d2, ?_, hnum2,
    by rw [hnum2]; exact htarget, hd2, fun fuel d3 d4 h => advanceFrame_num g cfg o fuel d3 d4 h⟩
  intro fuel hfuel
  unfold AdvanceDecoding
  rw [if_neg (by simpa using hd.1), if_neg (by simpa using hready)]
  dsimp only
  rw [hT]
  exact hloop fuel fuel (le_trans (le_max_left _ _) hfuel) (le_trans (le_max_right _ _) hfuel)

/-! ## Concrete graphs meet the preconditions -/

/-- A graph whose eps arcs all have non-negative weight has no negative eps
cycle. -/
theorem noNegEpsCycle_of_nonneg (g : Fst)
    (h : ∀ s a, a ∈ g.arcs s → a._input = 0 → 0 ≤ a._w) : NoNegEpsCycle g := by
  have key : ∀ (p : List StdArc) (s : StateId), IsEpsPath g s p → 0 ≤ pathCost p := by
    intro p
    induction p with
    | nil => intro _ _; simp [pathCost]
    | cons a p ih =>
      intro s hp
      rw [pathCost_cons]
      have h1 := ih a._to hp.2.2
      have h2 := h s a hp.1 hp.2.1
      linarith
  intro s p hp _
  exact key p s hp

theorem exLoopGraph_arcs (s : StateId) (a : StdArc) (h : a ∈ exLoopGraph.arcs s) :
    a = ⟨0, 0, 0, 1 / 100⟩ ∨ a = ⟨5, 7, 1, 1⟩ := by
  unfold Fst.arcs exLoopGraph at h
  dsimp only at h
  split at h
  · simpa using h
  · exact absurd h (List.not_mem_nil _)

theorem exLoopGraph_arcsInRange : ArcsInRange exLoopGraph := by
  intro s a ha
  rcases exLoopGraph_arcs s a ha with rfl | rfl <;> simp [exLoopGraph]

theorem exLoopGraph_noNegEpsCycle : NoNegEpsCycle exLoopGraph := by
  apply noNegEpsCycle_of_nonneg
  intro s a ha _
  rcases exLoopGraph_arcs s a ha with rfl | rfl <;> norm_num

theorem exDecoder_ready : Ready exDecoder := by
  refine ⟨by simp [exDecoder], rfl, ?_⟩
  intro it hit
  simp only [exDecoder, List.mem_cons, List.mem_singleton, List.not_mem_nil, or_false] at hit
  rcases hit with rfl | rfl <;> rfl

/-- Claim C6 as stated fails: `_num_frames_decoded + max_num_frames` is a sum of
two `int`s.  With the counter at 1, three frames ready and
`max_frames = INT_MAX` the sum wraps to `INT_MIN`, the loop is not entered and
the counter stays at 1, while `min(NumFramesReady, old + max_frames)` is 3. -/
theorem AdvanceDecoding_frame_limit_wraps :
    ArcsInRange exLoopGraph ∧ NoNegEpsCycle exLoopGraph ∧ Ready exDecoder ∧
    exDecoder._num_frames_decoded ≤ exOracle.NumFramesReady ∧ (0 : Int) ≤ INT_MAX ∧
    (∀ fuel, AdvanceDecoding exLoopGraph exOpts exOracle INT_MAX fuel exDecoder =
      .ok exDecoder) ∧
    exDecoder._num_frames_decoded = 1 ∧
    min exOracle.NumFramesReady (exDecoder._num_frames_decoded + INT_MAX) = 3 := by
  have hT : targetFrames exOracle INT_MAX exDecoder = -2147483648 := by
    norm_num [targetFrames, wrapInt, INT_MAX, exOracle, exDecoder]
  refine ⟨exLoopGraph_arcsInRange, exLoopGraph_noNegEpsCycle, exDecoder_ready,
    by simp [exDecoder, exOracle], by norm_num [INT_MAX], ?_, rfl,
    by norm_num [INT_MAX, exOracle, exDecoder]⟩
  intro fuel
  unfold AdvanceDecoding
  rw [if_neg (by simp [exDecoder]), if_neg (by simp [exDecoder, exOracle])]
  dsimp only
  rw [hT]
  exact advanceLoop_done _ _ _ _ _ _ _ (by simp [exDecoder])

/-- Witness for the amended claim C6: the graph with an eps self-loop, decoding
from the two-token frontier `exDecoder` with three frames ready and no frame
limit. -/
theorem AdvanceDecoding_num_frames_decoded_in_range_witness :
    ArcsInRange exLoopGraph ∧ NoNegEpsCycle exLoopGraph ∧ Ready exDecoder ∧
    exDecoder._num_frames_decoded ≤ exOracle.NumFramesReady ∧
    ((0 : Int) ≤ -1 → exDecoder._num_frames_decoded + -1 ≤ INT_MAX) ∧
    ∃ (F : Nat) (d2 : Decoder),
      (∀ fuel, F ≤ fuel → AdvanceDecoding exLoopGraph exOpts exOracle (-1) fuel exDecoder = .ok d2) ∧
      d2._num_frames_decoded =
        (if (0 : Int) ≤ -1 then
          min exOracle.NumFramesReady (exDecoder._num_frames_decoded + -1)
         else exOracle.NumFramesReady) ∧
      exDecoder._num_frames_decoded ≤ d2._num_frames_decoded ∧ Ready d2 ∧
      (∀ fuel d3 d4, advanceFrame exLoopGraph exOpts exOracle fuel d3 = .ok d4 →
        d4._num_frames_decoded = d3._num_frames_decoded + 1) :=
  ⟨exLoopGraph_arcsInRange, exLoopGraph_noNegEpsCycle, exDecoder_ready,
   by simp [exDecoder, exOracle], fun h => absurd h (by decide),
   AdvanceDecoding_num_frames_decoded_in_range exLoopGraph exOpts exOracle (-1) exDecoder
     exLoopGraph_arcsInRange exLoopGraph_noNegEpsCycle exDecoder_ready
     (by simp [exDecoder, exOracle]) (fun h => absurd h (by decide))⟩

/-! ## Skipped frames -/

theorem decoder_with_num_self (d : Decoder) :
    { d with _num_frames_decoded := d._num_frames_decoded } = d := rfl

/-- The loop of `AdvanceDecoding` over frames that are all skipped only moves the
frame counter. -/
theorem advanceLoop_all_skipped (g : Fst) (cfg : CtcFasterDecoderOptions) (o : AmInterface)
    (target : Int) :
    ∀ (n : Nat) (d : Decoder), d._num_frames_decoded ≤ target →
      (target - d._num_frames_decoded).toNat = n →
      (∀ f, d._num_frames_decoded ≤ f → f < target → o.SkipBlockFrame f = true) →
      ∀ fuel m, n ≤ m →
        advanceLoop g cfg o fuel target m d = .ok { d with _num_frames_decoded := target } := by
  intro n
  induction n with
  | zero =>
    intro d hle hn _ fuel m _
    have : d._num_frames_decoded = target := by omega
    rw [advanceLoop_done g cfg o fuel target m d (by omega), ← this]
  | succ n ih =>
    intro d hle hn hskip fuel m hm
    have hlt : d._num_frames_decoded < target := by omega
    obtain ⟨m2, rfl⟩ : ∃ m2, m = m2 + 1 := ⟨m - 1, by omega⟩
    have hf : advanceFrame g cfg o fuel d =
        .ok { d with _num_frames_decoded := d._num_frames_decoded + 1 } := by
      unfold advanceFrame
      rw [if_pos (hskip _ (le_refl _) hlt)]
    rw [advanceLoop_step g cfg o fuel target m2 d _ hlt hf]
    have := ih { d with _num_frames_decoded := d._num_frames_decoded + 1 }
      (by show d._num_frames_decoded + 1 ≤ target; omega)
      (by show (target - (d._num_frames_decoded + 1)).toNat = n; omega)
      (fun f h1 h2 => hskip f (by
        have : d._num_frames_decoded + 1 ≤ f := h1
        omega) h2) fuel m2 (by omega)
    rw [this]

/-- Claim C7: if the oracle marks every frame consumed by a call of
`AdvanceDecoding` as a skip-block frame, the call returns (whenever the fuel
covers the number of frames) the decoder it was given with only
`num_frames_decoded` changed, to the target (and left as it is when the target
lies below it); `_cur_toks` and `_prev_toks` are exactly as before. -/
theorem AdvanceDecoding_all_skipped (g : Fst) (cfg : CtcFasterDecoderOptions)
    (o : AmInterface) (max_num_frames : Int) (d : Decoder)
    (h0 : 0 ≤ d._num_frames_decoded) (hready : d._num_frames_decoded ≤ o.NumFramesReady)
    (hskip : ∀ f, d._num_frames_decoded ≤ f → f < targetFrames o max_num_frames d →
      o.SkipBlockFrame f = true)
    (fuel : Nat)
    (hfuel : (targetFrames o max_num_frames d - d._num_frames_decoded).toNat ≤ fuel) :
    AdvanceDecoding g cfg o max_num_frames fuel d =
      .ok { d with
        _num_frames_decoded := (max d._num_frames_decoded (targetFrames o max_num_frames d)) } := by
  unfold AdvanceDecoding
  rw [if_neg (by simpa using h0), if_neg (by simpa using hready)]
  dsimp only
  by_cases htarget : d._num_frames_decoded ≤ targetFrames o max_num_frames d
  · rw [max_eq_right htarget]
    exact advanceLoop_all_skipped g cfg o _ _ d htarget rfl hskip fuel fuel hfuel
  · rw [max_eq_left (le_of_not_le htarget), decoder_with_num_self]
    exact advanceLoop_done g cfg o fuel _ fuel d (by omega)

/-- Witness for claim C7, the second seed scenario: after `InitDecoding` on the
two-state graph and one skipped frame, `num_frames_decoded = 1` and the
frontier is the one `InitDecoding` left. -/
theorem AdvanceDecoding_all_skipped_witness :
    InitDecoding exGraph 1 exEmptyDecoder = .ok exInitDecoder ∧
    (0 : Int) ≤ exInitDecoder._num_frames_decoded ∧
    exInitDecoder._num_frames_decoded ≤ exSkipOracle.NumFramesReady ∧
    (∀ f, exInitDecoder._num_frames_decoded ≤ f → f < targetFrames exSkipOracle (-1) exInitDecoder →
      exSkipOracle.SkipBlockFrame f = true) ∧
    AdvanceDecoding exGraph exOpts exSkipOracle (-1) 1 exInitDecoder =
      .ok { exInitDecoder with _num_frames_decoded := 1 } :=
  ⟨by
    norm_num [InitDecoding, ProcessNonemitting, exEmptyDecoder, exInitDecoder, seedQueue,
      closureLoop, findTok, exGraph, Token.ofArc, Token._tot_cost, Token._arc, FLT_MAX,
      Fst.arcs, toUnsigned, relaxArc, exRoot],
   by simp [exInitDecoder], by simp [exInitDecoder, exSkipOracle],
   fun _ _ _ => rfl,
   AdvanceDecoding_all_skipped exGraph exOpts exSkipOracle (-1) exInitDecoder
     (by simp [exInitDecoder]) (by simp [exInitDecoder, exSkipOracle]) (fun _ _ _ => rfl) 1
     (by simp [targetFrames, exInitDecoder, exSkipOracle])⟩

/-! ## The worklist loop leaves a frontier closed under eps arcs -/

theorem findTok_assignTok (toks : TokMap) (s v : StateId) (t : Token) :
    findTok (assignTok toks s t) v =
      if v = s then (findTok toks s).map (fun _ => t) else findTok toks v := by
  induction toks with
  | nil => simp [assignTok, findTok]
  | cons hd tl ih =>
    obtain ⟨k2, v2⟩ := hd
    unfold assignTok
    by_cases hk : k2 = s
    · rw [if_pos hk]
      unfold findTok
      by_cases hv : v = s
      · rw [if_pos hv, if_pos (by rw [hk, hv]), if_pos hk]
        rfl
      · rw [if_neg hv]
        by_cases hkv : k2 = v
        · exact absurd (hkv.symm.trans hk) hv
        · rw [if_neg hkv, if_neg hkv]
    · rw [if_neg hk]
      unfold findTok
      by_cases hkv : k2 = v
      · rw [if_pos hkv, if_pos hkv]
        have : ¬ v = s := fun h => hk (hkv.trans h)
        rw [if_neg this]
      · rw [if_neg hkv, if_neg hkv, if_neg hk]
        exact ih

theorem noWorse_refl (toks : TokMap) : NoWorse toks toks :=
  fun _ t h => ⟨t, h, le_refl _⟩

theorem noWorse_trans (a b c : TokMap) (h1 : NoWorse a b) (h2 : NoWorse b c) : NoWorse a c := by
  intro v t h
  obtain ⟨t2, h3, h4⟩ := h1 v t h
  obtain ⟨t3, h5, h6⟩ := h2 v t2 h3
  exact ⟨t3, h5, le_trans h6 h4⟩

/-- What `insertOrReplace` does to the lookups: only the key `s` can change, and
there the new token is found exactly when the flag is set. -/
theorem findTok_insertOrReplace (toks : TokMap) (s : StateId) (new_tok : Token) (v : StateId) :
    findTok (insertOrReplace toks s new_tok).1 v =
      if v = s ∧ (insertOrReplace toks s new_tok).2 = true then some new_tok
      else findTok toks v := by
  unfold insertOrReplace
  cases hf : findTok toks s with
  | none =>
    dsimp only
    rw [findTok_append_single]
    by_cases hv : v = s
    · subst hv
      rw [hf]
      simp
    · have : ¬ s = v := fun h => hv h.symm
      cases hfv : findTok toks v with
      | none => simp [hv, this]
      | some x => simp [hv]
  | some old =>
    dsimp only
    by_cases hgt : old.gt new_tok = true
    · rw [if_pos hgt]
      dsimp only
      rw [findTok_assignTok]
      by_cases hv : v = s
      · rw [if_pos hv, hf, if_pos ⟨hv, rfl⟩]
        rfl
      · rw [if_neg hv, if_neg (fun h => hv h.1)]
    · rw [if_neg hgt]
      dsimp only
      rw [if_neg (fun h => by simp at h)]

/-- After `insertOrReplace` the key holds a token no worse than the candidate and
no worse than the incumbent. -/
theorem insertOrReplace_spec (toks : TokMap) (s : StateId) (new_tok : Token) :
    (∃ t2, findTok (insertOrReplace toks s new_tok).1 s = some t2 ∧
      t2._tot_cost ≤ new_tok._tot_cost) ∧
    NoWorse toks (insertOrReplace toks s new_tok).1 := by
  constructor
  · rw [findTok_insertOrReplace]
    by_cases hflag : (insertOrReplace toks s new_tok).2 = true
    · rw [if_pos ⟨rfl, hflag⟩]
      exact ⟨new_tok, rfl, le_refl _⟩
    · rw [if_neg (fun h => hflag h.2)]
      unfold insertOrReplace at hflag
      cases hf : findTok toks s with
      | none => rw [hf] at hflag; simp at hflag
      | some old =>
        rw [hf] at hflag
        dsimp only at hflag
        by_cases hgt : old.gt new_tok = true
        · rw [if_pos hgt] at hflag; simp at hflag
        · refine ⟨old, rfl, ?_⟩
          by_contra hlt
          exact hgt ((Token.gt_iff _ _).2 (lt_of_not_ge hlt))
  · intro v t hv
    rw [findTok_insertOrReplace]
    by_cases hc : v = s ∧ (insertOrReplace toks s new_tok).2 = true
    · rw [if_pos hc]
      refine ⟨new_tok, rfl, ?_⟩
      obtain ⟨hvs, hflag⟩ := hc
      subst hvs
      unfold insertOrReplace at hflag
      rw [hv] at hflag
      dsimp only at hflag
      by_cases hgt : t.gt new_tok = true
      · exact le_of_lt ((Token.gt_iff _ _).1 hgt)
      · rw [if_neg hgt] at hflag; simp at hflag
    · rw [if_neg hc]
      exact ⟨t, hv, le_refl _⟩

/-- Effect of relaxing one arc on the lookups and the worklist. -/
theorem relaxArc_effect (cutoff : WithTop ℚ) (tok : Token) (st : TokMap × List StateId)
    (arc : StdArc) :
    NoWorse st.1 (relaxArc cutoff tok st arc).1 ∧
    (∀ v, v ∈ st.2 → v ∈ (relaxArc cutoff tok st arc).2) ∧
    (∀ v, findTok (relaxArc cutoff tok st arc).1 v ≠ findTok st.1 v →
      v ∈ (relaxArc cutoff tok st arc).2) ∧
    (arc._input = 0 → ¬ cutoff < ((tok._tot_cost + arc._w : ℚ) : WithTop ℚ) →
      ∃ t2, findTok (relaxArc cutoff tok st arc).1 arc._to = some t2 ∧
        t2._tot_cost ≤ tok._tot_cost + arc._w) := by
  unfold relaxArc
  by_cases h0 : arc._input = 0
  · rw [if_pos h0]
    dsimp only
    by_cases hc : cutoff < ((Token.ofArc arc (some tok))._tot_cost : WithTop ℚ)
    · rw [if_pos hc]
      exact ⟨noWorse_refl _, fun _ h => h, fun _ h => absurd rfl h, fun _ h => absurd hc h⟩
    · rw [if_neg hc]
      obtain ⟨hs1, hs2⟩ := insertOrReplace_spec st.1 arc._to (Token.ofArc arc (some tok))
      have hfind := findTok_insertOrReplace st.1 arc._to (Token.ofArc arc (some tok))
      by_cases hflag : (insertOrReplace st.1 arc._to (Token.ofArc arc (some tok))).2 = true
      · rw [if_pos hflag]
        refine ⟨hs2, fun v h => List.mem_cons_of_mem _ h, ?_, fun _ _ => hs1⟩
        intro v hv
        dsimp only at hv ⊢
        by_cases hva : v = arc._to
        · rw [hva]; exact List.mem_cons_self _ _
        · rw [hfind v, if_neg (fun h => hva h.1)] at hv
          exact absurd rfl hv
      · rw [if_neg hflag]
        refine ⟨hs2, fun v h => h, ?_, fun _ _ => hs1⟩
        intro v hv
        dsimp only at hv
        rw [hfind v, if_neg (fun h => hflag h.2)] at hv
        exact absurd rfl hv
  · rw [if_neg h0]
    exact ⟨noWorse_refl _, fun _ h => h, fun _ h => absurd rfl h, fun h => absurd h h0⟩

/-- Effect of the arc loop over a list of arcs. -/
theorem relaxArcs_effect (cutoff : WithTop ℚ) (tok : Token) (arcs : List StdArc)
    (st : TokMap × List StateId) :
    NoWorse st.1 (arcs.foldl (relaxArc cutoff tok) st).1 ∧
    (∀ v, v ∈ st.2 → v ∈ (arcs.foldl (relaxArc cutoff tok) st).2) ∧
    (∀ v, findTok (arcs.foldl (relaxArc cutoff tok) st).1 v ≠ findTok st.1 v →
      v ∈ (arcs.foldl (relaxArc cutoff tok) st).2) ∧
    (∀ a ∈ arcs, a._input = 0 → ¬ cutoff < ((tok._tot_cost + a._w : ℚ) : WithTop ℚ) →
      ∃ t2, findTok (arcs.foldl (relaxArc cutoff tok) st).1 a._to = some t2 ∧
        t2._tot_cost ≤ tok._tot_cost + a._w) := by
  induction arcs generalizing st with
  | nil =>
    exact ⟨noWorse_refl _, fun _ h => h, fun _ h => absurd rfl h,
      fun a ha => absurd ha (List.not_mem_nil _)⟩
  | cons a l ih =>
    rw [List.foldl_cons]
    obtain ⟨h1, h2, h3, h4⟩ := relaxArc_effect cutoff tok st a
    obtain ⟨i1, i2, i3, i4⟩ := ih (relaxArc cutoff tok st a)
    refine ⟨noWorse_trans _ _ _ h1 i1, fun v hv => i2 v (h2 v hv), ?_, ?_⟩
    · intro v hv
      by_cases hch : findTok (l.foldl (relaxArc cutoff tok) (relaxArc cutoff tok st a)).1 v =
          findTok (relaxArc cutoff tok st a).1 v
      · rw [hch] at hv
        exact i2 v (h3 v hv)
      · exact i3 v hch
    · intro b hb hb0 hbc
      rcases List.mem_cons.1 hb with rfl | hb
      · obtain ⟨t2, ht2, hle⟩ := h4 hb0 hbc
        obtain ⟨t3, ht3, hle3⟩ := i1 _ _ ht2
        exact ⟨t3, ht3, le_trans hle3 hle⟩
      · exact i4 b hb hb0 hbc

/-- One pass of the worklist loop over the arcs of the popped state keeps the
closedness invariant. -/
theorem epsClosed_step (g : Fst) (cutoff : WithTop ℚ) (toks : TokMap) (s : StateId)
    (rest : List StateId) (tok : Token) (hf : findTok toks s = some tok)
    (h : EpsClosed g cutoff toks (s :: rest)) :
    EpsClosed g cutoff ((g.arcs s).foldl (relaxArc cutoff tok) (toks, rest)).1
      ((g.arcs s).foldl (relaxArc cutoff tok) (toks, rest)).2 := by
  obtain ⟨h1, h2, h3, h4⟩ := relaxArcs_effect cutoff tok (g.arcs s) (toks, rest)
  intro u t hu hcu
  by_cases hch : findTok ((g.arcs s).foldl (relaxArc cutoff tok) (toks, rest)).1 u =
      findTok toks u
  · rw [hch] at hu
    by_cases hus : u = s
    · right
      subst hus
      rw [hf] at hu
      cases hu
      intro a ha ha0 hac
      exact h4 a ha ha0 hac
    · rcases h u t hu hcu with hq | hrel
      · rcases List.mem_cons.1 hq with hq | hq
        · exact absurd hq hus
        · exact Or.inl (h2 u hq)
      · right
        intro a ha ha0 hac
        obtain ⟨t2, ht2, hle⟩ := hrel a ha ha0 hac
        obtain ⟨t3, ht3, hle3⟩ := h1 _ _ ht2
        exact ⟨t3, ht3, le_trans hle3 hle⟩
  · exact Or.inl (h3 u hch)

/-- Whenever the worklist loop returns, the frontier it returns is closed under
eps arcs within the cutoff and is no worse than the one it started from. -/
theorem closureLoop_closed (g : Fst) (cutoff : WithTop ℚ) (fuel : Nat) :
    ∀ (toks : TokMap) (queue : List StateId) (r : TokMap × List StateId),
      EpsClosed g cutoff toks queue → closureLoop g cutoff fuel toks queue = .ok r →
      EpsClosed g cutoff r.1 [] ∧ NoWorse toks r.1 := by
  induction fuel with
  | zero =>
    intro toks queue r hinv h
    cases queue with
    | nil =>
      rw [closureLoop_nil] at h
      cases h
      exact ⟨hinv, noWorse_refl _⟩
    | cons s rest => simp [closureLoop] at h
  | succ fuel ih =>
    intro toks queue r hinv h
    cases queue with
    | nil =>
      rw [closureLoop_nil] at h
      cases h
      exact ⟨hinv, noWorse_refl _⟩
    | cons s rest =>
      rw [closureLoop_succ] at h
      cases hf : findTok toks s with
      | none => rw [hf] at h; cases h
      | some tok =>
        rw [hf] at h
        dsimp only at h
        by_cases hc : cutoff < (tok._tot_cost : WithTop ℚ)
        · rw [if_pos hc] at h
          refine ih toks rest r ?_ h
          intro u t hu hcu
          rcases hinv u t hu hcu with hq | hrel
          · rcases List.mem_cons.1 hq with hq | hq
            · subst hq
              rw [hf] at hu
              cases hu
              exact absurd hc hcu
            · exact Or.inl hq
          · exact Or.inr hrel
        · rw [if_neg hc] at h
          by_cases hk : s = tok._arc._to
          · rw [if_pos hk] at h
            obtain ⟨i1, i2⟩ := ih _ _ r (epsClosed_step g cutoff toks s rest tok hf hinv) h
            exact ⟨i1, noWorse_trans _ _ _
              (relaxArcs_effect cutoff tok (g.arcs s) (toks, rest)).1 i2⟩
          · rw [if_neg hk] at h
            cases h

/-- A worklist seeded with every key makes the closedness invariant hold. -/
theorem epsClosed_seed (g : Fst) (cutoff : WithTop ℚ) (toks : TokMap) (queue : List StateId) :
    EpsClosed g cutoff toks (seedQueue toks queue) := by
  intro s t hs _
  left
  have key : ∀ (l : TokMap) (q : List StateId) (it : StateId × Token),
      (it ∈ l ∨ it.1 ∈ q) → it.1 ∈ seedQueue l q := by
    intro l
    induction l with
    | nil =>
      intro q it h
      rcases h with h | h
      · exact absurd h (List.not_mem_nil _)
      · exact h
    | cons hd tl ih =>
      intro q it h
      unfold seedQueue
      rw [List.foldl_cons]
      apply ih (hd.1 :: q) it
      rcases h with h | h
      · rcases List.mem_cons.1 h with h | h
        · right; rw [h]; exact List.mem_cons_self _ _
        · left; exact h
      · right; exact List.mem_cons_of_mem _ h
  exact key toks queue (s, t) (Or.inl (findTok_mem toks s t hs))

/-! ## InitDecoding -/

/-- On the graph with an eps self-loop `InitDecoding` needs one unit of fuel and
returns the root token alone: the loop of weight 0.01 does not improve it. -/
theorem InitDecoding_exLoopGraph :
    InitDecoding exLoopGraph 1 exEmptyDecoder =
      .ok ⟨[(0, Token.ofArc ⟨0, 0, 0, 0⟩ none)], [], 0, [], []⟩ := by
  norm_num [InitDecoding, ProcessNonemitting, exEmptyDecoder, seedQueue,
    closureLoop, findTok, exLoopGraph, Token.ofArc, Token._tot_cost, Token._arc, FLT_MAX,
    Fst.arcs, toUnsigned, relaxArc, insertOrReplace, Token.gt]

theorem sortedCosts_length (toks : TokMap) : (sortedCosts toks).length = toks.length := by
  unfold sortedCosts
  rw [List.length_insertionSort, List.length_map]

theorem sortedCosts_sorted (toks : TokMap) : (sortedCosts toks).Sorted (· ≤ ·) :=
  List.sorted_insertionSort (· ≤ ·) _

theorem sortedCosts_mem (toks : TokMap) (x : ℚ) :
    x ∈ sortedCosts toks ↔ ∃ it ∈ toks, it.2._tot_cost = x := by
  unfold sortedCosts
  rw [(List.perm_insertionSort (· ≤ ·) _).mem_iff, List.mem_map]

theorem sortedCosts_getD_mem (toks : TokMap) (k : Nat) (hk : k < toks.length) :
    ∃ it ∈ toks, it.2._tot_cost = (sortedCosts toks).getD k 0 := by
  rw [← sortedCosts_mem, List.getD_eq_getElem _ _ (by rw [sortedCosts_length]; exact hk)]
  exact List.getElem_mem _

/-- The scanning loop started from an infinite bound on a non-empty frontier
ends with a token of least cost. -/
theorem scan_best (push : Bool) (toks : TokMap) (b0 : Option Token) (s0 : StateId)
    (tmp0 : List ℚ) (hne : toks ≠ []) :
    ∃ it ∈ toks,
      (toks.foldl (scanStep push) ⟨⊤, b0, s0, 0, tmp0⟩).best_cost = (it.2._tot_cost : WithTop ℚ) ∧
      (toks.foldl (scanStep push) ⟨⊤, b0, s0, 0, tmp0⟩).best_tok = some it.2 ∧
      (toks.foldl (scanStep push) ⟨⊤, b0, s0, 0, tmp0⟩).best_stateid = it.1 ∧
      ∀ it2 ∈ toks, it.2._tot_cost ≤ it2.2._tot_cost := by
  obtain ⟨-, -, -, hle, hor⟩ := scan_spec push toks ⟨⊤, b0, s0, 0, tmp0⟩
  rcases hor with ⟨e, -, -⟩ | ⟨it, hit, e1, e2, e3⟩
  · obtain ⟨hd, hhd⟩ := List.exists_mem_of_ne_nil toks hne
    have := hle hd hhd
    rw [e] at this
    exact absurd this (by simp)
  · refine ⟨it, hit, e1, e2, e3, ?_⟩
    intro it2 hit2
    have := hle it2 hit2
    rw [e1] at this
    exact WithTop.coe_le_coe.1 this

/-- Entry 0 of the sorted costs is the cost of any token of least cost. -/
theorem sortedCosts_zero (toks : TokMap) (it : StateId × Token) (hit : it ∈ toks)
    (hmin : ∀ it2 ∈ toks, it.2._tot_cost ≤ it2.2._tot_cost) :
    (sortedCosts toks).getD 0 0 = it.2._tot_cost := by
  have hpos : 0 < toks.length := List.length_pos_of_mem hit
  apply le_antisymm
  · obtain ⟨k, hk, hx⟩ := List.getElem_of_mem ((sortedCosts_mem toks _).2 ⟨it, hit, rfl⟩)
    rw [← hx, ← List.getD_eq_getElem _ 0 hk]
    exact sorted_getD_le _ (sortedCosts_sorted toks) 0 k (Nat.zero_le _) hk
  · obtain ⟨it2, hit2, h2⟩ := sortedCosts_getD_mem toks 0 hpos
    rw [← h2]
    exact hmin it2 hit2

theorem maxActiveCutoff_value (cfg : CtcFasterDecoderOptions) (hv : ValidConfig cfg)
    (toks : TokMap) :
    (maxActiveCutoff cfg (toks.map (·.2._tot_cost))).2 =
      if cfg._max_active.toNat < toks.length then
        (((sortedCosts toks).getD cfg._max_active.toNat 0 : ℚ) : WithTop ℚ)
      else ⊤ := by
  obtain ⟨-, hmax1, hmaxI, hmin0, hminmax⟩ := hv
  by_cases hbig : cfg._max_active.toNat < toks.length
  · rw [if_pos hbig, maxActiveCutoff_big cfg _ (by omega) hmaxI (by simpa using hbig)]
    rfl
  · rw [if_neg hbig, maxActiveCutoff_small cfg _ (by omega) hmaxI (by simpa using hbig)]

theorem minActiveCutoff_value (cfg : CtcFasterDecoderOptions) (hv : ValidConfig cfg)
    (best : WithTop ℚ) (toks : TokMap) :
    (minActiveCutoff cfg best (maxActiveCutoff cfg (toks.map (·.2._tot_cost))).1).2 =
      if cfg._min_active.toNat < toks.length then
        (if cfg._min_active = 0 then best
         else (((sortedCosts toks).getD cfg._min_active.toNat 0 : ℚ) : WithTop ℚ))
      else ⊤ := by
  obtain ⟨-, hmax1, hmaxI, hmin0, hminmax⟩ := hv
  by_cases hbig : cfg._max_active.toNat < toks.length
  · have hS := List.sorted_insertionSort (· ≤ ·) (toks.map (·.2._tot_cost))
    have hlt : cfg._min_active.toNat < toks.length := by omega
    rw [maxActiveCutoff_big cfg _ (by omega) hmaxI (by simpa using hbig),
      minActiveCutoff_sorted cfg _ _ hS hmin0 (by omega)
        (by rw [List.length_insertionSort, List.length_map]; exact hlt), if_pos hlt]
    rfl
  · rw [maxActiveCutoff_small cfg _ (by omega) hmaxI (by simpa using hbig)]
    unfold minActiveCutoff
    rw [toSizeT_of_int_range _ hmin0 (by omega), toSizeT_of_int_range _ (by omega) hmaxI,
      List.length_map]
    by_cases hlt : cfg._min_active.toNat < toks.length
    · rw [if_pos hlt, if_pos hlt]
      by_cases hz : cfg._min_active = 0
      · rw [if_pos hz, if_pos hz]
      · rw [if_neg hz, if_neg hz, if_neg hbig]
        have := nth_element_full (toks.map (·.2._tot_cost)) cfg._min_active.toNat
        rw [List.length_map] at this
        simp only [this]
        rfl
    · rw [if_neg hlt, if_neg hlt]

theorem subBound_coe (x y : ℚ) :
    subBound (x : WithTop ℚ) (y : WithTop ℚ) = ((toDouble (x - y) : ℚ) : WithTop ℚ) := rfl

theorem subBound_top (b : WithTop ℚ) : subBound ⊤ b = ⊤ := rfl

/-- The branches of `GetCutoff` on a non-empty frontier, with every quantity
expressed through the sorted costs: `best_tok` is a token of least cost, and the
cutoff and the adaptive beam are those of the fast branch, of the `max_active`
limit, of the `min_active` floor, or of the plain beam.  The beam cutoff is the
`double` sum `best_cost + beam`, and the adaptive beam is a `double` expression
stored in a `float`. -/
theorem GetCutoff_cases (cfg : CtcFasterDecoderOptions) (hv : ValidConfig cfg) (toks : TokMap)
    (hne : toks ≠ []) (b0 : Option Token) (s0 : StateId) (tmp0 : List ℚ) :
    (∃ it ∈ toks, (GetCutoff cfg toks b0 s0 tmp0).best_tok = some it.2 ∧
      (GetCutoff cfg toks b0 s0 tmp0).best_stateid = it.1 ∧
      it.2._tot_cost = (sortedCosts toks).getD 0 0) ∧
    ((cfg._max_active = INT_MAX ∧ cfg._min_active = 0 ∧
        (GetCutoff cfg toks b0 s0 tmp0).cutoff =
          ((toDouble ((sortedCosts toks).getD 0 0 + cfg._beam) : ℚ) : WithTop ℚ) ∧
        (GetCutoff cfg toks b0 s0 tmp0).adaptive_beam =
          ((toFloat cfg._beam : ℚ) : WithTop ℚ)) ∨
     (¬ (cfg._max_active = INT_MAX ∧ cfg._min_active = 0) ∧
        cfg._max_active.toNat < toks.length ∧
        (sortedCosts toks).getD cfg._max_active.toNat 0 <
          toDouble ((sortedCosts toks).getD 0 0 + cfg._beam) ∧
        (GetCutoff cfg toks b0 s0 tmp0).cutoff =
          (((sortedCosts toks).getD cfg._max_active.toNat 0 : ℚ) : WithTop ℚ) ∧
        (GetCutoff cfg toks b0 s0 tmp0).adaptive_beam =
          ((toFloat (toDouble (toDouble ((sortedCosts toks).getD cfg._max_active.toNat 0
            - (sortedCosts toks).getD 0 0) + cfg._beam_delta)) : ℚ) : WithTop ℚ)) ∨
     (¬ (cfg._max_active = INT_MAX ∧ cfg._min_active = 0) ∧
        ¬ (cfg._max_active.toNat < toks.length ∧
          (sortedCosts toks).getD cfg._max_active.toNat 0 <
            toDouble ((sortedCosts toks).getD 0 0 + cfg._beam)) ∧
        ¬ cfg._min_active.toNat < toks.length ∧
        (GetCutoff cfg toks b0 s0 tmp0).cutoff = ⊤ ∧
        (GetCutoff cfg toks b0 s0 tmp0).adaptive_beam = ⊤) ∨
     (¬ (cfg._max_active = INT_MAX ∧ cfg._min_active = 0) ∧
        ¬ (cfg._max_active.toNat < toks.length ∧
          (sortedCosts toks).getD cfg._max_active.toNat 0 <
            toDouble ((sortedCosts toks).getD 0 0 + cfg._beam)) ∧
        cfg._min_active.toNat < toks.length ∧
        toDouble ((sortedCosts toks).getD 0 0 + cfg._beam) <
          (sortedCosts toks).getD cfg._min_active.toNat 0 ∧
        (GetCutoff cfg toks b0 s0 tmp0).cutoff =
          (((sortedCosts toks).getD cfg._min_active.toNat 0 : ℚ) : WithTop ℚ) ∧
        (GetCutoff cfg toks b0 s0 tmp0).adaptive_beam =
          ((toFloat (toDouble (toDouble ((sortedCosts toks).getD cfg._min_active.toNat 0
            - (sortedCosts toks).getD 0 0) + cfg._beam_delta)) : ℚ) : WithTop ℚ)) ∨
     (¬ (cfg._max_active = INT_MAX ∧ cfg._min_active = 0) ∧
        ¬ (cfg._max_active.toNat < toks.length ∧
          (sortedCosts toks).getD cfg._max_active.toNat 0 <
            toDouble ((sortedCosts toks).getD 0 0 + cfg._beam)) ∧
        cfg._min_active.toNat < toks.length ∧
        (sortedCosts toks).getD cfg._min_active.toNat 0 ≤
          toDouble ((sortedCosts toks).getD 0 0 + cfg._beam) ∧
        (GetCutoff cfg toks b0 s0 tmp0).cutoff =
          ((toDouble ((sortedCosts toks).getD 0 0 + cfg._beam) : ℚ) : WithTop ℚ) ∧
        (GetCutoff cfg toks b0 s0 tmp0).adaptive_beam =
          ((toFloat cfg._beam : ℚ) : WithTop ℚ))) := by
  by_cases hfast : cfg._max_active = INT_MAX ∧ cfg._min_active = 0
  · obtain ⟨it, hit, e1, e2, e3, hmin⟩ := scan_best false toks b0 s0 tmp0 hne
    have hz := sortedCosts_zero toks it hit hmin
    have hG : GetCutoff cfg toks b0 s0 tmp0 =
        { cutoff := addDouble (toks.foldl (scanStep false) ⟨⊤, b0, s0, 0, tmp0⟩).best_cost
            (cfg._beam : WithTop ℚ),
          tok_count := (toks.foldl (scanStep false) ⟨⊤, b0, s0, 0, tmp0⟩).count,
          adaptive_beam := floatOfBound (cfg._beam : WithTop ℚ),
          best_tok := (toks.foldl (scanStep false) ⟨⊤, b0, s0, 0, tmp0⟩).best_tok,
          best_stateid := (toks.foldl (scanStep false) ⟨⊤, b0, s0, 0, tmp0⟩).best_stateid,
          tmp_array := (toks.foldl (scanStep false) ⟨⊤, b0, s0, 0, tmp0⟩).tmp_array } := by
      unfold GetCutoff
      rw [if_pos hfast]
    rw [hG]
    refine ⟨⟨it, hit, e2, e3, hz.symm⟩, Or.inl ⟨hfast.1, hfast.2, ?_, rfl⟩⟩
    show addDouble (toks.foldl (scanStep false) ⟨⊤, b0, s0, 0, tmp0⟩).best_cost
      (cfg._beam : WithTop ℚ) = _
    rw [e1, hz, addDouble_coe]
  · obtain ⟨it, hit, e1, e2, e3, hmin⟩ := scan_best true toks b0 s0 [] hne
    have hz := sortedCosts_zero toks it hit hmin
    obtain ⟨-, htmp, -⟩ := scan_spec true toks ⟨⊤, b0, s0, 0, []⟩
    simp only [List.nil_append, if_true] at htmp
    have hmx := maxActiveCutoff_value cfg hv toks
    have hmn := minActiveCutoff_value cfg hv
      (toks.foldl (scanStep true) ⟨⊤, b0, s0, 0, []⟩).best_cost toks
    rw [e1, ← hz] at hmn
    have hbt : (GetCutoff cfg toks b0 s0 tmp0).best_tok = some it.2 := by
      unfold GetCutoff
      rw [if_neg hfast]
      dsimp only
      split_ifs <;> exact e2
    have hbs : (GetCutoff cfg toks b0 s0 tmp0).best_stateid = it.1 := by
      unfold GetCutoff
      rw [if_neg hfast]
      dsimp only
      split_ifs <;> exact e3
    have hcut := GetCutoff_cutoff_general cfg toks b0 s0 tmp0 hfast _ e1
    have hab : (GetCutoff cfg toks b0 s0 tmp0).adaptive_beam =
        if (maxActiveCutoff cfg (toks.map (·.2._tot_cost))).2 <
            addDouble (it.2._tot_cost : WithTop ℚ) (cfg._beam : WithTop ℚ) then
          floatOfBound (addDouble
            (subBound (maxActiveCutoff cfg (toks.map (·.2._tot_cost))).2
              (it.2._tot_cost : WithTop ℚ))
            (cfg._beam_delta : WithTop ℚ))
        else if addDouble (it.2._tot_cost : WithTop ℚ) (cfg._beam : WithTop ℚ) <
            (minActiveCutoff cfg (it.2._tot_cost : WithTop ℚ)
              (maxActiveCutoff cfg (toks.map (·.2._tot_cost))).1).2 then
          floatOfBound (addDouble
            (subBound (minActiveCutoff cfg (it.2._tot_cost : WithTop ℚ)
              (maxActiveCutoff cfg (toks.map (·.2._tot_cost))).1).2 (it.2._tot_cost : WithTop ℚ))
            (cfg._beam_delta : WithTop ℚ))
        else floatOfBound (cfg._beam : WithTop ℚ) := by
      unfold GetCutoff
      rw [if_neg hfast]
      simp only [htmp, e1]
      split_ifs <;> rfl
    rw [← hz] at hcut hab
    rw [hmx, hmn] at hcut hab
    refine ⟨⟨it, hit, hbt, hbs, hz.symm⟩, Or.inr ?_⟩
    rw [hcut, hab]
    have hmnv : (if cfg._min_active = 0 then (((sortedCosts toks).getD 0 0 : ℚ) : WithTop ℚ)
        else (((sortedCosts toks).getD cfg._min_active.toNat 0 : ℚ) : WithTop ℚ)) =
        (((sortedCosts toks).getD cfg._min_active.toNat 0 : ℚ) : WithTop ℚ) := by
      by_cases hz0 : cfg._min_active = 0
      · rw [if_pos hz0, hz0]; rfl
      · rw [if_neg hz0]
    rw [hmnv]
    simp only [addDouble_coe]
    by_cases hC : cfg._max_active.toNat < toks.length ∧
        (sortedCosts toks).getD cfg._max_active.toNat 0 <
          toDouble ((sortedCosts toks).getD 0 0 + cfg._beam)
    · have hA' : ((((sortedCosts toks).getD cfg._max_active.toNat 0 : ℚ)) : WithTop ℚ) <
          ((toDouble ((sortedCosts toks).getD 0 0 + cfg._beam) : ℚ) : WithTop ℚ) :=
        WithTop.coe_lt_coe.2 hC.2
      simp only [if_pos hC.1]
      rw [if_pos hA', if_pos hA']
      refine Or.inl ⟨hfast, hC.1, hC.2, rfl, ?_⟩
      rw [subBound_coe, addDouble_coe, floatOfBound_coe]
    · have hA' : ¬ ((if cfg._max_active.toNat < toks.length then
            (((sortedCosts toks).getD cfg._max_active.toNat 0 : ℚ) : WithTop ℚ) else ⊤) <
          ((toDouble ((sortedCosts toks).getD 0 0 + cfg._beam) : ℚ) : WithTop ℚ)) := by
        by_cases hbig : cfg._max_active.toNat < toks.length
        · rw [if_pos hbig, WithTop.coe_lt_coe]
          exact fun h => hC ⟨hbig, h⟩
        · rw [if_neg hbig]
          exact not_top_lt
      rw [if_neg hA', if_neg hA']
      refine Or.inr ?_
      by_cases hlt : cfg._min_active.toNat < toks.length
      · simp only [if_pos hlt]
        by_cases hB : toDouble ((sortedCosts toks).getD 0 0 + cfg._beam) <
            (sortedCosts toks).getD cfg._min_active.toNat 0
        · have hB' : ((toDouble ((sortedCosts toks).getD 0 0 + cfg._beam) : ℚ) : WithTop ℚ) <
              (((sortedCosts toks).getD cfg._min_active.toNat 0 : ℚ) : WithTop ℚ) :=
            WithTop.coe_lt_coe.2 hB
          rw [if_pos hB', if_pos hB']
          refine Or.inr (Or.inl ⟨hfast, hC, hlt, hB, rfl, ?_⟩)
          rw [subBound_coe, addDouble_coe, floatOfBound_coe]
        · have hB' : ¬ (((toDouble ((sortedCosts toks).getD 0 0 + cfg._beam) : ℚ) : WithTop ℚ) <
              (((sortedCosts toks).getD cfg._min_active.toNat 0 : ℚ) : WithTop ℚ)) := by
            rw [WithTop.coe_lt_coe]; exact hB
          rw [if_neg hB', if_neg hB']
          exact Or.inr (Or.inr ⟨hfast, hC, hlt, not_lt.1 hB, rfl, floatOfBound_coe _⟩)
      · simp only [if_neg hlt]
        have hB' : ((toDouble ((sortedCosts toks).getD 0 0 + cfg._beam) : ℚ) : WithTop ℚ) <
            ⊤ := WithTop.coe_lt_top _
        rw [if_pos hB', if_pos hB']
        refine Or.inl ⟨hfast, hC, hlt, rfl, ?_⟩
        rw [subBound_top, addDouble_top_left, floatOfBound_top]

/-! ## The `min_active` floor (claim C11) -/

/-- In a sorted list whose entry `k` is strictly greater than entry `k - 1`, at
least `k` entries lie strictly below any bound that is not below entry `k`. -/
theorem sorted_countP_ge (S : List ℚ) (hS : S.Sorted (· ≤ ·)) (k : Nat) (hk : k < S.length)
    (c : WithTop ℚ) (hc : ((S.getD k 0 : ℚ) : WithTop ℚ) ≤ c)
    (hgap : ∀ j : Nat, j + 1 = k → S.getD j 0 < S.getD (j + 1) 0) :
    k ≤ List.countP (fun w : ℚ => decide ((w : WithTop ℚ) < c)) S := by
  induction S generalizing k with
  | nil => simp at hk
  | cons x xs ih =>
    cases k with
    | zero => exact Nat.zero_le _
    | succ j =>
      have hxs : xs.Sorted (· ≤ ·) := (List.sorted_cons.1 hS).2
      have hj : j < xs.length := by simpa using hk
      have h1 : (x :: xs).getD 0 0 ≤ (x :: xs).getD j 0 :=
        sorted_getD_le _ hS 0 j (Nat.zero_le _) (by simp only [List.length_cons]; omega)
      have h2 := hgap j rfl
      have hx : (x : WithTop ℚ) < c := by
        refine lt_of_lt_of_le (WithTop.coe_lt_coe.2 ?_) hc
        rw [List.getD_cons_zero] at h1
        exact lt_of_le_of_lt h1 h2
      have ih' := ih hxs j hj (by rw [List.getD_cons_succ] at hc; exact hc) (by
        intro i hi
        have := hgap (i + 1) (by omega)
        rw [List.getD_cons_succ, List.getD_cons_succ] at this
        exact this)
      rw [List.countP_cons_of_pos _ _ (by simpa using hx)]
      omega

/-- A cutoff not below entry `k` of the sorted costs lets at least `k` tokens
through when entry `k` is strictly greater than entry `k - 1`. -/
theorem countBelow_ge_of_sorted (toks : TokMap) (c : WithTop ℚ) (k : Nat) (hk : k < toks.length)
    (hc : (((sortedCosts toks).getD k 0 : ℚ) : WithTop ℚ) ≤ c)
    (hgap : ∀ j : Nat, j + 1 = k → (sortedCosts toks).getD j 0 < (sortedCosts toks).getD (j + 1) 0) :
    k ≤ countBelow toks c := by
  rw [countBelow_eq, ← (List.perm_insertionSort (· ≤ ·) (toks.map (·.2._tot_cost))).countP_eq]
  exact sorted_countP_ge _ (sortedCosts_sorted toks) k (by rw [sortedCosts_length]; exact hk) c hc
    hgap

theorem sortedCosts_exGapFrontier : sortedCosts exGapFrontier = [1, 5, 5] := by
  norm_num [sortedCosts, exGapFrontier, exTok, Token.ofArc, Token._tot_cost]

theorem validConfig_exFloorOpts : ValidConfig exFloorOpts := by
  norm_num [ValidConfig, exFloorOpts, INT_MAX]

theorem GetCutoff_exGapFrontier :
    (GetCutoff exFloorOpts exGapFrontier none 0 []).cutoff = ((5 : ℚ) : WithTop ℚ) := by
  have hc := (GetCutoff_cases exFloorOpts validConfig_exFloorOpts exGapFrontier
    (by simp [exGapFrontier]) none 0 []).2
  have hm : exFloorOpts._min_active.toNat = 2 := rfl
  have hM : exFloorOpts._max_active.toNat = 7000 := rfl
  rw [sortedCosts_exGapFrontier, hm, hM] at hc
  rcases hc with h | h | h | h | h
  · exact absurd h.1 (by norm_num [exFloorOpts, INT_MAX])
  · exact absurd h.2.1 (by norm_num [exFloorOpts, exGapFrontier])
  · exact absurd h.2.2.1 (by norm_num [exFloorOpts, exGapFrontier])
  · rw [h.2.2.2.2.1]; norm_num [exFloorOpts]
  · have hd : toDouble (3 / 2) = 3 / 2 := toDouble_eq_self _ 3 (-1) (by norm_num) (by norm_num)
    exact absurd h.2.2.2.1 (by norm_num [exFloorOpts, hd])

/-- Claim C11 as stated fails: with `min_active = 2` and beam 0.5 the frontier of
costs 1, 5, 5 holds more than `min_active` tokens, the cutoff returned is 5 (the
entry `min_active` of the sorted costs) and only one token lies strictly below
it. -/
theorem GetCutoff_ties_fall_below_min_active :
    ValidConfig exFloorOpts ∧ 0 < exFloorOpts._beam ∧
    exFloorOpts._min_active.toNat < exGapFrontier.length ∧
    (GetCutoff exFloorOpts exGapFrontier none 0 []).cutoff = ((5 : ℚ) : WithTop ℚ) ∧
    countBelow exGapFrontier (GetCutoff exFloorOpts exGapFrontier none 0 []).cutoff = 1 ∧
    ¬ (exFloorOpts._min_active ≤
        (countBelow exGapFrontier (GetCutoff exFloorOpts exGapFrontier none 0 []).cutoff : Int)) := by
  have hcount : countBelow exGapFrontier ((5 : ℚ) : WithTop ℚ) = 1 := by
    norm_num [countBelow, exGapFrontier, exTok, Token.ofArc, Token._tot_cost, List.countP_cons]
  refine ⟨validConfig_exFloorOpts, by norm_num [exFloorOpts], by norm_num [exFloorOpts, exGapFrontier],
    GetCutoff_exGapFrontier, ?_, ?_⟩
  · rw [GetCutoff_exGapFrontier, hcount]
  · rw [GetCutoff_exGapFrontier, hcount]
    norm_num [exFloorOpts]

/-- Claim C11 as amended: for accepted options and a frontier holding more than
`min_active` tokens, at least `min_active` tokens have a cost strictly below the
cutoff returned by `GetCutoff`, provided the `min_active`-th smallest cost of the
frontier is strictly smaller than the next one (entry `min_active - 1` of the
sorted costs is below entry `min_active`). -/
theorem GetCutoff_keeps_min_active (cfg : CtcFasterDecoderOptions) (toks : TokMap)
    (b0 : Option Token) (s0 : StateId) (tmp0 : List ℚ) (hv : ValidConfig cfg)
    (hbig : cfg._min_active.toNat < toks.length)
    (hgap : ∀ j : Nat, j + 1 = cfg._min_active.toNat →
      (sortedCosts toks).getD j 0 < (sortedCosts toks).getD (j + 1) 0) :
    cfg._min_active ≤ (countBelow toks (GetCutoff cfg toks b0 s0 tmp0).cutoff : Int) := by
  have hne : toks ≠ [] := by
    intro h; rw [h] at hbig; simp at hbig
  have hm0 : 0 ≤ cfg._min_active := hv.2.2.2.1
  have hmM : cfg._min_active < cfg._max_active := hv.2.2.2.2
  suffices hk : cfg._min_active.toNat ≤ countBelow toks (GetCutoff cfg toks b0 s0 tmp0).cutoff by
    omega
  have key : ∀ c : WithTop ℚ,
      (((sortedCosts toks).getD cfg._min_active.toNat 0 : ℚ) : WithTop ℚ) ≤ c →
      cfg._min_active.toNat ≤ countBelow toks c := fun c hc =>
    countBelow_ge_of_sorted toks c _ hbig hc hgap
  rcases (GetCutoff_cases cfg hv toks hne b0 s0 tmp0).2 with h | h | h | h | h
  · rw [h.2.1]; exact Nat.zero_le _
  · rw [h.2.2.2.1]
    apply key
    exact WithTop.coe_le_coe.2 (sorted_getD_le _ (sortedCosts_sorted toks) _ _ (by omega)
      (by rw [sortedCosts_length]; exact h.2.1))
  · exact absurd hbig h.2.2.1
  · rw [h.2.2.2.2.1]
    exact key _ (le_refl _)
  · rw [h.2.2.2.2.1]
    exact key _ (WithTop.coe_le_coe.2 h.2.2.2.1)

/-- Witness for the amended claim C11: the costs 1, 2, 3 under `min_active = 2`. -/
theorem GetCutoff_keeps_min_active_witness :
    ValidConfig exFloorOpts ∧ exFloorOpts._min_active.toNat < exRampFrontier.length ∧
    (∀ j : Nat, j + 1 = exFloorOpts._min_active.toNat →
      (sortedCosts exRampFrontier).getD j 0 < (sortedCosts exRampFrontier).getD (j + 1) 0) ∧
    exFloorOpts._min_active ≤
      (countBelow exRampFrontier (GetCutoff exFloorOpts exRampFrontier none 0 []).cutoff : Int) := by
  have hS : sortedCosts exRampFrontier = [1, 2, 3] := by
    norm_num [sortedCosts, exRampFrontier, exTok, Token.ofArc, Token._tot_cost]
  have hm : exFloorOpts._min_active.toNat = 2 := rfl
  have hgap : ∀ j : Nat, j + 1 = exFloorOpts._min_active.toNat →
      (sortedCosts exRampFrontier).getD j 0 < (sortedCosts exRampFrontier).getD (j + 1) 0 := by
    intro j hj
    have : j = 1 := by omega
    subst this
    rw [hS]
    norm_num
  exact ⟨validConfig_exFloorOpts, by rw [hm]; simp [exRampFrontier], hgap,
    GetCutoff_keeps_min_active exFloorOpts exRampFrontier none 0 [] validConfig_exFloorOpts
      (by rw [hm]; simp [exRampFrontier]) hgap⟩

/-! ## The `max_active` cutoff (claim C12) and the best token (claim C13) -/

theorem sortedCosts_exRampFrontier : sortedCosts exRampFrontier = [1, 2, 3] := by
  norm_num [sortedCosts, exRampFrontier, exTok, Token.ofArc, Token._tot_cost]

theorem sortedCosts_exTiedFrontier : sortedCosts exTiedFrontier = [1, 1, 1] := by
  norm_num [sortedCosts, exTiedFrontier, exTok, Token.ofArc, Token._tot_cost]

theorem validConfig_exTightOpts : ValidConfig exTightOpts := by
  norm_num [ValidConfig, exTightOpts, INT_MAX]

theorem exTightOpts_general :
    ¬ (exTightOpts._max_active = INT_MAX ∧ exTightOpts._min_active = 0) := by
  norm_num [exTightOpts, INT_MAX]

theorem sortedCosts_exFineFrontier :
    sortedCosts exFineFrontier = [0, 1, 9 / 4 + 1 / 2 ^ 24] := by
  norm_num [sortedCosts, exFineFrontier, exTok, Token.ofArc, Token._tot_cost]

theorem toDouble_seventeen : toDouble 17 = 17 :=
  toDouble_eq_self 17 17 0 (by norm_num) (by norm_num)

/-- Adaptive beam of the `max_active` branch on costs 1 and 3 with delta 0.5:
every intermediate value is representable, so nothing is rounded. -/
theorem adaptiveBeam_ramp : toFloat (toDouble (toDouble (3 - 1) + 1 / 2)) = 5 / 2 := by
  rw [toDouble_eq_self (3 - 1) 1 1 (by norm_num) (by norm_num),
    toDouble_eq_self (3 - 1 + 1 / 2) 5 (-1) (by norm_num) (by norm_num),
    toFloat_eq_self (3 - 1 + 1 / 2) 5 (-1) (by norm_num) (by norm_num)]
  norm_num

/-- Adaptive beam of the `max_active` branch on costs 0 and `9/4 + 2^-24` with
delta 0.5: the `double` value `11/4 + 2^-24` is stored as the `float` `11/4`. -/
theorem adaptiveBeam_fine :
    toFloat (toDouble (toDouble (9 / 4 + 1 / 2 ^ 24 - 0) + 1 / 2)) = 11 / 4 := by
  rw [toDouble_eq_self (9 / 4 + 1 / 2 ^ 24 - 0) 37748737 (-24) (by norm_num) (by norm_num),
    toDouble_eq_self (9 / 4 + 1 / 2 ^ 24 - 0 + 1 / 2) 46137345 (-24) (by norm_num)
      (by norm_num)]
  unfold toFloat
  rw [roundSig_of_exp 24 _ 1 (by norm_num [abs_of_pos]) (by norm_num [abs_of_pos]),
    roundHalfEven_of_floor _ 11534336 (by norm_num) (by norm_num)]
  norm_num

/-- Claim C12 as amended: outside the fast branch, when the frontier holds more
than `max_active` tokens and entry `max_active` of the sorted costs (counted from
0, so the `(max_active + 1)`-th smallest cost) is below the beam cutoff (the
`double` sum `best_cost + beam`), `GetCutoff` returns that entry and sets
`adaptive_beam` to the `float` nearest to it minus `best_cost` plus
`beam_delta`, the difference and the sum being evaluated in `double`. -/
theorem GetCutoff_max_active_cutoff_rounded (cfg : CtcFasterDecoderOptions) (toks : TokMap)
    (b0 : Option Token) (s0 : StateId) (tmp0 : List ℚ) (hv : ValidConfig cfg)
    (hgen : ¬ (cfg._max_active = INT_MAX ∧ cfg._min_active = 0))
    (hbig : cfg._max_active.toNat < toks.length)
    (htight : (sortedCosts toks).getD cfg._max_active.toNat 0 <
      toDouble ((sortedCosts toks).getD 0 0 + cfg._beam)) :
    (GetCutoff cfg toks b0 s0 tmp0).cutoff =
      (((sortedCosts toks).getD cfg._max_active.toNat 0 : ℚ) : WithTop ℚ) ∧
    (GetCutoff cfg toks b0 s0 tmp0).adaptive_beam =
      ((toFloat (toDouble (toDouble ((sortedCosts toks).getD cfg._max_active.toNat 0
        - (sortedCosts toks).getD 0 0) + cfg._beam_delta)) : ℚ) : WithTop ℚ) := by
  have hne : toks ≠ [] := by
    intro h; rw [h] at hbig; simp at hbig
  rcases (GetCutoff_cases cfg hv toks hne b0 s0 tmp0).2 with h | h | h | h | h
  · exact absurd ⟨h.1, h.2.1⟩ hgen
  · exact ⟨h.2.2.2.1, h.2.2.2.2⟩
  · exact absurd ⟨hbig, htight⟩ h.2.1
  · exact absurd ⟨hbig, htight⟩ h.2.1
  · exact absurd ⟨hbig, htight⟩ h.2.1

/-- Claim C12 as stated fails twice.  For `max_active = 2`, beam 16, beam delta
0.5 and costs 1, 2, 3 the `max_active` limit is tighter than the beam, and the
cutoff returned is 3 (not 2) with `adaptive_beam = 3 - 1 + 0.5`.  And
`adaptive_beam` is a `float`: on costs 0, 1, `9/4 + 2^-24` the cutoff is
`9/4 + 2^-24` and `adaptive_beam` is `11/4`, which is not the cutoff minus
`best_cost` plus `beam_delta`. -/
theorem GetCutoff_max_active_returns_next_cost :
    ValidConfig exTightOpts ∧
    exTightOpts._max_active.toNat < exRampFrontier.length ∧
    (sortedCosts exRampFrontier).getD exTightOpts._max_active.toNat 0 <
      toDouble ((sortedCosts exRampFrontier).getD 0 0 + exTightOpts._beam) ∧
    (GetCutoff exTightOpts exRampFrontier none 0 []).cutoff = ((3 : ℚ) : WithTop ℚ) ∧
    (GetCutoff exTightOpts exRampFrontier none 0 []).adaptive_beam =
      ((3 - 1 + exTightOpts._beam_delta : ℚ) : WithTop ℚ) ∧
    (GetCutoff exTightOpts exRampFrontier none 0 []).cutoff ≠ ((2 : ℚ) : WithTop ℚ) ∧
    (GetCutoff exTightOpts exRampFrontier none 0 []).adaptive_beam ≠
      ((2 - 1 + exTightOpts._beam_delta : ℚ) : WithTop ℚ) ∧
    exTightOpts._max_active.toNat < exFineFrontier.length ∧
    (sortedCosts exFineFrontier).getD exTightOpts._max_active.toNat 0 <
      toDouble ((sortedCosts exFineFrontier).getD 0 0 + exTightOpts._beam) ∧
    (GetCutoff exTightOpts exFineFrontier none 0 []).cutoff =
      ((9 / 4 + 1 / 2 ^ 24 : ℚ) : WithTop ℚ) ∧
    (GetCutoff exTightOpts exFineFrontier none 0 []).adaptive_beam =
      ((11 / 4 : ℚ) : WithTop ℚ) ∧
    (GetCutoff exTightOpts exFineFrontier none 0 []).adaptive_beam ≠
      ((9 / 4 + 1 / 2 ^ 24 - 0 + exTightOpts._beam_delta : ℚ) : WithTop ℚ) := by
  have hM : exTightOpts._max_active.toNat = 2 := rfl
  have hbig : exTightOpts._max_active.toNat < exRampFrontier.length := by
    rw [hM]; simp [exRampFrontier]
  have htight : (sortedCosts exRampFrontier).getD exTightOpts._max_active.toNat 0 <
      toDouble ((sortedCosts exRampFrontier).getD 0 0 + exTightOpts._beam) := by
    rw [sortedCosts_exRampFrontier, hM]; norm_num [exTightOpts, toDouble_seventeen]
  have hc := (GetCutoff_cases exTightOpts validConfig_exTightOpts exRampFrontier
    (by simp [exRampFrontier]) none 0 []).2
  have hcut : (GetCutoff exTightOpts exRampFrontier none 0 []).cutoff = ((3 : ℚ) : WithTop ℚ) ∧
      (GetCutoff exTightOpts exRampFrontier none 0 []).adaptive_beam =
        ((3 - 1 + exTightOpts._beam_delta : ℚ) : WithTop ℚ) := by
    rcases hc with h | h | h | h | h
    · exact absurd ⟨h.1, h.2.1⟩ exTightOpts_general
    · rw [h.2.2.2.1, h.2.2.2.2, sortedCosts_exRampFrontier, hM]
      simp only [exTightOpts, List.getD_cons_succ, List.getD_cons_zero]
      rw [adaptiveBeam_ramp]
      norm_num
    · exact absurd ⟨hbig, htight⟩ h.2.1
    · exact absurd ⟨hbig, htight⟩ h.2.1
    · exact absurd ⟨hbig, htight⟩ h.2.1
  have hbig2 : exTightOpts._max_active.toNat < exFineFrontier.length := by
    rw [hM]; simp [exFineFrontier]
  have htight2 : (sortedCosts exFineFrontier).getD exTightOpts._max_active.toNat 0 <
      toDouble ((sortedCosts exFineFrontier).getD 0 0 + exTightOpts._beam) := by
    rw [sortedCosts_exFineFrontier, hM]
    simp only [exTightOpts, List.getD_cons_succ, List.getD_cons_zero, zero_add]
    rw [toDouble_eq_self 16 1 4 (by norm_num) (by norm_num)]
    norm_num
  have hc2 := (GetCutoff_cases exTightOpts validConfig_exTightOpts exFineFrontier
    (by simp [exFineFrontier]) none 0 []).2
  have hcut2 : (GetCutoff exTightOpts exFineFrontier none 0 []).cutoff =
        ((9 / 4 + 1 / 2 ^ 24 : ℚ) : WithTop ℚ) ∧
      (GetCutoff exTightOpts exFineFrontier none 0 []).adaptive_beam =
        ((11 / 4 : ℚ) : WithTop ℚ) := by
    rcases hc2 with h | h | h | h | h
    · exact absurd ⟨h.1, h.2.1⟩ exTightOpts_general
    · rw [h.2.2.2.1, h.2.2.2.2, sortedCosts_exFineFrontier, hM]
      simp only [exTightOpts, List.getD_cons_succ, List.getD_cons_zero]
      rw [adaptiveBeam_fine]
      exact ⟨trivial, rfl⟩
    · exact absurd ⟨hbig2, htight2⟩ h.2.1
    · exact absurd ⟨hbig2, htight2⟩ h.2.1
    · exact absurd ⟨hbig2, htight2⟩ h.2.1
  refine ⟨validConfig_exTightOpts, hbig, htight, hcut.1, hcut.2, ?_, ?_, hbig2, htight2,
    hcut2.1, hcut2.2, ?_⟩
  · rw [hcut.1, Ne, WithTop.coe_eq_coe]; norm_num
  · rw [hcut.2, Ne, WithTop.coe_eq_coe]; norm_num
  · rw [hcut2.2, Ne, WithTop.coe_eq_coe]; norm_num [exTightOpts]

/-- Witness for the amended claim C12: `max_active = 2` on the costs 1, 2, 3. -/
theorem GetCutoff_max_active_cutoff_rounded_witness :
    ValidConfig exTightOpts ∧
    ¬ (exTightOpts._max_active = INT_MAX ∧ exTightOpts._min_active = 0) ∧
    exTightOpts._max_active.toNat < exRampFrontier.length ∧
    (sortedCosts exRampFrontier).getD exTightOpts._max_active.toNat 0 <
      toDouble ((sortedCosts exRampFrontier).getD 0 0 + exTightOpts._beam) ∧
    (GetCutoff exTightOpts exRampFrontier none 0 []).cutoff =
      (((sortedCosts exRampFrontier).getD exTightOpts._max_active.toNat 0 : ℚ) : WithTop ℚ) ∧
    (GetCutoff exTightOpts exRampFrontier none 0 []).adaptive_beam =
      ((toFloat (toDouble (toDouble ((sortedCosts exRampFrontier).getD
        exTightOpts._max_active.toNat 0 - (sortedCosts exRampFrontier).getD 0 0)
        + exTightOpts._beam_delta)) : ℚ) : WithTop ℚ) := by
  have hM : exTightOpts._max_active.toNat = 2 := rfl
  have hbig : exTightOpts._max_active.toNat < exRampFrontier.length := by
    rw [hM]; simp [exRampFrontier]
  have htight : (sortedCosts exRampFrontier).getD exTightOpts._max_active.toNat 0 <
      toDouble ((sortedCosts exRampFrontier).getD 0 0 + exTightOpts._beam) := by
    rw [sortedCosts_exRampFrontier, hM]; norm_num [exTightOpts, toDouble_seventeen]
  exact ⟨validConfig_exTightOpts, exTightOpts_general, hbig, htight,
    GetCutoff_max_active_cutoff_rounded exTightOpts exRampFrontier none 0 []
      validConfig_exTightOpts exTightOpts_general hbig htight⟩

theorem sortedCosts_exFarFrontier : sortedCosts exFarFrontier = [2 ^ 60] := by
  norm_num [sortedCosts, exFarFrontier, exTok, Token.ofArc, Token._tot_cost]

/-- In `double` the sum `2^60 + 16` is `2^60`: the spacing of the doubles there is
`2^8`. -/
theorem toDouble_absorbs : toDouble (2 ^ 60 + 16) = 2 ^ 60 := by
  unfold toDouble
  rw [roundSig_of_exp 53 _ 60 (by norm_num [abs_of_pos]) (by norm_num [abs_of_pos]),
    roundHalfEven_of_floor _ 4503599627370496 (by norm_num) (by norm_num)]
  norm_num

/-- On the single token of cost `2^60` with beam 16 the cutoff returned is the
beam cutoff, which is `2^60`. -/
theorem GetCutoff_exFarFrontier :
    (GetCutoff exTightOpts exFarFrontier none 0 []).cutoff = ((2 ^ 60 : ℚ) : WithTop ℚ) ∧
    (GetCutoff exTightOpts exFarFrontier none 0 []).adaptive_beam = ((16 : ℚ) : WithTop ℚ) ∧
    (GetCutoff exTightOpts exFarFrontier none 0 []).best_tok = some (exTok 0 (2 ^ 60)) ∧
    (GetCutoff exTightOpts exFarFrontier none 0 []).best_stateid = 0 := by
  obtain ⟨⟨it, hit, hbt, hbs, -⟩, hc⟩ := GetCutoff_cases exTightOpts validConfig_exTightOpts
    exFarFrontier (by simp [exFarFrontier]) none 0 []
  have hit2 : it = (0, exTok 0 (2 ^ 60)) := by
    simpa [exFarFrontier] using hit
  rw [hit2] at hbt hbs
  have hM : exTightOpts._max_active.toNat = 2 := rfl
  have hm : exTightOpts._min_active.toNat = 0 := rfl
  have h16 : toFloat 16 = 16 := toFloat_eq_self 16 1 4 (by norm_num) (by norm_num)
  rw [sortedCosts_exFarFrontier, hM, hm] at hc
  simp only [exTightOpts, List.getD_cons_zero, toDouble_absorbs, h16] at hc
  rcases hc with h | h | h | h | h
  · exact absurd h.1 (by norm_num [INT_MAX])
  · exact absurd h.2.1 (by simp [exFarFrontier])
  · exact absurd h.2.2.1 (by simp [exFarFrontier])
  · exact absurd h.2.2.2.1 (lt_irrefl _)
  · exact ⟨h.2.2.2.2.1, h.2.2.2.2.2, hbt, hbs⟩

/-- Claim C13 as stated fails twice.  For `max_active = 2`, beam 16 and three
tokens of cost 1 the cutoff returned is 1, which is below `best_cost + beam = 17`
and not above `best_cost`, so the best token fails the test
`tot_cost < cur_cutoff` and no token of the frontier is expanded.  And
`best_cost + beam` is a `double` sum: on a single token of cost `2^60` it is
`2^60` again, the cutoff is `2^60` and the token is not expanded. -/
theorem GetCutoff_prunes_tied_best_token :
    ValidConfig exTightOpts ∧ 0 < exTightOpts._beam ∧ exTiedFrontier ≠ [] ∧
    (GetCutoff exTightOpts exTiedFrontier none 0 []).best_tok = some (exTok 0 1) ∧
    (GetCutoff exTightOpts exTiedFrontier none 0 []).cutoff = ((1 : ℚ) : WithTop ℚ) ∧
    ¬ ((((exTok 0 1)._tot_cost + exTightOpts._beam : ℚ) : WithTop ℚ) ≤
        (GetCutoff exTightOpts exTiedFrontier none 0 []).cutoff) ∧
    ¬ ((((exTok 0 1)._tot_cost : ℚ) : WithTop ℚ) <
        (GetCutoff exTightOpts exTiedFrontier none 0 []).cutoff) ∧
    countBelow exTiedFrontier (GetCutoff exTightOpts exTiedFrontier none 0 []).cutoff = 0 ∧
    exFarFrontier ≠ [] ∧
    (GetCutoff exTightOpts exFarFrontier none 0 []).best_tok = some (exTok 0 (2 ^ 60)) ∧
    (GetCutoff exTightOpts exFarFrontier none 0 []).cutoff = ((2 ^ 60 : ℚ) : WithTop ℚ) ∧
    ¬ ((((exTok 0 (2 ^ 60))._tot_cost : ℚ) : WithTop ℚ) <
        (GetCutoff exTightOpts exFarFrontier none 0 []).cutoff) ∧
    countBelow exFarFrontier (GetCutoff exTightOpts exFarFrontier none 0 []).cutoff = 0 := by
  have hM : exTightOpts._max_active.toNat = 2 := rfl
  have hbig : exTightOpts._max_active.toNat < exTiedFrontier.length := by
    rw [hM]; simp [exTiedFrontier]
  have htight : (sortedCosts exTiedFrontier).getD exTightOpts._max_active.toNat 0 <
      toDouble ((sortedCosts exTiedFrontier).getD 0 0 + exTightOpts._beam) := by
    rw [sortedCosts_exTiedFrontier, hM]; norm_num [exTightOpts, toDouble_seventeen]
  have hc := (GetCutoff_cases exTightOpts validConfig_exTightOpts exTiedFrontier
    (by simp [exTiedFrontier]) none 0 []).2
  have hcut : (GetCutoff exTightOpts exTiedFrontier none 0 []).cutoff = ((1 : ℚ) : WithTop ℚ) := by
    rcases hc with h | h | h | h | h
    · exact absurd ⟨h.1, h.2.1⟩ exTightOpts_general
    · rw [h.2.2.2.1, sortedCosts_exTiedFrontier, hM]
      norm_num
    · exact absurd ⟨hbig, htight⟩ h.2.1
    · exact absurd ⟨hbig, htight⟩ h.2.1
    · exact absurd ⟨hbig, htight⟩ h.2.1
  have hbt : (GetCutoff exTightOpts exTiedFrontier none 0 []).best_tok = some (exTok 0 1) := by
    simp [GetCutoff, exTightOpts, exTiedFrontier, exTok, Token.ofArc, Token._tot_cost, scanStep,
      INT_MAX]
    split_ifs <;> rfl
  have hcost : (exTok 0 1)._tot_cost = 1 := rfl
  have hcost2 : (exTok 0 (2 ^ 60))._tot_cost = 2 ^ 60 := rfl
  obtain ⟨hcut2, -, hbt2, -⟩ := GetCutoff_exFarFrontier
  refine ⟨validConfig_exTightOpts, by norm_num [exTightOpts], by simp [exTiedFrontier], hbt,
    hcut, ?_, ?_, ?_, by simp [exFarFrontier], hbt2, hcut2, ?_, ?_⟩
  · rw [hcut, hcost, WithTop.coe_le_coe]; norm_num [exTightOpts]
  · rw [hcut, hcost]; exact lt_irrefl _
  · rw [hcut]
    norm_num [countBelow, exTiedFrontier, exTok, Token.ofArc, Token._tot_cost]
  · rw [hcut2, hcost2]; exact lt_irrefl _
  · rw [hcut2]
    norm_num [countBelow, exFarFrontier, exTok, Token.ofArc, Token._tot_cost]

/-- Claim C13 as amended: for accepted options and a non-empty frontier on which
the beam cutoff, the `double` sum `best_cost + beam`, exceeds `best_cost`,
`GetCutoff` selects a token of least cost, the cutoff is never below
`best_cost`, it is at least the beam cutoff unless the general branch meets more
than `max_active` tokens with entry `max_active` of the sorted costs below the
beam cutoff, and the best token passes the test `tot_cost < cur_cutoff` unless in
that case the entry equals `best_cost` (more than `max_active` tokens tie for
the least cost). -/
theorem GetCutoff_cutoff_ge_best_unless_tied (cfg : CtcFasterDecoderOptions) (toks : TokMap)
    (b0 : Option Token) (s0 : StateId) (tmp0 : List ℚ) (hv : ValidConfig cfg)
    (hne : toks ≠ [])
    (hbeam : (sortedCosts toks).getD 0 0 < toDouble ((sortedCosts toks).getD 0 0 + cfg._beam)) :
    ∃ it ∈ toks, (GetCutoff cfg toks b0 s0 tmp0).best_tok = some it.2 ∧
      (GetCutoff cfg toks b0 s0 tmp0).best_stateid = it.1 ∧
      (∀ it2 ∈ toks, it.2._tot_cost ≤ it2.2._tot_cost) ∧
      (it.2._tot_cost : WithTop ℚ) ≤ (GetCutoff cfg toks b0 s0 tmp0).cutoff ∧
      (((toDouble (it.2._tot_cost + cfg._beam) : ℚ) : WithTop ℚ) ≤
          (GetCutoff cfg toks b0 s0 tmp0).cutoff ↔
        ¬ (¬ (cfg._max_active = INT_MAX ∧ cfg._min_active = 0) ∧
           cfg._max_active.toNat < toks.length ∧
           (sortedCosts toks).getD cfg._max_active.toNat 0 <
             toDouble (it.2._tot_cost + cfg._beam))) ∧
      ((it.2._tot_cost : WithTop ℚ) < (GetCutoff cfg toks b0 s0 tmp0).cutoff ↔
        ¬ (¬ (cfg._max_active = INT_MAX ∧ cfg._min_active = 0) ∧
           cfg._max_active.toNat < toks.length ∧
           (sortedCosts toks).getD cfg._max_active.toNat 0 = it.2._tot_cost)) := by
  obtain ⟨⟨it, hit, hbt, hbs, hz⟩, hc⟩ := GetCutoff_cases cfg hv toks hne b0 s0 tmp0
  have hmin : ∀ it2 ∈ toks, it.2._tot_cost ≤ it2.2._tot_cost := by
    intro it2 hit2
    obtain ⟨k, hk, hx⟩ := List.getElem_of_mem ((sortedCosts_mem toks _).2 ⟨it2, hit2, rfl⟩)
    rw [hz, ← hx, ← List.getD_eq_getElem _ 0 hk]
    exact sorted_getD_le _ (sortedCosts_sorted toks) 0 k (Nat.zero_le _) hk
  have hle : ∀ k, k < toks.length → it.2._tot_cost ≤ (sortedCosts toks).getD k 0 := by
    intro k hk
    rw [hz]
    exact sorted_getD_le _ (sortedCosts_sorted toks) 0 k (Nat.zero_le _)
      (by rw [sortedCosts_length]; exact hk)
  refine ⟨it, hit, hbt, hbs, hmin, ?_⟩
  rw [← hz] at hc hbeam
  rcases hc with h | h | h | h | h
  · rw [h.2.2.1]
    refine ⟨WithTop.coe_le_coe.2 (le_of_lt hbeam), ?_, ?_⟩
    · exact iff_of_true (le_refl _) (fun hh => hh.1 ⟨h.1, h.2.1⟩)
    · exact iff_of_true (WithTop.coe_lt_coe.2 hbeam) (fun hh => hh.1 ⟨h.1, h.2.1⟩)
  · rw [h.2.2.2.1]
    refine ⟨WithTop.coe_le_coe.2 (hle _ h.2.1), ?_, ?_⟩
    · refine iff_of_false ?_ (fun hh => hh ⟨h.1, h.2.1, h.2.2.1⟩)
      rw [WithTop.coe_le_coe]
      exact not_le.2 h.2.2.1
    · rw [WithTop.coe_lt_coe]
      constructor
      · intro hlt hh
        rw [hh.2.2] at hlt
        exact lt_irrefl _ hlt
      · intro hh
        refine lt_of_le_of_ne (hle _ h.2.1) ?_
        intro heq
        exact hh ⟨h.1, h.2.1, heq.symm⟩
  · rw [h.2.2.2.1]
    refine ⟨le_top, ?_, ?_⟩
    · exact iff_of_true le_top (fun hh => h.2.1 ⟨hh.2.1, hh.2.2⟩)
    · refine iff_of_true (WithTop.coe_lt_top _) (fun hh => h.2.1 ⟨hh.2.1, ?_⟩)
      rw [hh.2.2]; exact hbeam
  · rw [h.2.2.2.2.1]
    refine ⟨WithTop.coe_le_coe.2 (hle _ h.2.2.1), ?_, ?_⟩
    · exact iff_of_true (WithTop.coe_le_coe.2 (le_of_lt h.2.2.2.1))
        (fun hh => h.2.1 ⟨hh.2.1, hh.2.2⟩)
    · refine iff_of_true (WithTop.coe_lt_coe.2 (lt_trans hbeam h.2.2.2.1))
        (fun hh => h.2.1 ⟨hh.2.1, ?_⟩)
      rw [hh.2.2]; exact hbeam
  · rw [h.2.2.2.2.1]
    refine ⟨WithTop.coe_le_coe.2 (le_of_lt hbeam), ?_, ?_⟩
    · exact iff_of_true (le_refl _) (fun hh => h.2.1 ⟨hh.2.1, hh.2.2⟩)
    · refine iff_of_true (WithTop.coe_lt_coe.2 hbeam) (fun hh => h.2.1 ⟨hh.2.1, ?_⟩)
      rw [hh.2.2]; exact hbeam

/-- Witness for the amended claim C13: `max_active = 2` on the costs 1, 2, 3. -/
theorem GetCutoff_cutoff_ge_best_unless_tied_witness :
    ValidConfig exTightOpts ∧ exRampFrontier ≠ [] ∧
    (sortedCosts exRampFrontier).getD 0 0 <
      toDouble ((sortedCosts exRampFrontier).getD 0 0 + exTightOpts._beam) ∧
    ∃ it ∈ exRampFrontier, (GetCutoff exTightOpts exRampFrontier none 0 []).best_tok = some it.2 ∧
      (GetCutoff exTightOpts exRampFrontier none 0 []).best_stateid = it.1 ∧
      (∀ it2 ∈ exRampFrontier, it.2._tot_cost ≤ it2.2._tot_cost) ∧
      (it.2._tot_cost : WithTop ℚ) ≤ (GetCutoff exTightOpts exRampFrontier none 0 []).cutoff ∧
      (((toDouble (it.2._tot_cost + exTightOpts._beam) : ℚ) : WithTop ℚ) ≤
          (GetCutoff exTightOpts exRampFrontier none 0 []).cutoff ↔
        ¬ (¬ (exTightOpts._max_active = INT_MAX ∧ exTightOpts._min_active = 0) ∧
           exTightOpts._max_active.toNat < exRampFrontier.length ∧
           (sortedCosts exRampFrontier).getD exTightOpts._max_active.toNat 0 <
             toDouble (it.2._tot_cost + exTightOpts._beam))) ∧
      ((it.2._tot_cost : WithTop ℚ) < (GetCutoff exTightOpts exRampFrontier none 0 []).cutoff ↔
        ¬ (¬ (exTightOpts._max_active = INT_MAX ∧ exTightOpts._min_active = 0) ∧
           exTightOpts._max_active.toNat < exRampFrontier.length ∧
           (sortedCosts exRampFrontier).getD exTightOpts._max_active.toNat 0 =
             it.2._tot_cost)) := by
  have hb : (sortedCosts exRampFrontier).getD 0 0 <
      toDouble ((sortedCosts exRampFrontier).getD 0 0 + exTightOpts._beam) := by
    rw [sortedCosts_exRampFrontier]; norm_num [exTightOpts, toDouble_seventeen]
  exact ⟨validConfig_exTightOpts, by simp [exRampFrontier], hb,
    GetCutoff_cutoff_ge_best_unless_tied exTightOpts exRampFrontier none 0 []
      validConfig_exTightOpts (by simp [exRampFrontier]) hb⟩

/-! ## Replace-if-better keeps the incumbent on ties (claim C16) -/

/-- Effect of the insert-or-replace block at a state that already holds a token. -/
theorem insertOrReplace_incumbent (toks : TokMap) (s : StateId) (new_tok old : Token)
    (hold : findTok toks s = some old) :
    (old._tot_cost ≤ new_tok._tot_cost → insertOrReplace toks s new_tok = (toks, false)) ∧
    (new_tok._tot_cost < old._tot_cost →
      (insertOrReplace toks s new_tok).2 = true ∧
      findTok (insertOrReplace toks s new_tok).1 s = some new_tok) ∧
    ∃ t, findTok (insertOrReplace toks s new_tok).1 s = some t ∧
      t._tot_cost = min old._tot_cost new_tok._tot_cost := by
  have hle : old._tot_cost ≤ new_tok._tot_cost → insertOrReplace toks s new_tok = (toks, false) := by
    intro h
    unfold insertOrReplace
    rw [hold]
    have : old.gt new_tok = false := by
      rw [Bool.eq_false_iff, Ne, Token.gt_iff]; exact not_lt.2 h
    simp [this]
  have hlt : new_tok._tot_cost < old._tot_cost →
      (insertOrReplace toks s new_tok).2 = true ∧
      findTok (insertOrReplace toks s new_tok).1 s = some new_tok := by
    intro h
    have hgt : old.gt new_tok = true := (Token.gt_iff _ _).2 h
    have he : insertOrReplace toks s new_tok = (assignTok toks s new_tok, true) := by
      unfold insertOrReplace
      rw [hold]
      simp [hgt]
    rw [he]
    refine ⟨rfl, ?_⟩
    show findTok (assignTok toks s new_tok) s = some new_tok
    rw [findTok_assignTok, if_pos rfl, hold]
    rfl
  refine ⟨hle, hlt, ?_⟩
  by_cases h : old._tot_cost ≤ new_tok._tot_cost
  · rw [hle h]
    exact ⟨old, hold, (min_eq_left h).symm⟩
  · exact ⟨new_tok, (hlt (not_le.1 h)).2, (min_eq_right (le_of_lt (not_le.1 h))).symm⟩

/-- Claim C16: at both expansion sites a candidate that reaches a state already
holding a token leaves the frontier as it was when the incumbent costs no more
than the candidate (in particular on a tie), replaces the incumbent when the
incumbent costs strictly more, and in either case the state afterwards holds a
token whose cost is the smaller of the two.  `arcE` is an arc followed by
`ProcessEmitting` with a candidate that passed `new_weight < next_weight_cutoff`;
`arcN` is an eps arc followed by `ProcessNonemitting` with a candidate that
passed the cutoff. -/
theorem ties_keep_incumbent (toks : TokMap) (tok : Token)
    (arcE : StdArc) (oldE : Token) (adaptive_beam next : WithTop ℚ) (ac_cost new_weight : ℚ)
    (hE : findTok toks arcE._to = some oldE) (hpass : (new_weight : WithTop ℚ) < next)
    (arcN : StdArc) (oldN : Token) (cutoff : WithTop ℚ) (queue : List StateId)
    (hN : findTok toks arcN._to = some oldN) (heps : arcN._input = 0)
    (hcut : ¬ cutoff < ((Token.ofArc arcN (some tok))._tot_cost : WithTop ℚ)) :
    ((oldE._tot_cost ≤ (Token.new arcE ac_cost (some tok))._tot_cost →
        (propagate adaptive_beam tok arcE ac_cost new_weight (toks, next)).1 = toks) ∧
     ((Token.new arcE ac_cost (some tok))._tot_cost < oldE._tot_cost →
        findTok (propagate adaptive_beam tok arcE ac_cost new_weight (toks, next)).1 arcE._to =
          some (Token.new arcE ac_cost (some tok))) ∧
     ∃ t, findTok (propagate adaptive_beam tok arcE ac_cost new_weight (toks, next)).1 arcE._to =
          some t ∧
        t._tot_cost = min oldE._tot_cost (Token.new arcE ac_cost (some tok))._tot_cost) ∧
    ((oldN._tot_cost ≤ (Token.ofArc arcN (some tok))._tot_cost →
        relaxArc cutoff tok (toks, queue) arcN = (toks, queue)) ∧
     ((Token.ofArc arcN (some tok))._tot_cost < oldN._tot_cost →
        findTok (relaxArc cutoff tok (toks, queue) arcN).1 arcN._to =
          some (Token.ofArc arcN (some tok)) ∧
        (relaxArc cutoff tok (toks, queue) arcN).2 = arcN._to :: queue) ∧
     ∃ t, findTok (relaxArc cutoff tok (toks, queue) arcN).1 arcN._to = some t ∧
        t._tot_cost = min oldN._tot_cost (Token.ofArc arcN (some tok))._tot_cost) := by
  obtain ⟨e1, e2, e3⟩ := insertOrReplace_incumbent toks arcE._to
    (Token.new arcE ac_cost (some tok)) oldE hE
  obtain ⟨n1, n2, n3⟩ := insertOrReplace_incumbent toks arcN._to
    (Token.ofArc arcN (some tok)) oldN hN
  have hP : (propagate adaptive_beam tok arcE ac_cost new_weight (toks, next)).1 =
      (insertOrReplace toks arcE._to (Token.new arcE ac_cost (some tok))).1 := by
    unfold propagate
    rw [if_pos hpass]
  have hR : relaxArc cutoff tok (toks, queue) arcN =
      if (insertOrReplace toks arcN._to (Token.ofArc arcN (some tok))).2 = true then
        ((insertOrReplace toks arcN._to (Token.ofArc arcN (some tok))).1, arcN._to :: queue)
      else ((insertOrReplace toks arcN._to (Token.ofArc arcN (some tok))).1, queue) := by
    unfold relaxArc
    rw [if_pos heps]
    dsimp only
    rw [if_neg hcut]
  refine ⟨⟨?_, ?_, ?_⟩, ⟨?_, ?_, ?_⟩⟩
  · intro h
    rw [hP, e1 h]
  · intro h
    rw [hP]
    exact (e2 h).2
  · rw [hP]
    exact e3
  · intro h
    rw [hR, n1 h]
    rfl
  · intro h
    rw [hR, if_pos (n2 h).1]
    exact ⟨(n2 h).2, rfl⟩
  · have : (relaxArc cutoff tok (toks, queue) arcN).1 =
        (insertOrReplace toks arcN._to (Token.ofArc arcN (some tok))).1 := by
      rw [hR]
      split_ifs <;> rfl
    rw [this]
    exact n3

/-- Witness for claim C16: at state 1, which holds `exFinalTok` of cost 5, a
candidate of cost 5 arrives from `exRoot` along the arc with input 5, weight 1
and acoustic cost 4 (emitting site) and along an eps arc of weight 5
(non-emitting site); both leave the frontier unchanged. -/
theorem ties_keep_incumbent_witness :
    findTok [(1, exFinalTok)] (⟨5, 7, 1, 1⟩ : StdArc)._to = some exFinalTok ∧
    ((5 : ℚ) : WithTop ℚ) < ⊤ ∧
    (⟨0, 0, 1, 5⟩ : StdArc)._input = 0 ∧
    (Token.new ⟨5, 7, 1, 1⟩ 4 (some exRoot))._tot_cost = exFinalTok._tot_cost ∧
    (Token.ofArc ⟨0, 0, 1, 5⟩ (some exRoot))._tot_cost = exFinalTok._tot_cost ∧
    (propagate 16 exRoot ⟨5, 7, 1, 1⟩ 4 5 ([(1, exFinalTok)], ⊤)).1 = [(1, exFinalTok)] ∧
    relaxArc ⊤ exRoot ([(1, exFinalTok)], []) ⟨0, 0, 1, 5⟩ = ([(1, exFinalTok)], []) := by
  have hf : findTok [(1, exFinalTok)] (1 : StateId) = some exFinalTok := by
    simp [findTok]
  have hcE : (Token.new ⟨5, 7, 1, 1⟩ 4 (some exRoot))._tot_cost = exFinalTok._tot_cost := rfl
  have hcN : (Token.ofArc ⟨0, 0, 1, 5⟩ (some exRoot))._tot_cost = exFinalTok._tot_cost := by
    norm_num [Token.ofArc, Token._tot_cost, exFinalTok, exRoot, Token.new]
  have h := ties_keep_incumbent [(1, exFinalTok)] exRoot ⟨5, 7, 1, 1⟩ exFinalTok 16 ⊤ 4 5 hf
    (WithTop.coe_lt_top _) ⟨0, 0, 1, 5⟩ exFinalTok ⊤ [] hf rfl not_top_lt
  exact ⟨hf, WithTop.coe_lt_top _, rfl, hcE, hcN, h.1.1 (le_of_eq hcE.symm),
    h.2.1 (le_of_eq hcN.symm)⟩

/-! ## The frontier returned by `ProcessNonemitting` (claim C14) -/

/-- The worklist loop only returns with an empty worklist. -/
theorem closureLoop_ok_queue (g : Fst) (cutoff : WithTop ℚ) (fuel : Nat) :
    ∀ (toks : TokMap) (queue : List StateId) (r : TokMap × List StateId),
      closureLoop g cutoff fuel toks queue = .ok r → r.2 = [] := by
  induction fuel with
  | zero =>
    intro toks queue r h
    cases queue with
    | nil =>
      rw [closureLoop_nil] at h
      cases h
      rfl
    | cons s rest => simp [closureLoop] at h
  | succ fuel ih =>
    intro toks queue r h
    cases queue with
    | nil =>
      rw [closureLoop_nil] at h
      cases h
      rfl
    | cons s rest =>
      rw [closureLoop_succ] at h
      cases hf : findTok toks s with
      | none => rw [hf] at h; cases h
      | some tok =>
        rw [hf] at h
        dsimp only at h
        by_cases hc : cutoff < (tok._tot_cost : WithTop ℚ)
        · rw [if_pos hc] at h
          exact ih _ _ _ h
        · rw [if_neg hc] at h
          by_cases hk : s = tok._arc._to
          · rw [if_pos hk] at h
            exact ih _ _ _ h
          · rw [if_neg hk] at h
            cases h

theorem ProcessNonemitting_exLoopGraph :
    ProcessNonemitting exLoopGraph (FLT_MAX : WithTop ℚ) 1 exInitDecoder = .ok exInitDecoder := by
  norm_num [ProcessNonemitting, exInitDecoder, exRoot, seedQueue,
    closureLoop, findTok, exLoopGraph, Token.ofArc, Token._tot_cost, Token._arc, FLT_MAX,
    Fst.arcs, toUnsigned, relaxArc, insertOrReplace, Token.gt]

/-- Claim C14: when `ProcessNonemitting(cutoff)` returns, the worklist is empty
and the frontier is closed under eps arcs within the cutoff: if state `s` holds
a token `t` with `t.tot_cost <= cutoff` and an arc out of `s` has input label 0
and `t.tot_cost + w <= cutoff`, then the destination of the arc holds a token
whose cost is at most `t.tot_cost + w`. -/
theorem ProcessNonemitting_closed (g : Fst) (cutoff : WithTop ℚ) (fuel : Nat) (d d2 : Decoder)
    (h : ProcessNonemitting g cutoff fuel d = .ok d2) :
    d2._queue = [] ∧
    ∀ s t, findTok d2._cur_toks s = some t → (t._tot_cost : WithTop ℚ) ≤ cutoff →
      ∀ a ∈ g.arcs s, a._input = 0 → ((t._tot_cost + a._w : ℚ) : WithTop ℚ) ≤ cutoff →
        ∃ t2, findTok d2._cur_toks a._to = some t2 ∧ t2._tot_cost ≤ t._tot_cost + a._w := by
  unfold ProcessNonemitting at h
  by_cases hq : d._queue ≠ []
  · rw [if_pos hq] at h
    cases h
  · rw [if_neg hq] at h
    cases hc : closureLoop g cutoff fuel d._cur_toks (seedQueue d._cur_toks d._queue) with
    | error e => rw [hc] at h; cases h
    | ok r =>
      rw [hc] at h
      have hd2 : d2 = { d with _cur_toks := r.1, _queue := r.2 } := by
        injection h with h
        exact h.symm
      have hnil := closureLoop_ok_queue g cutoff fuel _ _ r hc
      obtain ⟨hclosed, -⟩ := closureLoop_closed g cutoff fuel _ _ r
        (epsClosed_seed g cutoff d._cur_toks d._queue) hc
      rw [hd2]
      refine ⟨hnil, ?_⟩
      intro s t hf ht a ha h0 hw
      rcases hclosed s t hf (not_lt.2 ht) with hmem | hall
      · exact absurd hmem (List.not_mem_nil _)
      · exact hall a ha h0 (not_lt.2 hw)

/-- Witness for claim C14: the root token on the graph with an eps self-loop. -/
theorem ProcessNonemitting_closed_witness :
    ProcessNonemitting exLoopGraph (FLT_MAX : WithTop ℚ) 1 exInitDecoder = .ok exInitDecoder ∧
    exInitDecoder._queue = [] ∧
    ∀ s t, findTok exInitDecoder._cur_toks s = some t →
      (t._tot_cost : WithTop ℚ) ≤ (FLT_MAX : WithTop ℚ) →
      ∀ a ∈ exLoopGraph.arcs s, a._input = 0 →
        ((t._tot_cost + a._w : ℚ) : WithTop ℚ) ≤ (FLT_MAX : WithTop ℚ) →
        ∃ t2, findTok exInitDecoder._cur_toks a._to = some t2 ∧
          t2._tot_cost ≤ t._tot_cost + a._w :=
  ⟨ProcessNonemitting_exLoopGraph,
    ProcessNonemitting_closed exLoopGraph (FLT_MAX : WithTop ℚ) 1 exInitDecoder exInitDecoder
      ProcessNonemitting_exLoopGraph⟩

/-! ## Termination of `ProcessNonemitting` on every frontier (claim C15) -/

/-- Relaxing one arc keeps every cost reachable and makes progress, whatever
the keys of the frontier and the contents of the worklist are. -/
theorem relaxArc_reach (g : Fst) (toks0 : TokMap) (V : List StateId) (K D : Nat) (hD : 0 < D)
    (hF : ∀ v x, Reach g toks0 v x → v ∈ V ∧ OnGrid D x ∧ -(K : ℚ) ≤ x)
    (cutoff : WithTop ℚ) (s : StateId) (tok : Token) (hreach : Reach g toks0 s tok._tot_cost)
    (arc : StdArc) (harc : arc ∈ g.arcs s) (st : TokMap × List StateId)
    (hr : ∀ it ∈ st.1, Reach g toks0 it.1 it.2._tot_cost) :
    (∀ it ∈ (relaxArc cutoff tok st arc).1, Reach g toks0 it.1 it.2._tot_cost) ∧
    Progress V K D st (relaxArc cutoff tok st arc) := by
  unfold relaxArc
  by_cases h0 : arc._input = 0
  · rw [if_pos h0]
    dsimp only
    by_cases hc : cutoff < ((Token.ofArc arc (some tok))._tot_cost : WithTop ℚ)
    · rw [if_pos hc]
      exact ⟨hr, progress_refl _ _ _ _⟩
    · rw [if_neg hc]
      have hnew : Reach g toks0 arc._to (Token.ofArc arc (some tok))._tot_cost :=
        reach_step g toks0 s _ arc hreach harc h0
      unfold insertOrReplace
      cases hf : findTok st.1 arc._to with
      | none =>
        dsimp only
        rw [if_pos rfl]
        refine ⟨?_, Or.inl ?_⟩
        · intro it hit
          rcases List.mem_append.1 hit with h | h
          · exact hr it h
          · rw [List.mem_singleton.1 h]; exact hnew
        · exact freeStates_append_lt V st.1 arc._to _ (hF _ _ hnew).1 hf
      | some old =>
        dsimp only
        by_cases hgt : old.gt (Token.ofArc arc (some tok)) = true
        · rw [if_pos hgt]
          dsimp only
          rw [if_pos rfl]
          have hold : Reach g toks0 arc._to old._tot_cost := hr _ (findTok_mem _ _ _ hf)
          refine ⟨?_, Or.inr (Or.inl ⟨?_, ?_⟩)⟩
          · intro it hit
            rcases mem_assignTok _ _ _ _ hit with h | h
            · exact hr it h
            · rw [h]; exact hnew
          · exact freeStates_assignTok V st.1 _ _
          · exact rankSum_assignTok_lt K D st.1 _ old _ hf
              (costRank_lt K D hD _ _ (hF _ _ hnew).2.1 (hF _ _ hold).2.1 (hF _ _ hnew).2.2
                ((Token.gt_iff _ _).1 hgt))
        · rw [if_neg hgt]
          dsimp only
          rw [if_neg (by simp)]
          exact ⟨hr, progress_refl _ _ _ _⟩
  · rw [if_neg h0]
    exact ⟨hr, progress_refl _ _ _ _⟩

theorem relaxArcs_reach (g : Fst) (toks0 : TokMap) (V : List StateId) (K D : Nat) (hD : 0 < D)
    (hF : ∀ v x, Reach g toks0 v x → v ∈ V ∧ OnGrid D x ∧ -(K : ℚ) ≤ x)
    (cutoff : WithTop ℚ) (s : StateId) (tok : Token) (hreach : Reach g toks0 s tok._tot_cost)
    (arcs : List StdArc) (harcs : ∀ a ∈ arcs, a ∈ g.arcs s) (st : TokMap × List StateId)
    (hr : ∀ it ∈ st.1, Reach g toks0 it.1 it.2._tot_cost) :
    (∀ it ∈ (arcs.foldl (relaxArc cutoff tok) st).1, Reach g toks0 it.1 it.2._tot_cost) ∧
    Progress V K D st (arcs.foldl (relaxArc cutoff tok) st) := by
  induction arcs generalizing st with
  | nil => exact ⟨hr, progress_refl _ _ _ _⟩
  | cons a l ih =>
    rw [List.foldl_cons]
    obtain ⟨h1, h2⟩ := relaxArc_reach g toks0 V K D hD hF cutoff s tok hreach a
      (harcs a (List.mem_cons_self _ _)) st hr
    obtain ⟨h3, h4⟩ := ih (fun b hb => harcs b (List.mem_cons_of_mem _ hb)) _ h1
    exact ⟨h3, progress_trans _ _ _ _ _ _ h2 h4⟩

/-- From every frontier and every worklist the loop stops after finitely many
iterations: it returns, or it meets a failing assertion or a missing token. -/
theorem closureLoop_halts_aux (g : Fst) (toks0 : TokMap) (V : List StateId) (K D : Nat)
    (hD : 0 < D) (hF : ∀ v x, Reach g toks0 v x → v ∈ V ∧ OnGrid D x ∧ -(K : ℚ) ≤ x)
    (cutoff : WithTop ℚ) :
    ∀ (a b q : Nat) (toks : TokMap) (queue : List StateId),
      freeStates V toks = a → rankSum K D toks = b → queue.length = q →
      (∀ it ∈ toks, Reach g toks0 it.1 it.2._tot_cost) →
      ∃ fuel, closureLoop g cutoff fuel toks queue ≠ .error .fuel := by
  intro a
  induction a using Nat.strong_induction_on with
  | _ a iha =>
    intro b
    induction b using Nat.strong_induction_on with
    | _ b ihb =>
      intro q
      induction q with
      | zero =>
        intro toks queue _ _ hq _
        have : queue = [] := List.length_eq_zero.1 hq
        subst this
        exact ⟨0, by rw [closureLoop_nil]; exact fun h => by cases h⟩
      | succ q ihq =>
        intro toks queue ha hb hq hr
        cases queue with
        | nil => simp at hq
        | cons s rest =>
          have hlen : rest.length = q := by simpa using hq
          cases hf : findTok toks s with
          | none =>
            refine ⟨1, ?_⟩
            rw [closureLoop_succ, hf]
            exact fun h => by cases h
          | some tok =>
            have hmem := findTok_mem toks s tok hf
            by_cases hc : cutoff < (tok._tot_cost : WithTop ℚ)
            · obtain ⟨fuel, h1⟩ := ihq toks rest ha hb hlen hr
              refine ⟨fuel + 1, ?_⟩
              rw [closureLoop_succ, hf]
              dsimp only
              rw [if_pos hc]
              exact h1
            · by_cases hk : s = tok._arc._to
              · obtain ⟨hr2, hprog⟩ := relaxArcs_reach g toks0 V K D hD hF cutoff s tok
                  (hr _ hmem) (g.arcs s) (fun _ h => h) (toks, rest) hr
                have hgoal : ∃ fuel,
                    closureLoop g cutoff fuel
                      ((g.arcs s).foldl (relaxArc cutoff tok) (toks, rest)).1
                      ((g.arcs s).foldl (relaxArc cutoff tok) (toks, rest)).2 ≠ .error .fuel := by
                  rcases hprog with h | ⟨h1, h2⟩ | h
                  · exact iha _ (by rw [← ha]; exact h) _ _ _ _ rfl rfl rfl hr2
                  · exact ihb _ (by rw [← hb]; exact h2) _ _ _ (by rw [h1]; exact ha) rfl rfl hr2
                  · rw [h]
                    exact ihq toks rest ha hb hlen hr
                obtain ⟨fuel, h1⟩ := hgoal
                refine ⟨fuel + 1, ?_⟩
                rw [closureLoop_succ, hf]
                dsimp only
                rw [if_neg hc, if_pos hk]
                exact h1
              · refine ⟨1, ?_⟩
                rw [closureLoop_succ, hf]
                dsimp only
                rw [if_neg hc, if_neg hk]
                exact fun h => by cases h

/-- More fuel does not change an outcome other than running out of fuel. -/
theorem closureLoop_mono_halt (g : Fst) (cutoff : WithTop ℚ) (fuel : Nat) :
    ∀ (toks : TokMap) (queue : List StateId) (k : Nat),
      closureLoop g cutoff fuel toks queue ≠ .error .fuel →
      closureLoop g cutoff (fuel + k) toks queue = closureLoop g cutoff fuel toks queue := by
  induction fuel with
  | zero =>
    intro toks queue k h
    cases queue with
    | nil => rw [closureLoop_nil, closureLoop_nil]
    | cons s rest => exact absurd rfl h
  | succ fuel ih =>
    intro toks queue k h
    cases queue with
    | nil => rw [closureLoop_nil, closureLoop_nil]
    | cons s rest =>
      rw [show fuel + 1 + k = (fuel + k) + 1 by omega, closureLoop_succ, closureLoop_succ]
      rw [closureLoop_succ] at h
      cases hf : findTok toks s with
      | none => rfl
      | some tok =>
        rw [hf] at h
        dsimp only at h ⊢
        by_cases hc : cutoff < (tok._tot_cost : WithTop ℚ)
        · simp only [if_pos hc] at h ⊢
          exact ih _ _ _ h
        · simp only [if_neg hc] at h ⊢
          by_cases hk : s = tok._arc._to
          · simp only [if_pos hk] at h ⊢
            exact ih _ _ _ h
          · simp only [if_neg hk]

/-- The worklist loop stops on every frontier and every worklist: from some fuel
on its outcome is fixed and is not the exhaustion of the fuel. -/
theorem closureLoop_halts (g : Fst) (hR : ArcsInRange g) (hN : NoNegEpsCycle g)
    (cutoff : WithTop ℚ) (toks : TokMap) (queue : List StateId) :
    ∃ (F : Nat) (r : Except Err (TokMap × List StateId)), r ≠ .error .fuel ∧
      ∀ fuel, F ≤ fuel → closureLoop g cutoff fuel toks queue = r := by
  obtain ⟨K, D, hD, hF⟩ := reach_facts g hR hN toks
  obtain ⟨F, h1⟩ := closureLoop_halts_aux g toks (stateUniverse g toks) K D hD hF
    cutoff _ _ _ toks queue rfl rfl rfl (fun it hit => reach_self g toks it hit)
  refine ⟨F, _, h1, ?_⟩
  intro fuel hfuel
  obtain ⟨k, rfl⟩ := Nat.exists_eq_add_of_le hfuel
  exact closureLoop_mono_halt g cutoff F _ _ k h1

/-- Claim C15: on a graph whose arcs stay in range (a finite graph) and whose
eps arcs admit no negative-weight cycle, `ProcessNonemitting` terminates for
every decoder state and every cutoff: from some fuel on its outcome is fixed
and is not the exhaustion of the fuel.  When moreover the worklist is empty on
entry and the tokens are stored under the destinations of their arcs, as in
every state the decoder reaches, that outcome is a normal return with an empty
worklist. -/
theorem ProcessNonemitting_halts (g : Fst) (hR : ArcsInRange g) (hN : NoNegEpsCycle g)
    (cutoff : WithTop ℚ) (d : Decoder) :
    (∃ (F : Nat) (r : Except Err Decoder), r ≠ .error .fuel ∧
      ∀ fuel, F ≤ fuel → ProcessNonemitting g cutoff fuel d = r) ∧
    (d._queue = [] → KeyOK d._cur_toks →
      ∃ (F : Nat) (d2 : Decoder), d2._queue = [] ∧
        ∀ fuel, F ≤ fuel → ProcessNonemitting g cutoff fuel d = .ok d2) := by
  constructor
  · by_cases hq : d._queue ≠ []
    · refine ⟨0, .error .assertion, (fun h => by cases h), ?_⟩
      intro fuel _
      unfold ProcessNonemitting
      rw [if_pos hq]
    · obtain ⟨F, r, hr, h⟩ := closureLoop_halts g hR hN cutoff d._cur_toks
        (seedQueue d._cur_toks d._queue)
      cases r with
      | error e =>
        refine ⟨F, .error e, ?_, ?_⟩
        · intro he
          apply hr
          injection he with he
          rw [he]
        · intro fuel hfuel
          unfold ProcessNonemitting
          rw [if_neg hq, h fuel hfuel]
      | ok st =>
        refine ⟨F, .ok { d with _cur_toks := st.1, _queue := st.2 }, (fun he => by cases he), ?_⟩
        intro fuel hfuel
        unfold ProcessNonemitting
        rw [if_neg hq, h fuel hfuel]
  · intro hq hkey
    obtain ⟨F, toks2, -, -, h⟩ := ProcessNonemitting_terminates g hR hN cutoff d hq hkey
    exact ⟨F, { d with _cur_toks := toks2, _queue := [] }, rfl, h⟩

/-- Witness for claim C15: the graph whose start state carries an eps self-loop
of weight 0.01, entered with the root token. -/
theorem ProcessNonemitting_halts_witness :
    ArcsInRange exLoopGraph ∧ NoNegEpsCycle exLoopGraph ∧
    exInitDecoder._queue = [] ∧ KeyOK exInitDecoder._cur_toks ∧
    (⟨0, 0, 0, 1 / 100⟩ : StdArc) ∈ exLoopGraph.arcs 0 ∧
    ∃ (F : Nat) (d2 : Decoder), d2._queue = [] ∧
      ∀ fuel, F ≤ fuel →
        ProcessNonemitting exLoopGraph (FLT_MAX : WithTop ℚ) fuel exInitDecoder = .ok d2 := by
  have hkey : KeyOK exInitDecoder._cur_toks := by
    intro it hit
    simp only [exInitDecoder, List.mem_singleton] at hit
    rw [hit]
    rfl
  exact ⟨exLoopGraph_arcsInRange, exLoopGraph_noNegEpsCycle, rfl, hkey,
    by simp [exLoopGraph, Fst.arcs, toUnsigned],
    (ProcessNonemitting_halts exLoopGraph exLoopGraph_arcsInRange exLoopGraph_noNegEpsCycle
      (FLT_MAX : WithTop ℚ) exInitDecoder).2 rfl hkey⟩

/-! ## Properties of the entries kept by the expansion loops -/

/-- The insert-or-replace block keeps a property of the entries of the frontier
that the new entry has. -/
theorem insertOrReplace_all (P : StateId × Token → Prop) (toks : TokMap) (s : StateId)
    (t : Token) (h : ∀ it ∈ toks, P it) (hnew : P (s, t)) :
    ∀ it ∈ (insertOrReplace toks s t).1, P it := by
  unfold insertOrReplace
  cases findTok toks s with
  | none =>
    intro it hit
    rcases List.mem_append.1 hit with h1 | h1
    · exact h it h1
    · rw [List.mem_singleton.1 h1]; exact hnew
  | some old =>
    dsimp only
    split
    · intro it hit
      rcases mem_assignTok _ _ _ _ hit with h1 | h1
      · exact h it h1
      · rw [h1]; exact hnew
    · exact h

theorem relaxArc_all (P : StateId × Token → Prop) (cutoff : WithTop ℚ) (tok : Token)
    (st : TokMap × List StateId) (arc : StdArc)
    (hnew : arc._input = 0 → P (arc._to, Token.ofArc arc (some tok)))
    (h : ∀ it ∈ st.1, P it) :
    ∀ it ∈ (relaxArc cutoff tok st arc).1, P it := by
  unfold relaxArc
  by_cases h0 : arc._input = 0
  · rw [if_pos h0]
    dsimp only
    by_cases hc : cutoff < ((Token.ofArc arc (some tok))._tot_cost : WithTop ℚ)
    · rw [if_pos hc]; exact h
    · rw [if_neg hc]
      have := insertOrReplace_all P st.1 arc._to _ h (hnew h0)
      split <;> exact this
  · rw [if_neg h0]; exact h

theorem relaxArcs_all (P : StateId × Token → Prop) (cutoff : WithTop ℚ) (tok : Token)
    (arcs : List StdArc) (st : TokMap × List StateId)
    (hnew : ∀ a ∈ arcs, a._input = 0 → P (a._to, Token.ofArc a (some tok)))
    (h : ∀ it ∈ st.1, P it) :
    ∀ it ∈ (arcs.foldl (relaxArc cutoff tok) st).1, P it := by
  induction arcs generalizing st with
  | nil => exact h
  | cons a l ih =>
    rw [List.foldl_cons]
    exact ih _ (fun b hb => hnew b (List.mem_cons_of_mem _ hb))
      (relaxArc_all P cutoff tok st a (hnew a (List.mem_cons_self _ _)) h)

/-- Relaxing an arc keeps a property of the states on the worklist that the
destinations of the eps arcs have. -/
theorem relaxArc_queue_all (Q : StateId → Prop) (cutoff : WithTop ℚ) (tok : Token)
    (st : TokMap × List StateId) (arc : StdArc) (hnew : arc._input = 0 → Q arc._to)
    (h : ∀ v ∈ st.2, Q v) :
    ∀ v ∈ (relaxArc cutoff tok st arc).2, Q v := by
  unfold relaxArc
  by_cases h0 : arc._input = 0
  · rw [if_pos h0]
    dsimp only
    by_cases hc : cutoff < ((Token.ofArc arc (some tok))._tot_cost : WithTop ℚ)
    · rw [if_pos hc]; exact h
    · rw [if_neg hc]
      split
      · intro v hv
        rcases List.mem_cons.1 hv with rfl | hv
        · exact hnew h0
        · exact h v hv
      · exact h
  · rw [if_neg h0]; exact h

theorem relaxArcs_queue_all (Q : StateId → Prop) (cutoff : WithTop ℚ) (tok : Token)
    (arcs : List StdArc) (st : TokMap × List StateId)
    (hnew : ∀ a ∈ arcs, a._input = 0 → Q a._to) (h : ∀ v ∈ st.2, Q v) :
    ∀ v ∈ (arcs.foldl (relaxArc cutoff tok) st).2, Q v := by
  induction arcs generalizing st with
  | nil => exact h
  | cons a l ih =>
    rw [List.foldl_cons]
    exact ih _ (fun b hb => hnew b (List.mem_cons_of_mem _ hb))
      (relaxArc_queue_all Q cutoff tok st a (hnew a (List.mem_cons_self _ _)) h)

/-- Relaxing an arc keeps every state on the worklist a key of the frontier. -/
theorem relaxArc_queue_some (cutoff : WithTop ℚ) (tok : Token) (st : TokMap × List StateId)
    (arc : StdArc) (h : ∀ v ∈ st.2, (findTok st.1 v).isSome = true) :
    ∀ v ∈ (relaxArc cutoff tok st arc).2, (findTok (relaxArc cutoff tok st arc).1 v).isSome = true := by
  unfold relaxArc
  by_cases h0 : arc._input = 0
  · rw [if_pos h0]
    dsimp only
    by_cases hc : cutoff < ((Token.ofArc arc (some tok))._tot_cost : WithTop ℚ)
    · rw [if_pos hc]; exact h
    · rw [if_neg hc]
      have hkeep : ∀ v, (findTok st.1 v).isSome = true →
          (findTok (insertOrReplace st.1 arc._to (Token.ofArc arc (some tok))).1 v).isSome = true := by
        intro v hv
        rw [findTok_insertOrReplace]
        split
        · rfl
        · exact hv
      by_cases hflag : (insertOrReplace st.1 arc._to (Token.ofArc arc (some tok))).2 = true
      · rw [if_pos hflag]
        intro v hv
        rcases List.mem_cons.1 hv with rfl | hv
        · show (findTok (insertOrReplace st.1 arc._to (Token.ofArc arc (some tok))).1 arc._to).isSome
            = true
          rw [findTok_insertOrReplace, if_pos ⟨rfl, hflag⟩]
          rfl
        · exact hkeep v (h v hv)
      · rw [if_neg hflag]
        intro v hv
        exact hkeep v (h v hv)
  · rw [if_neg h0]; exact h

theorem relaxArcs_queue_some (cutoff : WithTop ℚ) (tok : Token) (arcs : List StdArc)
    (st : TokMap × List StateId) (h : ∀ v ∈ st.2, (findTok st.1 v).isSome = true) :
    ∀ v ∈ (arcs.foldl (relaxArc cutoff tok) st).2,
      (findTok (arcs.foldl (relaxArc cutoff tok) st).1 v).isSome = true := by
  induction arcs generalizing st with
  | nil => exact h
  | cons a l ih =>
    rw [List.foldl_cons]
    exact ih _ (relaxArc_queue_some cutoff tok st a h)

/-- Whenever the worklist loop returns, a property of the entries of the
frontier that is passed on along eps arcs still holds. -/
theorem closureLoop_all (g : Fst) (cutoff : WithTop ℚ) (P : StateId × Token → Prop)
    (hP : ∀ s tok a, P (s, tok) → a ∈ g.arcs s → a._input = 0 →
      P (a._to, Token.ofArc a (some tok)))
    (fuel : Nat) :
    ∀ (toks : TokMap) (queue : List StateId) (r : TokMap × List StateId),
      (∀ it ∈ toks, P it) → closureLoop g cutoff fuel toks queue = .ok r →
      ∀ it ∈ r.1, P it := by
  induction fuel with
  | zero =>
    intro toks queue r hall h
    cases queue with
    | nil =>
      rw [closureLoop_nil] at h
      cases h
      exact hall
    | cons s rest => simp [closureLoop] at h
  | succ fuel ih =>
    intro toks queue r hall h
    cases queue with
    | nil =>
      rw [closureLoop_nil] at h
      cases h
      exact hall
    | cons s rest =>
      rw [closureLoop_succ] at h
      cases hf : findTok toks s with
      | none => rw [hf] at h; cases h
      | some tok =>
        rw [hf] at h
        dsimp only at h
        by_cases hc : cutoff < (tok._tot_cost : WithTop ℚ)
        · rw [if_pos hc] at h
          exact ih _ _ _ hall h
        · rw [if_neg hc] at h
          by_cases hk : s = tok._arc._to
          · rw [if_pos hk] at h
            refine ih _ _ _ ?_ h
            exact relaxArcs_all P cutoff tok (g.arcs s) (toks, rest)
              (fun a ha h0 => hP s tok a (hall _ (findTok_mem _ _ _ hf)) ha h0) hall
          · rw [if_neg hk] at h
            cases h

/-- On a frontier stored under the destinations of its arcs and a worklist of
keys, the worklist loop meets neither a failing assertion nor a missing token:
it returns a frontier of the same kind or it runs out of fuel. -/
theorem closureLoop_safe (g : Fst) (cutoff : WithTop ℚ) (fuel : Nat) :
    ∀ (toks : TokMap) (queue : List StateId), KeyOK toks →
      (∀ s ∈ queue, (findTok toks s).isSome = true) →
      closureLoop g cutoff fuel toks queue = .error .fuel ∨
      ∃ toks2, closureLoop g cutoff fuel toks queue = .ok (toks2, []) ∧ KeyOK toks2 := by
  induction fuel with
  | zero =>
    intro toks queue hkey _
    cases queue with
    | nil => exact Or.inr ⟨toks, closureLoop_nil _ _ _ _, hkey⟩
    | cons s rest => exact Or.inl rfl
  | succ fuel ih =>
    intro toks queue hkey hq
    cases queue with
    | nil => exact Or.inr ⟨toks, closureLoop_nil _ _ _ _, hkey⟩
    | cons s rest =>
      rw [closureLoop_succ]
      have hsome := hq s (List.mem_cons_self _ _)
      cases hf : findTok toks s with
      | none => rw [hf] at hsome; cases hsome
      | some tok =>
        dsimp only
        have hrest : ∀ v ∈ rest, (findTok toks v).isSome = true :=
          fun v hv => hq v (List.mem_cons_of_mem _ hv)
        by_cases hc : cutoff < (tok._tot_cost : WithTop ℚ)
        · rw [if_pos hc]
          exact ih toks rest hkey hrest
        · rw [if_neg hc, if_pos (hkey _ (findTok_mem _ _ _ hf)).symm]
          refine ih _ _ ?_ ?_
          · exact relaxArcs_all (fun it => it.2._arc._to = it.1) cutoff tok (g.arcs s) (toks, rest)
              (fun a _ _ => rfl) hkey
          · exact relaxArcs_queue_some cutoff tok (g.arcs s) (toks, rest) hrest

/-! ## The key invariant in every reachable state (claim C17) -/

/-- On a decoder with an empty worklist whose tokens are stored under the
destinations of their arcs, `ProcessNonemitting` passes all its assertions. -/
theorem ProcessNonemitting_safe (g : Fst) (cutoff : WithTop ℚ) (fuel : Nat) (d : Decoder)
    (hq : d._queue = []) (hkey : KeyOK d._cur_toks) :
    ProcessNonemitting g cutoff fuel d = .error .fuel ∨
    ∃ toks2, ProcessNonemitting g cutoff fuel d = .ok { d with _cur_toks := toks2, _queue := [] } ∧
      KeyOK toks2 := by
  have hseed : ∀ s ∈ seedQueue d._cur_toks d._queue, (findTok d._cur_toks s).isSome = true := by
    intro s hs
    rcases seedQueue_mem _ _ _ hs with h | ⟨it, hit, he⟩
    · rw [hq] at h; exact absurd h (List.not_mem_nil _)
    · rw [← he]; exact findTok_isSome_of_mem _ _ it.2 hit
  unfold ProcessNonemitting
  rw [if_neg (by simp [hq])]
  rcases closureLoop_safe g cutoff fuel d._cur_toks _ hkey hseed with h | ⟨toks2, h, hk⟩
  · rw [h]; exact Or.inl rfl
  · rw [h]; exact Or.inr ⟨toks2, rfl, hk⟩

/-- One frame from a decoder state between two calls passes all assertions. -/
theorem advanceFrame_safe (g : Fst) (cfg : CtcFasterDecoderOptions) (o : AmInterface)
    (fuel : Nat) (d : Decoder) (hd : Ready d) :
    advanceFrame g cfg o fuel d = .error .fuel ∨
    ∃ d2, advanceFrame g cfg o fuel d = .ok d2 ∧ Ready d2 := by
  obtain ⟨hnum, hq, hkey⟩ := hd
  unfold advanceFrame
  by_cases hs : o.SkipBlockFrame d._num_frames_decoded = true
  · rw [if_pos hs]
    exact Or.inr ⟨_, rfl, by show (0 : Int) ≤ d._num_frames_decoded + 1; omega, hq, hkey⟩
  · rw [if_neg hs]
    obtain ⟨c, d1, h1, hn1, hq1, -, hk1⟩ := ProcessEmitting_ok g cfg o d hkey
    rw [h1]
    dsimp only
    rcases ProcessNonemitting_safe g c fuel d1 (by rw [hq1, hq]) hk1 with h | ⟨toks2, h, hk⟩
    · exact Or.inl h
    · refine Or.inr ⟨_, h, ?_, rfl, hk⟩
      show (0 : Int) ≤ d1._num_frames_decoded
      omega

theorem advanceLoop_safe (g : Fst) (cfg : CtcFasterDecoderOptions) (o : AmInterface)
    (fuel : Nat) (target : Int) (n : Nat) :
    ∀ d, Ready d →
      advanceLoop g cfg o fuel target n d = .error .fuel ∨
      ∃ d2, advanceLoop g cfg o fuel target n d = .ok d2 ∧ Ready d2 := by
  induction n with
  | zero =>
    intro d hd
    unfold advanceLoop
    split
    · exact Or.inl rfl
    · exact Or.inr ⟨d, rfl, hd⟩
  | succ n ih =>
    intro d hd
    unfold advanceLoop
    split
    · dsimp only
      rcases advanceFrame_safe g cfg o fuel d hd with h | ⟨d1, h, hd1⟩
      · rw [h]; exact Or.inl rfl
      · rw [h]; exact ih d1 hd1
    · exact Or.inr ⟨d, rfl, hd⟩

/-- Every reachable decoder state is a state between two calls: initialised,
worklist empty, tokens stored under the destinations of their arcs. -/
theorem reachable_ready (g : Fst) (cfg : CtcFasterDecoderOptions) (d : Decoder)
    (h : Reachable g cfg d) : Ready d := by
  induction h with
  | init fuel d0 d hinit =>
    unfold InitDecoding at hinit
    dsimp only at hinit
    by_cases hq : d0._queue = []
    · have hkey : KeyOK [(g.Start, Token.ofArc ⟨0, 0, g.Start, 0⟩ none)] := by
        intro it hit
        rw [List.mem_singleton.1 hit]
        rfl
      rcases ProcessNonemitting_safe g (FLT_MAX : WithTop ℚ) fuel
        { d0 with _cur_toks := [(g.Start, Token.ofArc ⟨0, 0, g.Start, 0⟩ none)],
                  _prev_toks := [], _num_frames_decoded := 0 } hq hkey with h | ⟨toks2, h, hk⟩
      · rw [h] at hinit; cases hinit
      · rw [h] at hinit
        injection hinit with hinit
        rw [← hinit]
        exact ⟨le_refl _, rfl, hk⟩
    · unfold ProcessNonemitting at hinit
      rw [if_pos hq] at hinit
      cases hinit
  | advance o max_num_frames fuel d d2 _ hadv ih =>
    unfold AdvanceDecoding at hadv
    split at hadv
    · cases hadv
    · dsimp only at hadv
      split at hadv
      · cases hadv
      · rcases advanceLoop_safe g cfg o fuel (targetFrames o max_num_frames d) fuel d ih with
          h | ⟨d3, h, hd3⟩
        · rw [h] at hadv; cases hadv
        · rw [h] at hadv
          injection hadv with hadv
          rw [← hadv]
          exact hd3

/-- Claim C17: in every decoder state reachable from `InitDecoding` by calls of
`AdvanceDecoding`, every entry `(s, t)` of `cur_toks` has `t.arc.dest = s`;
hence on the next frame `ProcessEmitting` passes its assertion
`stateid == tok->_arc._to` and returns a frontier with the same property, and
`ProcessNonemitting` on that frontier passes its assertions too: with any fuel
it returns such a frontier or runs out of fuel. -/
theorem reachable_tokens_keyed_by_dest (g : Fst) (cfg : CtcFasterDecoderOptions) (d : Decoder)
    (h : Reachable g cfg d) :
    (∀ it ∈ d._cur_toks, it.2._arc._to = it.1) ∧
    ∀ o : AmInterface, ∃ (c : WithTop ℚ) (d1 : Decoder),
      ProcessEmitting g cfg o d = .ok (c, d1) ∧
      (∀ it ∈ d1._cur_toks, it.2._arc._to = it.1) ∧
      ∀ fuel, ProcessNonemitting g c fuel d1 = .error .fuel ∨
        ∃ d2, ProcessNonemitting g c fuel d1 = .ok d2 ∧
          ∀ it ∈ d2._cur_toks, it.2._arc._to = it.1 := by
  obtain ⟨-, hq, hkey⟩ := reachable_ready g cfg d h
  refine ⟨hkey, ?_⟩
  intro o
  obtain ⟨c, d1, h1, -, hq1, -, hk1⟩ := ProcessEmitting_ok g cfg o d hkey
  refine ⟨c, d1, h1, hk1, ?_⟩
  intro fuel
  rcases ProcessNonemitting_safe g c fuel d1 (by rw [hq1, hq]) hk1 with h | ⟨toks2, h, hk⟩
  · exact Or.inl h
  · exact Or.inr ⟨_, h, hk⟩

/-! ## One frame on the two-state example graph -/

theorem InitDecoding_exGraph : InitDecoding exGraph 1 exEmptyDecoder = .ok exInitDecoder := by
  norm_num [InitDecoding, ProcessNonemitting, exEmptyDecoder, exInitDecoder, exRoot, seedQueue,
    closureLoop, findTok, exGraph, Token.ofArc, Token._tot_cost, Token._arc, FLT_MAX,
    Fst.arcs, toUnsigned, relaxArc, insertOrReplace, Token.gt]

theorem GetCutoff_exInit :
    GetCutoff exOpts [(0, exRoot)] none 0 [] = ⟨⊤, 1, ⊤, some exRoot, 0, [0]⟩ := by
  have h : addDouble (0 : WithTop ℚ) 16 < ⊤ := by
    show addDouble ((0 : ℚ) : WithTop ℚ) ((16 : ℚ) : WithTop ℚ) < ⊤
    rw [addDouble_coe]
    exact WithTop.coe_lt_top _
  simp [GetCutoff, exOpts, exRoot, Token.ofArc, Token._tot_cost, scanStep,
    maxActiveCutoff, minActiveCutoff, nth_element, toSizeT, INT_MAX, subBound, h,
    addDouble_top_left, floatOfBound_top]

theorem ProcessEmitting_exInit :
    ProcessEmitting exGraph exOpts exOracle exInitDecoder = .ok (⊤, exFrame1) := by
  unfold ProcessEmitting
  simp only [exInitDecoder, GetCutoff_exInit]
  simp [bestTokBound, emitLoop, expandTok, propagate, tighten, emits, exGraph, exOracle, Fst.arcs,
    toUnsigned, exRoot, Token.ofArc, Token._tot_cost, Token._arc, Token.new, insertOrReplace, findTok,
    exFrame1, exArcTok, exBlankTok, addDouble_top_right]

theorem ProcessNonemitting_exFrame1 :
    ProcessNonemitting exGraph ⊤ 2 exFrame1 = .ok exFrame1 := by
  simp [ProcessNonemitting, exFrame1, seedQueue, closureLoop, findTok, exGraph, exArcTok,
    exBlankTok, exRoot, Token.new, Token.ofArc, Token._tot_cost, Token._arc, Fst.arcs, toUnsigned,
    relaxArc]

theorem advanceFrame_exInit :
    advanceFrame exGraph exOpts exOracle 2 exInitDecoder = .ok exFrame1 := by
  unfold advanceFrame
  rw [if_neg (by simp [exOracle]), ProcessEmitting_exInit]
  exact ProcessNonemitting_exFrame1

theorem AdvanceDecoding_exInit :
    AdvanceDecoding exGraph exOpts exOracle 1 2 exInitDecoder = .ok exFrame1 := by
  have ht : targetFrames exOracle 1 exInitDecoder = 1 := by
    norm_num [targetFrames, exOracle, exInitDecoder, wrapInt]
  unfold AdvanceDecoding
  rw [if_neg (by simp [exInitDecoder]), if_neg (by simp [exInitDecoder, exOracle])]
  dsimp only
  rw [ht]
  unfold advanceLoop
  rw [if_pos (by simp [exInitDecoder])]
  dsimp only
  rw [advanceFrame_exInit]
  dsimp only
  unfold advanceLoop
  rw [if_neg (by simp [exFrame1])]

theorem reachable_exFrame1 : Reachable exGraph exOpts exFrame1 :=
  Reachable.advance exOracle 1 2 exInitDecoder exFrame1
    (Reachable.init 1 exEmptyDecoder exInitDecoder InitDecoding_exGraph) AdvanceDecoding_exInit

/-- Witness for claim C17: the state after `InitDecoding` and one frame on
`exGraph`, which holds a token at state 1 and a blank token at the shadow
state 2. -/
theorem reachable_tokens_keyed_by_dest_witness :
    Reachable exGraph exOpts exFrame1 ∧
    (∀ it ∈ exFrame1._cur_toks, it.2._arc._to = it.1) ∧
    ∀ o : AmInterface, ∃ (c : WithTop ℚ) (d1 : Decoder),
      ProcessEmitting exGraph exOpts o exFrame1 = .ok (c, d1) ∧
      (∀ it ∈ d1._cur_toks, it.2._arc._to = it.1) ∧
      ∀ fuel, ProcessNonemitting exGraph c fuel d1 = .error .fuel ∨
        ∃ d2, ProcessNonemitting exGraph c fuel d1 = .ok d2 ∧
          ∀ it ∈ d2._cur_toks, it.2._arc._to = it.1 :=
  ⟨reachable_exFrame1, reachable_tokens_keyed_by_dest exGraph exOpts exFrame1 reachable_exFrame1⟩

/-! ## The state ids passed to `GetState` (claim C18) -/

theorem propagate_keys (Q : StateId → Prop) (adaptive_beam : WithTop ℚ) (tok : Token)
    (arc : StdArc) (ac_cost new_weight : ℚ) (st : TokMap × WithTop ℚ) (hnew : Q arc._to)
    (h : ∀ it ∈ st.1, Q it.1) :
    ∀ it ∈ (propagate adaptive_beam tok arc ac_cost new_weight st).1, Q it.1 := by
  unfold propagate
  split
  · exact insertOrReplace_all (fun it => Q it.1) _ _ _ h hnew
  · exact h

theorem expandTok_keys (Q : StateId → Prop) (g : Fst) (o : AmInterface) (frame : Int)
    (adaptive_beam : WithTop ℚ) (stateid : StateId) (tok : Token) (st : TokMap × WithTop ℚ)
    (harc : ∀ a ∈ g.arcs stateid, Q a._to)
    (hblank : Q (if stateid < g.TotState then stateid + g.TotState else stateid))
    (h : ∀ it ∈ st.1, Q it.1) :
    ∀ it ∈ (expandTok g o frame adaptive_beam stateid tok st).1, Q it.1 := by
  unfold expandTok
  apply propagate_keys Q _ _ _ _ _ _ hblank
  generalize g.arcs stateid = arcs at harc
  induction arcs generalizing st with
  | nil => exact h
  | cons a l ih =>
    rw [List.foldl_cons]
    refine ih _ ?_ (fun b hb => harc b (List.mem_cons_of_mem _ hb))
    split
    · exact propagate_keys Q _ _ _ _ _ _ (harc a (List.mem_cons_self _ _)) h
    · exact h

/-- Keys of the frontier built by the main loop of `ProcessEmitting`: they are
destinations of arcs of the graph or blank destinations of keys of the previous
frontier. -/
theorem emitLoop_keys (Q : StateId → Prop) (g : Fst) (o : AmInterface) (frame : Int)
    (cur_cutoff adaptive_beam : WithTop ℚ)
    (harc : ∀ s, ∀ a ∈ g.arcs s, Q a._to)
    (hblank : ∀ s, Q s → Q (if s < g.TotState then s + g.TotState else s))
    (prev : TokMap) (hprev : ∀ it ∈ prev, Q it.1) (st r : TokMap × WithTop ℚ)
    (h : ∀ it ∈ st.1, Q it.1)
    (hr : emitLoop g o frame cur_cutoff adaptive_beam prev st = .ok r) :
    ∀ it ∈ r.1, Q it.1 := by
  induction prev generalizing st with
  | nil =>
    unfold emitLoop at hr
    cases hr
    exact h
  | cons hd tl ih =>
    obtain ⟨stateid, tok⟩ := hd
    have htl : ∀ it ∈ tl, Q it.1 := fun it hit => hprev it (List.mem_cons_of_mem _ hit)
    have hhd : Q stateid := hprev (stateid, tok) (List.mem_cons_self _ _)
    unfold emitLoop at hr
    by_cases hc : (tok._tot_cost : WithTop ℚ) < cur_cutoff
    · rw [if_pos hc] at hr
      by_cases hk : stateid = tok._arc._to
      · rw [if_pos hk] at hr
        exact ih htl _ (expandTok_keys Q g o frame adaptive_beam stateid tok st (harc stateid)
          (hblank stateid hhd) h) hr
      · rw [if_neg hk] at hr
        cases hr
    · rw [if_neg hc] at hr
      exact ih htl st h hr

theorem ProcessEmitting_keys (Q : StateId → Prop) (g : Fst) (cfg : CtcFasterDecoderOptions)
    (o : AmInterface)
    (harc : ∀ s, ∀ a ∈ g.arcs s, Q a._to)
    (hblank : ∀ s, Q s → Q (if s < g.TotState then s + g.TotState else s))
    (d d1 : Decoder) (c : WithTop ℚ) (hd : ∀ it ∈ d._cur_toks, Q it.1)
    (h : ProcessEmitting g cfg o d = .ok (c, d1)) :
    ∀ it ∈ d1._cur_toks, Q it.1 := by
  unfold ProcessEmitting at h
  dsimp only at h
  split at h
  · cases h
  · rename_i st hst
    cases h
    exact emitLoop_keys Q g o _ _ _ harc hblank d._cur_toks hd _ st
      (fun it hit => absurd hit (List.not_mem_nil _)) hst

theorem ProcessNonemitting_keys (Q : StateId → Prop) (g : Fst) (cutoff : WithTop ℚ) (fuel : Nat)
    (harc : ∀ s, ∀ a ∈ g.arcs s, Q a._to) (d d2 : Decoder) (hd : ∀ it ∈ d._cur_toks, Q it.1)
    (h : ProcessNonemitting g cutoff fuel d = .ok d2) :
    ∀ it ∈ d2._cur_toks, Q it.1 := by
  unfold ProcessNonemitting at h
  split at h
  · cases h
  · split at h
    · cases h
    · rename_i st hst
      cases h
      exact closureLoop_all g cutoff (fun it => Q it.1) (fun s _ a _ ha _ => harc s a ha) fuel
        _ _ st hd hst

theorem advanceFrame_keys (Q : StateId → Prop) (g : Fst) (cfg : CtcFasterDecoderOptions)
    (o : AmInterface) (fuel : Nat)
    (harc : ∀ s, ∀ a ∈ g.arcs s, Q a._to)
    (hblank : ∀ s, Q s → Q (if s < g.TotState then s + g.TotState else s))
    (d d2 : Decoder) (hd : ∀ it ∈ d._cur_toks, Q it.1)
    (h : advanceFrame g cfg o fuel d = .ok d2) :
    ∀ it ∈ d2._cur_toks, Q it.1 := by
  unfold advanceFrame at h
  split at h
  · cases h
    exact hd
  · split at h
    · cases h
    · rename_i c d1 hpe
      exact ProcessNonemitting_keys Q g c fuel harc d1 d2
        (ProcessEmitting_keys Q g cfg o harc hblank d d1 c hd hpe) h

theorem advanceLoop_keys (Q : StateId → Prop) (g : Fst) (cfg : CtcFasterDecoderOptions)
    (o : AmInterface) (fuel : Nat) (target : Int)
    (harc : ∀ s, ∀ a ∈ g.arcs s, Q a._to)
    (hblank : ∀ s, Q s → Q (if s < g.TotState then s + g.TotState else s)) (n : Nat) :
    ∀ d d2, (∀ it ∈ d._cur_toks, Q it.1) → advanceLoop g cfg o fuel target n d = .ok d2 →
      ∀ it ∈ d2._cur_toks, Q it.1 := by
  induction n with
  | zero =>
    intro d d2 hd h
    unfold advanceLoop at h
    split at h
    · cases h
    · cases h
      exact hd
  | succ n ih =>
    intro d d2 hd h
    unfold advanceLoop at h
    split at h
    · dsimp only at h
      split at h
      · cases h
      · rename_i d1 hf
        exact ih d1 d2 (advanceFrame_keys Q g cfg o fuel harc hblank d d1 hd hf) h
    · cases h
      exact hd

/-- On a graph whose arcs lead to base states, the destinations of arcs and the
blank destinations of ids below `2 * TotState` are below `2 * TotState`. -/
theorem shadowRange_closed (g : Fst) (hR : ArcsInRange g) :
    (∀ s, ∀ a ∈ g.arcs s, 0 ≤ a._to ∧ a._to < 2 * g.TotState) ∧
    (∀ s : StateId, 0 ≤ s ∧ s < 2 * g.TotState →
      0 ≤ (if s < g.TotState then s + g.TotState else s) ∧
      (if s < g.TotState then s + g.TotState else s) < 2 * g.TotState) := by
  constructor
  · intro s a ha
    obtain ⟨h1, h2⟩ := hR s a ha
    exact ⟨h1, by linarith⟩
  · intro s hs
    obtain ⟨h1, h2⟩ := hs
    by_cases hlt : s < g.TotState
    · rw [if_pos hlt]
      exact ⟨by linarith, by linarith⟩
    · rw [if_neg hlt]
      exact ⟨h1, h2⟩

/-- In every reachable state the keys of the frontier are base ids or shadow
ids: they lie in `[0, 2 * TotState)`. -/
theorem reachable_keys (g : Fst) (cfg : CtcFasterDecoderOptions) (hR : ArcsInRange g)
    (hs : 0 ≤ g.Start ∧ g.Start < g.TotState) (d : Decoder) (h : Reachable g cfg d) :
    ∀ it ∈ d._cur_toks, 0 ≤ it.1 ∧ it.1 < 2 * g.TotState := by
  obtain ⟨harc, hblank⟩ := shadowRange_closed g hR
  induction h with
  | init fuel d0 d hinit =>
    unfold InitDecoding at hinit
    dsimp only at hinit
    refine ProcessNonemitting_keys (fun s => 0 ≤ s ∧ s < 2 * g.TotState) g _ fuel harc _ d ?_ hinit
    intro it hit
    rw [List.mem_singleton.1 hit]
    show 0 ≤ g.Start ∧ g.Start < 2 * g.TotState
    exact ⟨hs.1, by linarith [hs.1, hs.2]⟩
  | advance o max_num_frames fuel d d2 _ hadv ih =>
    unfold AdvanceDecoding at hadv
    split at hadv
    · cases hadv
    · dsimp only at hadv
      split at hadv
      · cases hadv
      · exact advanceLoop_keys (fun s => 0 ≤ s ∧ s < 2 * g.TotState) g cfg o fuel _ harc hblank
          fuel d d2 ih hadv

theorem closureGetStateArgs_all (Q : StateId → Prop) (g : Fst) (cutoff : WithTop ℚ)
    (harc : ∀ s, ∀ a ∈ g.arcs s, Q a._to) (fuel : Nat) :
    ∀ (toks : TokMap) (queue : List StateId), (∀ v ∈ queue, Q v) →
      ∀ s ∈ closureGetStateArgs g cutoff fuel toks queue, Q s := by
  induction fuel with
  | zero =>
    intro toks queue _ s hs
    cases queue <;> simp [closureGetStateArgs] at hs
  | succ fuel ih =>
    intro toks queue hq s hs
    cases queue with
    | nil => simp [closureGetStateArgs] at hs
    | cons v rest =>
      have hrest : ∀ w ∈ rest, Q w := fun w hw => hq w (List.mem_cons_of_mem _ hw)
      unfold closureGetStateArgs at hs
      cases hf : findTok toks v with
      | none => rw [hf] at hs; simp at hs
      | some tok =>
        rw [hf] at hs
        dsimp only at hs
        by_cases hc : cutoff < (tok._tot_cost : WithTop ℚ)
        · rw [if_pos hc] at hs
          exact ih toks rest hrest s hs
        · rw [if_neg hc] at hs
          by_cases hk : v = tok._arc._to
          · rw [if_pos hk] at hs
            rcases List.mem_cons.1 hs with rfl | hs
            · exact hq _ (List.mem_cons_self _ _)
            · refine ih _ _ ?_ s hs
              exact relaxArcs_queue_all Q cutoff tok (g.arcs v) (toks, rest)
                (fun a ha _ => harc v a ha) hrest
          · rw [if_neg hk] at hs
            simp at hs

theorem ProcessNonemittingGetStateArgs_all (Q : StateId → Prop) (g : Fst) (cutoff : WithTop ℚ)
    (harc : ∀ s, ∀ a ∈ g.arcs s, Q a._to) (fuel : Nat) (d : Decoder)
    (hd : ∀ it ∈ d._cur_toks, Q it.1) :
    ∀ s ∈ ProcessNonemittingGetStateArgs g cutoff fuel d, Q s := by
  intro s hs
  unfold ProcessNonemittingGetStateArgs at hs
  by_cases hq : d._queue ≠ []
  · rw [if_pos hq] at hs
    simp at hs
  · rw [if_neg hq] at hs
    refine closureGetStateArgs_all Q g cutoff harc fuel _ _ ?_ s hs
    intro v hv
    rcases seedQueue_mem _ _ _ hv with h | ⟨it, hit, he⟩
    · rw [not_not.1 hq] at h
      exact absurd h (List.not_mem_nil _)
    · rw [← he]
      exact hd it hit

theorem emitGetStateArgs_mem (cur_cutoff : WithTop ℚ) (toks : TokMap) (s : StateId)
    (hs : s ∈ emitGetStateArgs cur_cutoff toks) : ∃ it ∈ toks, it.1 = s := by
  induction toks with
  | nil => simp [emitGetStateArgs] at hs
  | cons hd tl ih =>
    obtain ⟨stateid, tok⟩ := hd
    unfold emitGetStateArgs at hs
    split at hs
    · split at hs
      · rcases List.mem_cons.1 hs with rfl | hs
        · exact ⟨_, List.mem_cons_self _ _, rfl⟩
        · obtain ⟨it, hit, he⟩ := ih hs
          exact ⟨it, List.mem_cons_of_mem _ hit, he⟩
      · simp at hs
    · obtain ⟨it, hit, he⟩ := ih hs
      exact ⟨it, List.mem_cons_of_mem _ hit, he⟩

/-- The best token reported by `GetCutoff`, if any, is an entry of the frontier
stored under the reported state id. -/
theorem GetCutoff_best_mem (cfg : CtcFasterDecoderOptions) (toks : TokMap) (tmp0 : List ℚ)
    (t : Token) (h : (GetCutoff cfg toks none 0 tmp0).best_tok = some t) :
    ∃ it ∈ toks, (GetCutoff cfg toks none 0 tmp0).best_stateid = it.1 := by
  have key : ∀ push tmp,
      (toks.foldl (scanStep push) ⟨⊤, none, 0, 0, tmp⟩).best_tok = some t →
      ∃ it ∈ toks, (toks.foldl (scanStep push) ⟨⊤, none, 0, 0, tmp⟩).best_stateid = it.1 := by
    intro push tmp hb
    obtain ⟨-, -, -, -, hor⟩ := scan_spec push toks ⟨⊤, none, 0, 0, tmp⟩
    rcases hor with ⟨-, e, -⟩ | ⟨it, hit, -, -, e⟩
    · rw [e] at hb; cases hb
    · exact ⟨it, hit, e⟩
  unfold GetCutoff at h ⊢
  by_cases hfast : cfg._max_active = INT_MAX ∧ cfg._min_active = 0
  · rw [if_pos hfast] at h ⊢
    exact key false tmp0 h
  · rw [if_neg hfast] at h ⊢
    dsimp only at h ⊢
    split_ifs at h ⊢ <;> exact key true [] h

theorem ProcessEmittingGetStateArgs_all (Q : StateId → Prop) (cfg : CtcFasterDecoderOptions)
    (d : Decoder) (hd : ∀ it ∈ d._cur_toks, Q it.1) :
    ∀ s ∈ ProcessEmittingGetStateArgs cfg d, Q s := by
  intro s hs
  unfold ProcessEmittingGetStateArgs at hs
  dsimp only at hs
  rcases List.mem_append.1 hs with h | h
  · cases hb : (GetCutoff cfg d._cur_toks none 0 d._tmp_array).best_tok with
    | none => rw [hb] at h; simp at h
    | some t =>
      rw [hb] at h
      obtain ⟨it, hit, he⟩ := GetCutoff_best_mem cfg d._cur_toks d._tmp_array t hb
      rw [List.mem_singleton.1 h, he]
      exact hd it hit
  · obtain ⟨it, hit, he⟩ := emitGetStateArgs_mem _ _ s h
    rw [← he]
    exact hd it hit

theorem frameGetStateArgs_all (Q : StateId → Prop) (g : Fst) (cfg : CtcFasterDecoderOptions)
    (o : AmInterface) (fuel : Nat)
    (harc : ∀ s, ∀ a ∈ g.arcs s, Q a._to)
    (hblank : ∀ s, Q s → Q (if s < g.TotState then s + g.TotState else s))
    (d : Decoder) (hd : ∀ it ∈ d._cur_toks, Q it.1) :
    ∀ s ∈ frameGetStateArgs g cfg o fuel d, Q s := by
  intro s hs
  unfold frameGetStateArgs at hs
  split at hs
  · simp at hs
  · rcases List.mem_append.1 hs with h | h
    · exact ProcessEmittingGetStateArgs_all Q cfg d hd s h
    · split at h
      · simp at h
      · rename_i c d1 hpe
        exact ProcessNonemittingGetStateArgs_all Q g c harc fuel d1
          (ProcessEmitting_keys Q g cfg o harc hblank d d1 c hd hpe) s h

/-- Claim C18 as stated fails: on `exGraph`, whose `TotState` is 2, the first
frame after `InitDecoding` creates the blank token at the shadow state
`0 + 2 = 2`, and `ProcessNonemitting` then pops that state and passes 2 to
`GetState`; the ids passed during the frame are 0, 0, 2, 1. -/
theorem GetState_called_with_shadow_id :
    InitDecoding exGraph 1 exEmptyDecoder = .ok exInitDecoder ∧
    exGraph.TotState = 2 ∧
    ProcessEmitting exGraph exOpts exOracle exInitDecoder = .ok (⊤, exFrame1) ∧
    ProcessNonemittingGetStateArgs exGraph ⊤ 2 exFrame1 = [2, 1] ∧
    frameGetStateArgs exGraph exOpts exOracle 2 exInitDecoder = [0, 0, 2, 1] ∧
    ¬ ∀ s ∈ frameGetStateArgs exGraph exOpts exOracle 2 exInitDecoder,
        0 ≤ s ∧ s < exGraph.TotState := by
  have hpn : ProcessNonemittingGetStateArgs exGraph ⊤ 2 exFrame1 = [2, 1] := by
    simp [ProcessNonemittingGetStateArgs, closureGetStateArgs, exFrame1, seedQueue, findTok,
      exGraph, exArcTok, exBlankTok, exRoot, Token.new, Token.ofArc, Token._tot_cost, Token._arc,
      Fst.arcs, toUnsigned, relaxArc]
  have hpe : ProcessEmittingGetStateArgs exOpts exInitDecoder = [0, 0] := by
    unfold ProcessEmittingGetStateArgs
    simp only [exInitDecoder, GetCutoff_exInit]
    simp [emitGetStateArgs, exRoot, Token.ofArc, Token._tot_cost, Token._arc]
  have hframe : frameGetStateArgs exGraph exOpts exOracle 2 exInitDecoder = [0, 0, 2, 1] := by
    unfold frameGetStateArgs
    rw [if_neg (by simp [exOracle]), ProcessEmitting_exInit, hpe]
    dsimp only
    rw [hpn]
    rfl
  refine ⟨InitDecoding_exGraph, rfl, ProcessEmitting_exInit, hpn, hframe, ?_⟩
  intro h
  have := (h 2 (by rw [hframe]; simp)).2
  simp [exGraph] at this

/-- Claim C18 as amended: on a graph whose arcs lead to states in `[0, N)` and
whose start state lies in `[0, N)`, `N = TotState()`, `InitDecoding` passes only
ids in `[0, N)` to `GetState`, and in every state reachable from `InitDecoding`
by calls of `AdvanceDecoding` the keys of the frontier and the ids that
`ProcessEmitting` and `ProcessNonemitting` pass to `GetState` on the next frame
lie in `[0, 2 * N)`: they are base ids or shadow ids. -/
theorem GetState_args_below_twice_TotState (g : Fst) (cfg : CtcFasterDecoderOptions)
    (hR : ArcsInRange g) (hs : 0 ≤ g.Start ∧ g.Start < g.TotState) (d : Decoder)
    (h : Reachable g cfg d) :
    (∀ fuel d0, ∀ s ∈ InitDecodingGetStateArgs g fuel d0, 0 ≤ s ∧ s < g.TotState) ∧
    (∀ it ∈ d._cur_toks, 0 ≤ it.1 ∧ it.1 < 2 * g.TotState) ∧
    ∀ (o : AmInterface) (fuel : Nat), ∀ s ∈ frameGetStateArgs g cfg o fuel d,
      0 ≤ s ∧ s < 2 * g.TotState := by
  obtain ⟨harc, hblank⟩ := shadowRange_closed g hR
  have hkeys := reachable_keys g cfg hR hs d h
  refine ⟨?_, hkeys, ?_⟩
  · intro fuel d0 s hs0
    unfold InitDecodingGetStateArgs at hs0
    refine ProcessNonemittingGetStateArgs_all (fun s => 0 ≤ s ∧ s < g.TotState) g _
      (fun s a ha => hR s a ha) fuel _ ?_ s hs0
    intro it hit
    rw [List.mem_singleton.1 hit]
    exact hs
  · intro o fuel
    exact frameGetStateArgs_all (fun s => 0 ≤ s ∧ s < 2 * g.TotState) g cfg o fuel harc hblank d
      hkeys

theorem exGraph_arcsInRange : ArcsInRange exGraph := by
  intro s a ha
  unfold Fst.arcs exGraph at ha
  dsimp only at ha
  split at ha
  · rw [List.mem_singleton.1 ha]
    exact ⟨by norm_num, by norm_num [exGraph]⟩
  · exact absurd ha (List.not_mem_nil _)

/-- Witness for the amended claim C18: the state after one frame on `exGraph`. -/
theorem GetState_args_below_twice_TotState_witness :
    ArcsInRange exGraph ∧ (0 ≤ exGraph.Start ∧ exGraph.Start < exGraph.TotState) ∧
    Reachable exGraph exOpts exFrame1 ∧
    (∀ fuel d0, ∀ s ∈ InitDecodingGetStateArgs exGraph fuel d0, 0 ≤ s ∧ s < exGraph.TotState) ∧
    (∀ it ∈ exFrame1._cur_toks, 0 ≤ it.1 ∧ it.1 < 2 * exGraph.TotState) ∧
    ∀ (o : AmInterface) (fuel : Nat), ∀ s ∈ frameGetStateArgs exGraph exOpts o fuel exFrame1,
      0 ≤ s ∧ s < 2 * exGraph.TotState :=
  ⟨exGraph_arcsInRange, ⟨by simp [exGraph], by simp [exGraph]⟩, reachable_exFrame1,
    GetState_args_below_twice_TotState exGraph exOpts exGraph_arcsInRange
      ⟨by simp [exGraph], by simp [exGraph]⟩ exFrame1 reachable_exFrame1⟩

/-! ## The best token and the adaptive beam -/

/-- When the beam cutoff exceeds the least cost, the best token lies strictly
below the cutoff whenever the frontier holds at most `max_active` tokens. -/
theorem GetCutoff_best_below_of_small (cfg : CtcFasterDecoderOptions) (hv : ValidConfig cfg)
    (toks : TokMap) (hne : toks ≠ []) (b0 : Option Token) (s0 : StateId) (tmp0 : List ℚ)
    (hbeam : (sortedCosts toks).getD 0 0 < toDouble ((sortedCosts toks).getD 0 0 + cfg._beam))
    (hsmall : ¬ cfg._max_active.toNat < toks.length) :
    (((sortedCosts toks).getD 0 0 : ℚ) : WithTop ℚ) < (GetCutoff cfg toks b0 s0 tmp0).cutoff := by
  rcases (GetCutoff_cases cfg hv toks hne b0 s0 tmp0).2 with h | h | h | h | h
  · rw [h.2.2.1]; exact WithTop.coe_lt_coe.2 hbeam
  · exact absurd h.2.1 hsmall
  · rw [h.2.2.2.1]; exact WithTop.coe_lt_top _
  · rw [h.2.2.2.2.1]; exact WithTop.coe_lt_coe.2 (lt_trans hbeam h.2.2.2.1)
  · rw [h.2.2.2.2.1]; exact WithTop.coe_lt_coe.2 hbeam

/-- With a positive beam and a non-negative beam delta the adaptive beam set by
`GetCutoff` is positive whenever the best token lies strictly below the cutoff. -/
theorem GetCutoff_adaptive_beam_pos (cfg : CtcFasterDecoderOptions) (hv : ValidConfig cfg)
    (hbeam : 0 < cfg._beam) (hdelta : 0 ≤ cfg._beam_delta) (toks : TokMap) (hne : toks ≠ [])
    (b0 : Option Token) (s0 : StateId) (tmp0 : List ℚ)
    (hbelow : (((sortedCosts toks).getD 0 0 : ℚ) : WithTop ℚ) <
      (GetCutoff cfg toks b0 s0 tmp0).cutoff) :
    (0 : WithTop ℚ) < (GetCutoff cfg toks b0 s0 tmp0).adaptive_beam := by
  have hz : (0 : WithTop ℚ) = ((0 : ℚ) : WithTop ℚ) := rfl
  have hpos : ∀ x : ℚ, (sortedCosts toks).getD 0 0 < x →
      0 < toFloat (toDouble (toDouble (x - (sortedCosts toks).getD 0 0) + cfg._beam_delta)) := by
    intro x hx
    have h1 := toDouble_pos (x - (sortedCosts toks).getD 0 0) (by linarith)
    exact toFloat_pos _ (toDouble_pos _ (by linarith))
  rcases (GetCutoff_cases cfg hv toks hne b0 s0 tmp0).2 with h | h | h | h | h
  · rw [h.2.2.2, hz]; exact WithTop.coe_lt_coe.2 (toFloat_pos _ hbeam)
  · rw [h.2.2.2.1] at hbelow
    rw [h.2.2.2.2, hz]
    exact WithTop.coe_lt_coe.2 (hpos _ (WithTop.coe_lt_coe.1 hbelow))
  · rw [h.2.2.2.2]; exact WithTop.coe_lt_top _
  · rw [h.2.2.2.2.1] at hbelow
    rw [h.2.2.2.2.2, hz]
    exact WithTop.coe_lt_coe.2 (hpos _ (WithTop.coe_lt_coe.1 hbelow))
  · rw [h.2.2.2.2.2, hz]; exact WithTop.coe_lt_coe.2 (toFloat_pos _ hbeam)

/-- A positive adaptive beam is not lost when added to the weight 0. -/
theorem beamFelt_zero (adaptive_beam : WithTop ℚ) (hab : (0 : WithTop ℚ) < adaptive_beam) :
    BeamFelt adaptive_beam 0 := by
  unfold BeamFelt
  cases adaptive_beam with
  | top => rw [addDouble_top_right]; exact WithTop.coe_lt_top _
  | coe b =>
    have hb : 0 < b := WithTop.coe_lt_coe.1 hab
    rw [addDouble_coe, zero_add]
    exact WithTop.coe_lt_coe.2 (toDouble_pos b hb)

/-- An infinite adaptive beam is never lost. -/
theorem beamFelt_top (new_weight : ℚ) : BeamFelt ⊤ new_weight := by
  unfold BeamFelt
  rw [addDouble_top_right]
  exact WithTop.coe_lt_top _

/-- A candidate of finite weight lies strictly below the bound it tightens to,
when the adaptive beam is not lost in the sum. -/
theorem lt_tighten (new_weight : ℚ) (adaptive_beam next : WithTop ℚ)
    (hab : BeamFelt adaptive_beam new_weight) (hlt : (new_weight : WithTop ℚ) < next) :
    (new_weight : WithTop ℚ) < tighten new_weight adaptive_beam next := by
  unfold tighten
  split
  · exact hab
  · exact hlt

theorem tighten_le (new_weight : ℚ) (adaptive_beam next : WithTop ℚ) :
    tighten new_weight adaptive_beam next ≤ next := by
  unfold tighten
  split
  · rename_i h; exact le_of_lt h
  · exact le_refl _

/-! ## `ProcessEmitting` keeps a live frontier alive (claim C20) -/

theorem validConfig_exOpts : ValidConfig exOpts := by
  norm_num [ValidConfig, exOpts, INT_MAX]

theorem sortedCosts_singleton (s : StateId) (tok : Token) :
    sortedCosts [(s, tok)] = [tok._tot_cost] := by
  simp [sortedCosts]

/-- `GetCutoff` on a frontier of one token, for accepted options with a positive
beam that is not lost when added to the cost of the token: the token is the best
token, it lies below the cutoff, and the adaptive beam is positive. -/
theorem GetCutoff_singleton (cfg : CtcFasterDecoderOptions) (hv : ValidConfig cfg)
    (hbeam : 0 < cfg._beam) (s : StateId) (tok : Token) (tmp0 : List ℚ)
    (hbc : tok._tot_cost < toDouble (tok._tot_cost + cfg._beam)) :
    (GetCutoff cfg [(s, tok)] none 0 tmp0).best_tok = some tok ∧
    (GetCutoff cfg [(s, tok)] none 0 tmp0).best_stateid = s ∧
    (tok._tot_cost : WithTop ℚ) < (GetCutoff cfg [(s, tok)] none 0 tmp0).cutoff ∧
    (0 : WithTop ℚ) < (GetCutoff cfg [(s, tok)] none 0 tmp0).adaptive_beam := by
  have hne : [(s, tok)] ≠ [] := by simp
  have hz0 : (0 : WithTop ℚ) = ((0 : ℚ) : WithTop ℚ) := rfl
  obtain ⟨⟨it, hit, hbt, hbs, -⟩, hc⟩ := GetCutoff_cases cfg hv [(s, tok)] hne none 0 tmp0
  rw [List.mem_singleton.1 hit] at hbt hbs
  have hM : ¬ cfg._max_active.toNat < [(s, tok)].length := by
    have := hv.2.1
    simp only [List.length_singleton]
    omega
  have hlt := GetCutoff_best_below_of_small cfg hv [(s, tok)] hne none 0 tmp0
    (by rw [sortedCosts_singleton]; exact hbc) hM
  rw [sortedCosts_singleton] at hlt hc
  refine ⟨hbt, hbs, hlt, ?_⟩
  rcases hc with h | h | h | h | h
  · rw [h.2.2.2, hz0]; exact WithTop.coe_lt_coe.2 (toFloat_pos _ hbeam)
  · exact absurd h.2.1 hM
  · rw [h.2.2.2.2]; exact WithTop.coe_lt_top _
  · exfalso
    have h1 : cfg._min_active.toNat = 0 := by
      have := h.2.2.1
      simp only [List.length_singleton] at this
      omega
    have h2 := h.2.2.2.1
    rw [h1] at h2
    simp only [List.getD_cons_zero] at h2
    linarith
  · rw [h.2.2.2.2.2, hz0]; exact WithTop.coe_lt_coe.2 (toFloat_pos _ hbeam)

theorem exOneStateGraph_arcs (s : StateId) : exOneStateGraph.arcs s = [] := rfl

/-- One frame on the graph without arcs, from a frontier of one token of cost 0
and an oracle whose blank log-likelihood is 0: the new frontier holds one token
of the same cost, reached along the blank arc, at the shadow state of `s` when
`s` is a base state and at `s` itself when `s` is a shadow state. -/
theorem blank_frame (cfg : CtcFasterDecoderOptions) (hv : ValidConfig cfg)
    (hbeam : 0 < cfg._beam) (o : AmInterface) (d : Decoder) (s : StateId) (tok : Token)
    (hcur : d._cur_toks = [(s, tok)]) (hk : tok._arc._to = s) (hq : d._queue = [])
    (hcost : tok._tot_cost = 0)
    (hskip : o.SkipBlockFrame d._num_frames_decoded = false)
    (hLL : o.LogLikelihood d._num_frames_decoded o.GetBlockTransitionId = 0)
    (fuel : Nat) (hfuel : 1 ≤ fuel) :
    ∃ d1, advanceFrame exOneStateGraph cfg o fuel d = .ok d1 ∧
      d1._cur_toks = [(if s < 1 then s + 1 else s,
        Token.mk ⟨o.GetBlockTransitionId, 0, if s < 1 then s + 1 else s, 0⟩ (some tok)
          tok._tot_cost)] ∧
      d1._queue = [] ∧ d1._num_frames_decoded = d._num_frames_decoded + 1 := by
  obtain ⟨hbt, hbs, hlt, hab0⟩ := GetCutoff_singleton cfg hv hbeam s tok d._tmp_array
    (by rw [hcost, zero_add]; exact toDouble_pos _ hbeam)
  have hab : BeamFelt (GetCutoff cfg [(s, tok)] none 0 d._tmp_array).adaptive_beam
      tok._tot_cost := by
    rw [hcost]
    exact beamFelt_zero _ hab0
  have hnw : tok._tot_cost + - o.LogLikelihood d._num_frames_decoded o.GetBlockTransitionId
      = tok._tot_cost := by
    rw [hLL]; ring
  have hnew : Token.new ⟨o.GetBlockTransitionId, 0, if s < 1 then s + 1 else s, 0⟩
      (- o.LogLikelihood d._num_frames_decoded o.GetBlockTransitionId) (some tok) =
      Token.mk ⟨o.GetBlockTransitionId, 0, if s < 1 then s + 1 else s, 0⟩ (some tok)
        tok._tot_cost := by
    show Token.mk _ _ _ = _
    congr 1
    rw [hLL]
    ring
  have hpe : ∃ c, ProcessEmitting exOneStateGraph cfg o d = .ok (c,
      ⟨[(if s < 1 then s + 1 else s,
          Token.mk ⟨o.GetBlockTransitionId, 0, if s < 1 then s + 1 else s, 0⟩ (some tok)
            tok._tot_cost)], [(s, tok)], d._num_frames_decoded + 1, [],
        (GetCutoff cfg [(s, tok)] none 0 d._tmp_array).tmp_array⟩) := by
    unfold ProcessEmitting
    dsimp only
    rw [hcur, hbt, hbs, hq]
    unfold bestTokBound
    dsimp only
    rw [exOneStateGraph_arcs, List.foldl_nil, hnw]
    unfold emitLoop
    rw [if_pos hlt, if_pos hk.symm]
    unfold expandTok
    dsimp only
    rw [exOneStateGraph_arcs, List.foldl_nil, hnw]
    unfold propagate
    dsimp only
    rw [if_pos (lt_tighten _ _ _ hab (WithTop.coe_lt_top _))]
    have hN : exOneStateGraph.TotState = 1 := rfl
    have hins : ∀ (k : StateId) (t : Token), insertOrReplace [] k t = ([(k, t)], true) :=
      fun _ _ => rfl
    rw [hN, hnew, hins]
    unfold emitLoop
    exact ⟨_, rfl⟩
  obtain ⟨c, hpe⟩ := hpe
  obtain ⟨k, rfl⟩ : ∃ k, fuel = k + 1 := ⟨fuel - 1, by omega⟩
  refine ⟨⟨[(if s < 1 then s + 1 else s,
      Token.mk ⟨o.GetBlockTransitionId, 0, if s < 1 then s + 1 else s, 0⟩ (some tok)
        tok._tot_cost)], [(s, tok)], d._num_frames_decoded + 1, [],
    (GetCutoff cfg [(s, tok)] none 0 d._tmp_array).tmp_array⟩, ?_, rfl, rfl, rfl⟩
  unfold advanceFrame
  rw [if_neg (by rw [hskip]; simp), hpe]
  dsimp only
  unfold ProcessNonemitting
  rw [if_neg (by simp)]
  have hloop : closureLoop exOneStateGraph c (k + 1)
      [(if s < 1 then s + 1 else s,
        Token.mk ⟨o.GetBlockTransitionId, 0, if s < 1 then s + 1 else s, 0⟩ (some tok)
          tok._tot_cost)]
      (seedQueue [(if s < 1 then s + 1 else s,
        Token.mk ⟨o.GetBlockTransitionId, 0, if s < 1 then s + 1 else s, 0⟩ (some tok)
          tok._tot_cost)] []) =
      .ok ([(if s < 1 then s + 1 else s,
        Token.mk ⟨o.GetBlockTransitionId, 0, if s < 1 then s + 1 else s, 0⟩ (some tok)
          tok._tot_cost)], []) := by
    generalize (if s < 1 then s + 1 else s) = tb
    show closureLoop exOneStateGraph c (k + 1) _ [tb] = _
    rw [closureLoop_succ]
    have hf : findTok [(tb, Token.mk ⟨o.GetBlockTransitionId, 0, tb, 0⟩ (some tok)
          tok._tot_cost)] tb =
        some (Token.mk ⟨o.GetBlockTransitionId, 0, tb, 0⟩ (some tok) tok._tot_cost) := by
      simp [findTok]
    rw [hf]
    dsimp only
    rw [exOneStateGraph_arcs, List.foldl_nil, closureLoop_nil]
    by_cases hc : c < ((Token.mk ⟨o.GetBlockTransitionId, 0, tb, 0⟩ (some tok)
        tok._tot_cost)._tot_cost : WithTop ℚ)
    · rw [if_pos hc]
    · rw [if_neg hc]
      exact if_pos rfl
  rw [hloop]

/-- A call of `AdvanceDecoding` with `max_num_frames = 1` decodes one frame. -/
theorem AdvanceDecoding_one_frame (g : Fst) (cfg : CtcFasterDecoderOptions) (o : AmInterface)
    (fuel : Nat) (d d1 : Decoder) (h0 : 0 ≤ d._num_frames_decoded)
    (hlt : d._num_frames_decoded < o.NumFramesReady) (hfuel : 1 ≤ fuel)
    (hR : o.NumFramesReady ≤ 2147483647)
    (hf : advanceFrame g cfg o fuel d = .ok d1)
    (hnum : d1._num_frames_decoded = d._num_frames_decoded + 1) :
    AdvanceDecoding g cfg o 1 fuel d = .ok d1 := by
  obtain ⟨k, rfl⟩ : ∃ k, fuel = k + 1 := ⟨fuel - 1, by omega⟩
  have ht : targetFrames o 1 d = d._num_frames_decoded + 1 := by
    unfold targetFrames
    dsimp only
    rw [if_pos (by norm_num), wrapInt_of_range _ (by omega) (by omega)]
    exact min_eq_right (by omega)
  unfold AdvanceDecoding
  rw [if_neg (by simpa using h0), if_neg (by simpa using le_of_lt hlt)]
  dsimp only
  rw [ht, advanceLoop_step g cfg o (k + 1) _ k d d1 (by omega) hf,
    advanceLoop_done g cfg o (k + 1) _ k d1 (by omega)]

theorem InitDecoding_exOneStateGraph (fuel : Nat) (hfuel : 1 ≤ fuel) :
    InitDecoding exOneStateGraph fuel exEmptyDecoder = .ok exInitDecoder := by
  obtain ⟨k, rfl⟩ : ∃ k, fuel = k + 1 := ⟨fuel - 1, by omega⟩
  unfold InitDecoding ProcessNonemitting
  dsimp only
  rw [if_neg (by simp [exEmptyDecoder])]
  have hloop : closureLoop exOneStateGraph (FLT_MAX : WithTop ℚ) (k + 1)
      [(exOneStateGraph.Start, Token.ofArc ⟨0, 0, exOneStateGraph.Start, 0⟩ none)]
      (seedQueue [(exOneStateGraph.Start, Token.ofArc ⟨0, 0, exOneStateGraph.Start, 0⟩ none)]
        exEmptyDecoder._queue) = .ok ([(0, exRoot)], []) := by
    show closureLoop exOneStateGraph (FLT_MAX : WithTop ℚ) (k + 1) [(0, exRoot)] [0] = _
    rw [closureLoop_succ]
    have hf : findTok [((0 : StateId), exRoot)] 0 = some exRoot := by simp [findTok]
    rw [hf]
    dsimp only
    rw [exOneStateGraph_arcs, List.foldl_nil, closureLoop_nil]
    have hc : ¬ ((FLT_MAX : ℚ) : WithTop ℚ) < ((exRoot._tot_cost : ℚ) : WithTop ℚ) := by
      rw [WithTop.coe_lt_coe]
      norm_num [FLT_MAX, exRoot, Token.ofArc, Token._tot_cost]
    rw [if_neg hc]
    exact if_pos rfl
  rw [hloop]
  rfl

/-- One call of `AdvanceDecoding` for one blank frame on the graph with one
state, from a frontier of one token of cost 0 at state `s`. -/
theorem blank_frame_call (cfg : CtcFasterDecoderOptions) (hv : ValidConfig cfg)
    (hbeam : 0 < cfg._beam) (o : AmInterface)
    (hskip : ∀ f, o.SkipBlockFrame f = false)
    (hLL : ∀ f, o.LogLikelihood f o.GetBlockTransitionId = 0)
    (fuel : Nat) (hfuel : 1 ≤ fuel) (d : Decoder) (s : StateId) (tok : Token)
    (hcur : d._cur_toks = [(s, tok)]) (hk : tok._arc._to = s) (hq : d._queue = [])
    (hcost : tok._tot_cost = 0)
    (h0 : 0 ≤ d._num_frames_decoded) (hlt : d._num_frames_decoded < o.NumFramesReady)
    (hR : o.NumFramesReady ≤ 2147483647) :
    ∃ d1, AdvanceDecoding exOneStateGraph cfg o 1 fuel d = .ok d1 ∧
      d1._cur_toks = [(if s < 1 then s + 1 else s,
        Token.mk ⟨o.GetBlockTransitionId, 0, if s < 1 then s + 1 else s, 0⟩ (some tok) 0)] ∧
      d1._queue = [] ∧ d1._num_frames_decoded = d._num_frames_decoded + 1 := by
  obtain ⟨d1, hf, h1, h2, h3⟩ := blank_frame cfg hv hbeam o d s tok hcur hk hq hcost (hskip _)
    (hLL _) fuel hfuel
  rw [hcost] at h1
  exact ⟨d1, AdvanceDecoding_one_frame _ cfg o fuel d d1 h0 hlt hfuel hR hf h3, h1, h2, h3⟩

/-- Claim C19 as stated fails: on the graph with one state (`TotState = 1`) the
hypothesis is at the shadow state `0 + 1 = 1` after the first blank frame and
still at state 1, not back at the base state 0, after the second. -/
theorem blank_frames_do_not_alternate :
    ∃ d1 d2 : Decoder,
      InitDecoding exOneStateGraph 1 exEmptyDecoder = .ok exInitDecoder ∧
      AdvanceDecoding exOneStateGraph exOpts exOracle 1 1 exInitDecoder = .ok d1 ∧
      AdvanceDecoding exOneStateGraph exOpts exOracle 1 1 d1 = .ok d2 ∧
      exOneStateGraph.TotState = 1 ∧
      d1._cur_toks.map (·.1) = [1] ∧ d2._cur_toks.map (·.1) = [1] ∧
      ¬ (d2._cur_toks.map (·.1) = [0]) := by
  have hbeam : 0 < exOpts._beam := by norm_num [exOpts]
  obtain ⟨d1, ha1, hc1, hq1, hn1⟩ := blank_frame_call exOpts validConfig_exOpts hbeam exOracle
    (fun _ => rfl) (fun _ => rfl) 1 (le_refl _) exInitDecoder 0 exRoot rfl rfl rfl rfl
    (by simp [exInitDecoder]) (by simp [exInitDecoder, exOracle]) (by norm_num [exOracle])
  have hn1' : d1._num_frames_decoded = 1 := by rw [hn1]; simp [exInitDecoder]
  obtain ⟨d2, ha2, hc2, -, -⟩ := blank_frame_call exOpts validConfig_exOpts hbeam exOracle
    (fun _ => rfl) (fun _ => rfl) 1 (le_refl _) d1 _ _ hc1 rfl hq1 rfl
    (by rw [hn1']; norm_num) (by rw [hn1']; simp [exOracle]) (by norm_num [exOracle])
  refine ⟨d1, d2, InitDecoding_exOneStateGraph 1 (le_refl _), ha1, ha2, rfl, ?_, ?_, ?_⟩
  · rw [hc1]; rfl
  · rw [hc2]; rfl
  · rw [hc2]
    simp

/-- Claim C19 as amended: on the graph with one state and no arcs, with accepted
options, a positive beam and an oracle with three frames ready, none skipped,
whose blank log-likelihood is 0, each of three one-frame calls of
`AdvanceDecoding` leaves a single hypothesis of cost 0; it moves from the base
state 0 to the shadow state `0 + TotState = 1` on the first frame and stays at
the shadow state on the later frames; after the third frame its back-spine
consists of three blank arcs followed by the dummy arc of the root. -/
theorem blank_frames_stay_at_shadow_state (cfg : CtcFasterDecoderOptions) (hv : ValidConfig cfg)
    (hbeam : 0 < cfg._beam) (o : AmInterface) (hready : o.NumFramesReady = 3)
    (hskip : ∀ f, o.SkipBlockFrame f = false)
    (hLL : ∀ f, o.LogLikelihood f o.GetBlockTransitionId = 0)
    (fuel : Nat) (hfuel : 1 ≤ fuel) :
    ∃ d1 d2 d3 : Decoder,
      InitDecoding exOneStateGraph fuel exEmptyDecoder = .ok exInitDecoder ∧
      exInitDecoder._cur_toks = [(0, exRoot)] ∧
      AdvanceDecoding exOneStateGraph cfg o 1 fuel exInitDecoder = .ok d1 ∧
      AdvanceDecoding exOneStateGraph cfg o 1 fuel d1 = .ok d2 ∧
      AdvanceDecoding exOneStateGraph cfg o 1 fuel d2 = .ok d3 ∧
      d1._cur_toks = [(1, exBlank1 o.GetBlockTransitionId)] ∧
      d2._cur_toks = [(1, exBlank2 o.GetBlockTransitionId)] ∧
      d3._cur_toks = [(1, exBlank3 o.GetBlockTransitionId)] ∧
      (exBlank1 o.GetBlockTransitionId)._tot_cost = 0 ∧
      (exBlank2 o.GetBlockTransitionId)._tot_cost = 0 ∧
      (exBlank3 o.GetBlockTransitionId)._tot_cost = 0 ∧
      (1 : StateId) = 0 + exOneStateGraph.TotState ∧
      (exBlank3 o.GetBlockTransitionId).spine =
        [exBlankArc o.GetBlockTransitionId, exBlankArc o.GetBlockTransitionId,
          exBlankArc o.GetBlockTransitionId, ⟨0, 0, 0, 0⟩] ∧
      d3._num_frames_decoded = 3 := by
  obtain ⟨d1, ha1, hc1, hq1, hn1⟩ := blank_frame_call cfg hv hbeam o hskip hLL fuel hfuel
    exInitDecoder 0 exRoot rfl rfl rfl rfl (by simp [exInitDecoder])
    (by rw [hready]; simp [exInitDecoder]) (by rw [hready]; norm_num)
  have hn1' : d1._num_frames_decoded = 1 := by rw [hn1]; simp [exInitDecoder]
  have hc1' : d1._cur_toks = [(1, exBlank1 o.GetBlockTransitionId)] := by rw [hc1]; rfl
  obtain ⟨d2, ha2, hc2, hq2, hn2⟩ := blank_frame_call cfg hv hbeam o hskip hLL fuel hfuel
    d1 1 (exBlank1 o.GetBlockTransitionId) hc1' rfl hq1 rfl
    (by rw [hn1']; norm_num) (by rw [hn1', hready]; norm_num) (by rw [hready]; norm_num)
  have hn2' : d2._num_frames_decoded = 2 := by rw [hn2, hn1']; norm_num
  have hc2' : d2._cur_toks = [(1, exBlank2 o.GetBlockTransitionId)] := by rw [hc2]; rfl
  obtain ⟨d3, ha3, hc3, -, hn3⟩ := blank_frame_call cfg hv hbeam o hskip hLL fuel hfuel
    d2 1 (exBlank2 o.GetBlockTransitionId) hc2' rfl hq2 rfl
    (by rw [hn2']; norm_num) (by rw [hn2', hready]; norm_num) (by rw [hready]; norm_num)
  have hc3' : d3._cur_toks = [(1, exBlank3 o.GetBlockTransitionId)] := by rw [hc3]; rfl
  exact ⟨d1, d2, d3, InitDecoding_exOneStateGraph fuel hfuel, rfl, ha1, ha2, ha3, hc1', hc2', hc3',
    rfl, rfl, rfl, rfl, rfl, by rw [hn3, hn2']; norm_num⟩

/-- Witness for the amended claim C19: the usual options and the oracle with
three frames ready and blank label 99. -/
theorem blank_frames_stay_at_shadow_state_witness :
    ValidConfig exOpts ∧ 0 < exOpts._beam ∧ exOracle.NumFramesReady = 3 ∧
    (∀ f, exOracle.SkipBlockFrame f = false) ∧
    (∀ f, exOracle.LogLikelihood f exOracle.GetBlockTransitionId = 0) ∧
    ∃ d1 d2 d3 : Decoder,
      InitDecoding exOneStateGraph 1 exEmptyDecoder = .ok exInitDecoder ∧
      exInitDecoder._cur_toks = [(0, exRoot)] ∧
      AdvanceDecoding exOneStateGraph exOpts exOracle 1 1 exInitDecoder = .ok d1 ∧
      AdvanceDecoding exOneStateGraph exOpts exOracle 1 1 d1 = .ok d2 ∧
      AdvanceDecoding exOneStateGraph exOpts exOracle 1 1 d2 = .ok d3 ∧
      d1._cur_toks = [(1, exBlank1 exOracle.GetBlockTransitionId)] ∧
      d2._cur_toks = [(1, exBlank2 exOracle.GetBlockTransitionId)] ∧
      d3._cur_toks = [(1, exBlank3 exOracle.GetBlockTransitionId)] ∧
      (exBlank1 exOracle.GetBlockTransitionId)._tot_cost = 0 ∧
      (exBlank2 exOracle.GetBlockTransitionId)._tot_cost = 0 ∧
      (exBlank3 exOracle.GetBlockTransitionId)._tot_cost = 0 ∧
      (1 : StateId) = 0 + exOneStateGraph.TotState ∧
      (exBlank3 exOracle.GetBlockTransitionId).spine =
        [exBlankArc exOracle.GetBlockTransitionId, exBlankArc exOracle.GetBlockTransitionId,
          exBlankArc exOracle.GetBlockTransitionId, ⟨0, 0, 0, 0⟩] ∧
      d3._num_frames_decoded = 3 :=
  ⟨validConfig_exOpts, by norm_num [exOpts], rfl, fun _ => rfl, fun _ => rfl,
    blank_frames_stay_at_shadow_state exOpts validConfig_exOpts (by norm_num [exOpts]) exOracle rfl
      (fun _ => rfl) (fun _ => rfl) 1 (le_refl _)⟩

end CtcFasterDecoder
